import Mathlib

/-!
Verification of the `ds.h` data-structure library core against its
specification.  The development shallowly embeds the C sources:

* `slab.h`    — the generational slab allocator (`Slab`),
* `signal.h`  — the multicast event dispatch built on the slab,
* `map.h`     — the open-addressing hash map with tombstones (`HMap`),
* `ds_set.h`  — the intrusive sorted binary tree set, modelled with an
  explicit heap so that pointer manipulation and `free` are faithful.

Machine integers are modelled as `Nat` with explicit `% 2 ^ 32` where the C
code can overflow an `unsigned int` in an observable way (the slab generation
counter).  Debug assertions that a claim depends on are modelled by `Option`
(`none` = assertion failure / undefined behaviour); loops are given explicit
fuel, always instantiated large enough and proved irrelevant where needed.
-/

namespace DS

/-! ## Slab allocator (`slab.h`) -/

/-- Handle of the slab allocator (`name##_id` in `slab.h`): a slot index
paired with a generation counter (`age`). -/
structure SlabId where
  index : Nat
  age : Nat
deriving DecidableEq, Repr

/-- Storage block of the slab (`__name##_block` in `slab.h`): a generation
tag and the payload.  Generation `0` marks a free slot. -/
structure SlabBlock (α : Type) where
  age : Nat
  data : α
deriving DecidableEq, Repr

/-- Slab allocator state (`name` struct in `slab.h`): live count, the
next-free-slot hint and the backing vector of blocks (field `buckets`).
The backing vector's element count is `buckets.length`; its reserve
capacity only affects reallocation, which is unobservable. -/
structure Slab (α : Type) where
  count : Nat
  next : SlabId
  buckets : List (SlabBlock α)
deriving DecidableEq, Repr

/-- Age of block `i`, or `0` when out of range (`vector->array[i].age`). -/
def blockAge {α : Type} (bs : List (SlabBlock α)) (i : Nat) : Nat :=
  ((bs[i]?).map SlabBlock.age).getD 0

/-- `name##_new(capacity)`: count 0, next handle `{0, 1}`, empty block
vector.  `capacity` only pre-reserves storage, which is unobservable. -/
def slab_new (α : Type) (_capacity : Nat) : Slab α := ⟨0, ⟨0, 1⟩, []⟩

/-- `name##_valid(self, id)` from `slab.h`. -/
def slab_valid {α : Type} (s : Slab α) (id : SlabId) : Bool :=
  if s.count = 0 ∨ id.index ≥ s.buckets.length then false
  else
    let age := blockAge s.buckets id.index
    age ≠ 0 && age = id.age

/-- `name##_get(self, id)`: requires `slab_valid` (asserted in C, `none`
here), then returns the stored value. -/
def slab_get {α : Type} (s : Slab α) (id : SlabId) : Option α :=
  if slab_valid s id then (s.buckets[id.index]?).map SlabBlock.data else none

/-- The do-while scan in `name##_borrow`: starting at `i`, advance to the
first index whose block age is `0`, or to `bs.length` when none is free. -/
def scanFree {α : Type} (bs : List (SlabBlock α)) : Nat → Nat → Nat
  | i, 0 => i
  | i, fuel + 1 =>
    if i < bs.length ∧ blockAge bs i ≠ 0 then scanFree bs (i + 1) fuel else i

/-- `name##_borrow(self, data)` from `slab.h`.  Consumes the hint handle
`self->next`; either appends a new block (hint index past the end) or
overwrites the free slot at the hint, then rescans for the next free slot.
The generation counter is an `unsigned int`; wrap-around to `0` trips
`assert(self->next.age > 0)`, modelled as `none`. -/
def slab_borrow {α : Type} (s : Slab α) (d : α) : Option (SlabId × Slab α) :=
  let id := s.next
  let na := (id.age + 1) % 2 ^ 32
  if na = 0 then none
  else if id.index = s.buckets.length then
    some (id, ⟨s.count + 1, ⟨id.index + 1, na⟩, s.buckets ++ [⟨id.age, d⟩]⟩)
  else
    let bs := s.buckets.set id.index ⟨id.age, d⟩
    some (id, ⟨s.count + 1, ⟨scanFree bs (id.index + 1) bs.length, na⟩, bs⟩)

/-- `name##_return(self, id)` from `slab.h`: asserts a positive live count
and a valid handle (`none` on failure), lowers the hint to the freed index
when that index is smaller, and clears the slot's generation to `0`. -/
def slab_return {α : Type} (s : Slab α) (id : SlabId) : Option (Slab α) :=
  if s.count = 0 then none
  else if ¬ slab_valid s id then none
  else
    match s.buckets[id.index]? with
    | none => none
    | some b =>
      some ⟨s.count - 1,
        ⟨if s.next.index > id.index then id.index else s.next.index, s.next.age⟩,
        s.buckets.set id.index ⟨0, b.data⟩⟩

/-- Loop body of `name##_clear`: walk the blocks once, zeroing the age of
each live block and decrementing the live count, stopping early when the
count reaches `0`.  Returns the new blocks and the remaining count. -/
def clearGo {α : Type} : List (SlabBlock α) → Nat → List (SlabBlock α) × Nat
  | [], c => ([], c)
  | b :: bs, c =>
    if b.age = 0 then
      let p := clearGo bs c
      (b :: p.1, p.2)
    else if c - 1 = 0 then (⟨0, b.data⟩ :: bs, 0)
    else
      let p := clearGo bs (c - 1)
      (⟨0, b.data⟩ :: p.1, p.2)

/-- `name##_clear(self)` from `slab.h`: early-returns on an empty slab;
otherwise frees every live block, asserts that the count reached `0`
(`none` on failure) and resets the hint to index `0`, keeping its age. -/
def slab_clear {α : Type} (s : Slab α) : Option (Slab α) :=
  if s.count = 0 then some s
  else
    let p := clearGo s.buckets s.count
    if p.2 ≠ 0 then none
    else some ⟨0, ⟨0, s.next.age⟩, p.1⟩

/-- Observations collected while running the C5 scenario: the three
issued handles, the two validity checks and the final `get`. -/
structure C5Obs where
  h1 : SlabId
  h2 : SlabId
  h3 : SlabId
  valid1 : Bool
  valid3 : Bool
  got3 : Option Nat
deriving DecidableEq, Repr

/-- The C5 scenario run on the model. -/
def c5run : Option C5Obs :=
  (slab_borrow (slab_new Nat 2) 10).bind fun p1 =>
  (slab_borrow p1.2 20).bind fun p2 =>
  (slab_return p2.2 p1.1).bind fun s3 =>
  (slab_borrow s3 30).map fun p3 =>
  ⟨p1.1, p2.1, p3.1, slab_valid p3.2 p1.1, slab_valid p3.2 p3.1,
    slab_get p3.2 p3.1⟩

/-- C5: on a slab of capacity 2, `borrow(10)` yields handle (index 0,
generation 1), `borrow(20)` yields (index 1, generation 2); after
`return` of the first handle, `borrow(30)` reuses index 0 with generation
3; the first handle is then invalid, the third is valid and `get` on it
yields 30. -/
theorem slab_generational_scenario :
    c5run = some ⟨⟨0, 1⟩, ⟨1, 2⟩, ⟨0, 3⟩, false, true, some 30⟩ := by
  decide

/-! ## Multicast event dispatch (`signal.h`)

A signal is a slab of bindings.  A C binding is a `(target, func)` pair of
pointers; it is modelled by a `Nat` identifier, and an environment
`env : Nat → Slab Nat → Slab Nat` gives the effect each bound callback has
on the registry it is bound to (callbacks are explicitly allowed to mutate
the registry mid-invoke). -/

/-- `signal_bind(self, target, func)`: borrows a slab slot for the
binding. -/
def signal_bind (s : Slab Nat) (f : Nat) : Option (SlabId × Slab Nat) :=
  slab_borrow s f

/-- `signal_unbind(self, handle)`: asserts the handle is bound, then
returns the slot to the slab. -/
def signal_unbind (s : Slab Nat) (h : SlabId) : Option (Slab Nat) :=
  if slab_valid s h then slab_return s h else none

/-- Result of the `signal_invoke` macro: normal completion, failure of the
closing `assert(remaining == 0)`, or fuel exhaustion (never reached with
enough fuel). -/
inductive InvokeRes where
  | done (s : Slab Nat)
  | assertRemaining (r : Nat) (s : Slab Nat)
  | fuelOut
deriving DecidableEq, Repr

/-- Loop of the `signal_invoke` macro in `signal.h`: `remaining` starts at
the live count; each iteration re-reads the current vector length and the
slot, skips free slots (age 0), otherwise runs the bound callback (which
may mutate the registry) and decrements `remaining`.  After the loop,
`assert(remaining == 0)`. -/
def signal_invoke_go (env : Nat → Slab Nat → Slab Nat) :
    Nat → Slab Nat → Nat → Nat → InvokeRes
  | 0, _, _, _ => .fuelOut
  | fuel + 1, s, i, remaining =>
    if remaining > 0 ∧ i < s.buckets.length then
      match s.buckets[i]? with
      | none => .fuelOut
      | some b =>
        if b.age = 0 then signal_invoke_go env fuel s (i + 1) remaining
        else signal_invoke_go env fuel (env b.data s) (i + 1) (remaining - 1)
    else if remaining ≠ 0 then .assertRemaining remaining s
    else .done s

/-- `signal_invoke(self, args...)` from `signal.h`. -/
def signal_invoke (env : Nat → Slab Nat → Slab Nat) (s : Slab Nat)
    (fuel : Nat) : InvokeRes :=
  signal_invoke_go env fuel s 0 s.count

/-- Environment of the C8 failing input: the callback of binding `0`
unbinds the binding at handle (index 1, generation 2) — a binding the
invocation loop has not visited yet; every other callback does nothing. -/
def c8env : Nat → Slab Nat → Slab Nat := fun id s =>
  if id = 0 then (signal_unbind s ⟨1, 2⟩).getD s else s

/-- The C8 failing input: a registry with two live bindings, invoked under
`c8env`. -/
def c8run : Option InvokeRes :=
  (signal_bind (slab_new Nat 4) 0).bind fun p1 =>
  (signal_bind p1.2 1).map fun p2 =>
  signal_invoke c8env p2.2 10

/-- Projection: the remaining count reported by a failed closing
assertion, if any. -/
def invokeAssertFailure : InvokeRes → Option Nat
  | .assertRemaining r _ => some r
  | _ => none

/-- C8 (failing input): with two live bindings, letting the first
callback unbind the not-yet-visited second binding makes the invocation
loop terminate with `remaining = 1`, so the closing
`assert(remaining == 0)` of `signal_invoke` fails — contradicting the
documented contract that the signal can be mutated while being invoked. -/
theorem signal_invoke_unbind_ahead_asserts :
    c8run.map invokeAssertFailure = some (some 1) := by
  decide

/-! ### Slab reachability and invariants (claim C9) -/

/-- Operations on a slab, for stating reachability. -/
inductive SlabOp (α : Type) where
  | borrow (d : α)
  | ret (id : SlabId)
  | clear

/-- Run a list of operations, collecting the handles issued by `borrow`.
`none` when any operation trips a debug assertion. -/
def slab_run {α : Type} : Slab α → List (SlabOp α) → Option (Slab α × List SlabId)
  | s, [] => some (s, [])
  | s, .borrow d :: ops =>
    (slab_borrow s d).bind fun p =>
      (slab_run p.2 ops).map fun q => (q.1, p.1 :: q.2)
  | s, .ret id :: ops => (slab_return s id).bind fun s' => slab_run s' ops
  | s, .clear :: ops => (slab_clear s).bind fun s' => slab_run s' ops

/-- Number of live (nonzero-age) blocks. -/
def liveCount {α : Type} : List (SlabBlock α) → Nat
  | [] => 0
  | b :: bs => (if b.age = 0 then 0 else 1) + liveCount bs

/-- Well-formedness invariant of a slab: the count matches the number of
live blocks; every stored generation is below the hint's generation, which
is positive and below the `unsigned int` wrap; and the hint index is the
lowest free index (all blocks below it are live, the block at it — if any
— is free). -/
structure SlabWf {α : Type} (s : Slab α) : Prop where
  count_live : s.count = liveCount s.buckets
  ages_lt : ∀ j, blockAge s.buckets j < s.next.age
  age_pos : 1 ≤ s.next.age
  age_lt : s.next.age < 2 ^ 32
  hint_le : s.next.index ≤ s.buckets.length
  hint_ff : ∀ j, j < s.next.index → blockAge s.buckets j ≠ 0
  hint_free : s.next.index = s.buckets.length ∨ blockAge s.buckets s.next.index = 0

theorem blockAge_nil {α : Type} (j : Nat) : blockAge ([] : List (SlabBlock α)) j = 0 := by
  simp [blockAge]

theorem blockAge_cons_zero {α : Type} (b : SlabBlock α) (bs : List (SlabBlock α)) :
    blockAge (b :: bs) 0 = b.age := by
  simp [blockAge]

theorem blockAge_cons_succ {α : Type} (b : SlabBlock α) (bs : List (SlabBlock α)) (j : Nat) :
    blockAge (b :: bs) (j + 1) = blockAge bs j := by
  simp [blockAge]

theorem blockAge_set_self {α : Type} {bs : List (SlabBlock α)} {i : Nat}
    (h : i < bs.length) (b : SlabBlock α) : blockAge (bs.set i b) i = b.age := by
  simp [blockAge, List.getElem?_set_eq h]

theorem blockAge_set_ne {α : Type} {bs : List (SlabBlock α)} {i j : Nat}
    (h : i ≠ j) (b : SlabBlock α) : blockAge (bs.set i b) j = blockAge bs j := by
  simp [blockAge, List.getElem?_set_ne h]

theorem blockAge_append_left {α : Type} {bs cs : List (SlabBlock α)} {j : Nat}
    (h : j < bs.length) : blockAge (bs ++ cs) j = blockAge bs j := by
  simp [blockAge, List.getElem?_append_left h]

theorem blockAge_append_last {α : Type} (bs : List (SlabBlock α)) (b : SlabBlock α) :
    blockAge (bs ++ [b]) bs.length = b.age := by
  simp [blockAge]

theorem blockAge_of_ge {α : Type} {bs : List (SlabBlock α)} {j : Nat}
    (h : bs.length ≤ j) : blockAge bs j = 0 := by
  simp [blockAge, List.getElem?_eq_none h]

theorem liveCount_append {α : Type} (as bs : List (SlabBlock α)) :
    liveCount (as ++ bs) = liveCount as + liveCount bs := by
  induction as with
  | nil => simp [liveCount]
  | cons a as ih => simp [liveCount, ih]; omega

theorem liveCount_eq_zero {α : Type} {bs : List (SlabBlock α)}
    (h : liveCount bs = 0) : ∀ j, blockAge bs j = 0 := by
  induction bs with
  | nil => intro j; exact blockAge_nil j
  | cons b bs ih =>
    intro j
    have hb : b.age = 0 ∧ liveCount bs = 0 := by
      by_cases hb : b.age = 0 <;> simp [liveCount, hb] at h <;> simp [hb, h]
    cases j with
    | zero => rw [blockAge_cons_zero]; exact hb.1
    | succ j => rw [blockAge_cons_succ]; exact ih hb.2 j

theorem liveCount_eq_zero_of_all {α : Type} {bs : List (SlabBlock α)}
    (h : ∀ j, blockAge bs j = 0) : liveCount bs = 0 := by
  induction bs with
  | nil => rfl
  | cons b bs ih =>
    have h0 := h 0
    rw [blockAge_cons_zero] at h0
    simp [liveCount, h0]
    exact ih fun j => by have := h (j + 1); rwa [blockAge_cons_succ] at this

theorem liveCount_set {α : Type} (bs : List (SlabBlock α)) (i : Nat) (b : SlabBlock α)
    (h : i < bs.length) :
    liveCount (bs.set i b) + (if blockAge bs i = 0 then 0 else 1)
      = liveCount bs + (if b.age = 0 then 0 else 1) := by
  induction bs generalizing i with
  | nil => simp at h
  | cons hd tl ih =>
    cases i with
    | zero =>
      simp [List.set, liveCount, blockAge_cons_zero]
      omega
    | succ i =>
      have hlt : i < tl.length := by simpa using h
      have := ih i hlt
      simp [List.set, liveCount, blockAge_cons_succ]
      omega

theorem scanFree_spec {α : Type} (bs : List (SlabBlock α)) :
    ∀ fuel i, bs.length ≤ i + fuel → i ≤ bs.length →
      i ≤ scanFree bs i fuel ∧ scanFree bs i fuel ≤ bs.length ∧
      (∀ j, i ≤ j → j < scanFree bs i fuel → blockAge bs j ≠ 0) ∧
      (scanFree bs i fuel = bs.length ∨ blockAge bs (scanFree bs i fuel) = 0) := by
  intro fuel
  induction fuel with
  | zero =>
    intro i h1 h2
    have hi : i = bs.length := by omega
    refine ⟨Nat.le_refl i, h2, ?_, Or.inl hi⟩
    intro j hij hji
    simp [scanFree] at hji
    omega
  | succ fuel ih =>
    intro i h1 h2
    rw [scanFree]
    split
    case isTrue h =>
      obtain ⟨r1, r2, r3, r4⟩ := ih (i + 1) (by omega) (by omega)
      refine ⟨by omega, r2, ?_, r4⟩
      intro j hij hji
      rcases Nat.eq_or_lt_of_le hij with rfl | hlt
      · exact h.2
      · exact r3 j hlt hji
    case isFalse h =>
      refine ⟨Nat.le_refl i, h2, ?_, ?_⟩
      · intro j hij hji; omega
      · rcases Nat.eq_or_lt_of_le h2 with he | hlt
        · exact Or.inl he
        · right
          by_cases hz : blockAge bs i = 0
          · exact hz
          · exact absurd ⟨hlt, hz⟩ h

theorem slab_borrow_wf {α : Type} {s : Slab α} {d : α} {id : SlabId} {s' : Slab α}
    (wf : SlabWf s) (h : slab_borrow s d = some (id, s')) :
    SlabWf s' ∧ id = s.next ∧ s'.next.age = s.next.age + 1 := by
  rw [slab_borrow] at h
  by_cases hna : (s.next.age + 1) % 2 ^ 32 = 0
  · rw [if_pos hna] at h
    exact Option.noConfusion h
  rw [if_neg hna] at h
  have hlt32 : s.next.age + 1 < 2 ^ 32 := by
    have := wf.age_lt
    rcases Nat.lt_or_ge (s.next.age + 1) (2 ^ 32) with hh | hh
    · exact hh
    · have he : s.next.age + 1 = 2 ^ 32 := by omega
      rw [he, Nat.mod_self] at hna
      exact absurd rfl hna
  have hage : (s.next.age + 1) % 2 ^ 32 = s.next.age + 1 := Nat.mod_eq_of_lt hlt32
  rw [hage] at h
  by_cases hidx : s.next.index = s.buckets.length
  · rw [if_pos hidx] at h
    obtain ⟨rfl, rfl⟩ : id = s.next ∧
        s' = ⟨s.count + 1, ⟨s.next.index + 1, s.next.age + 1⟩,
          s.buckets ++ [⟨s.next.age, d⟩]⟩ := by
      cases h; exact ⟨rfl, rfl⟩
    refine ⟨⟨?_, ?_, ?_, ?_, ?_, ?_, ?_⟩, rfl, rfl⟩
    · show s.count + 1 = liveCount (s.buckets ++ [⟨s.next.age, d⟩])
      rw [liveCount_append, ← wf.count_live]
      show s.count + 1 = s.count + ((if s.next.age = 0 then 0 else 1) + 0)
      rw [if_neg (by have := wf.age_pos; omega)]
    · intro j
      show blockAge (s.buckets ++ [⟨s.next.age, d⟩]) j < s.next.age + 1
      rcases Nat.lt_trichotomy j s.buckets.length with hj | hj | hj
      · rw [blockAge_append_left hj]
        have := wf.ages_lt j; omega
      · subst hj
        rw [blockAge_append_last]
        show s.next.age < s.next.age + 1
        omega
      · have hlen2 : (s.buckets ++ [(⟨s.next.age, d⟩ : SlabBlock α)]).length
            = s.buckets.length + 1 := by simp
        rw [blockAge_of_ge (by omega : (s.buckets ++ [(⟨s.next.age, d⟩ : SlabBlock α)]).length ≤ j)]
        omega
    · show 1 ≤ s.next.age + 1; omega
    · exact hlt32
    · show s.next.index + 1 ≤ (s.buckets ++ [(⟨s.next.age, d⟩ : SlabBlock α)]).length
      simp [hidx]
    · intro j hj
      replace hj : j < s.next.index + 1 := hj
      rcases Nat.lt_or_ge j s.buckets.length with hlt | hge
      · rw [blockAge_append_left hlt]
        exact wf.hint_ff j (by omega)
      · have hje : j = s.buckets.length := by omega
        subst hje
        rw [blockAge_append_last]
        show s.next.age ≠ 0
        have := wf.age_pos; omega
    · left
      show s.next.index + 1 = (s.buckets ++ [(⟨s.next.age, d⟩ : SlabBlock α)]).length
      simp [hidx]
  · rw [if_neg hidx] at h
    have hlt : s.next.index < s.buckets.length :=
      Nat.lt_of_le_of_ne wf.hint_le hidx
    have hfree : blockAge s.buckets s.next.index = 0 := by
      rcases wf.hint_free with hf | hf
      · exact absurd hf hidx
      · exact hf
    set bs : List (SlabBlock α) := s.buckets.set s.next.index ⟨s.next.age, d⟩ with hbs
    have hlen : bs.length = s.buckets.length := by
      rw [hbs]; simp
    obtain ⟨rfl, rfl⟩ : id = s.next ∧
        s' = ⟨s.count + 1, ⟨scanFree bs (s.next.index + 1) bs.length, s.next.age + 1⟩, bs⟩ := by
      cases h; exact ⟨rfl, rfl⟩
    obtain ⟨sc1, sc2, sc3, sc4⟩ :=
      scanFree_spec bs bs.length (s.next.index + 1) (by omega) (by omega)
    have hsetAge : ∀ j, blockAge bs j =
        if j = s.next.index then s.next.age else blockAge s.buckets j := by
      intro j
      by_cases hj : j = s.next.index
      · subst hj
        rw [if_pos rfl, hbs, blockAge_set_self hlt]
      · rw [if_neg hj, hbs, blockAge_set_ne (Ne.symm hj)]
    refine ⟨⟨?_, ?_, ?_, ?_, ?_, ?_, ?_⟩, rfl, rfl⟩
    · show s.count + 1 = liveCount bs
      have hls := liveCount_set s.buckets s.next.index ⟨s.next.age, d⟩ hlt
      rw [hfree, if_pos rfl] at hls
      rw [show (⟨s.next.age, d⟩ : SlabBlock α).age = s.next.age from rfl,
        if_neg (by have := wf.age_pos; omega), ← hbs] at hls
      rw [wf.count_live]
      omega
    · intro j
      show blockAge bs j < s.next.age + 1
      rw [hsetAge j]
      by_cases hj : j = s.next.index
      · rw [if_pos hj]; omega
      · rw [if_neg hj]; have := wf.ages_lt j; omega
    · show 1 ≤ s.next.age + 1; omega
    · exact hlt32
    · exact sc2
    · intro j hj
      replace hj : j < scanFree bs (s.next.index + 1) bs.length := hj
      show blockAge bs j ≠ 0
      by_cases hje : j = s.next.index
      · rw [hsetAge j, if_pos hje]
        have := wf.age_pos; omega
      · rcases Nat.lt_or_ge j s.next.index with hlt2 | hge2
        · rw [hsetAge j, if_neg hje]
          exact wf.hint_ff j hlt2
        · exact sc3 j (by omega) hj
    · show _ = bs.length ∨ blockAge bs _ = 0
      exact sc4

theorem slab_return_wf {α : Type} {s : Slab α} {id : SlabId} {s' : Slab α}
    (wf : SlabWf s) (h : slab_return s id = some s') :
    SlabWf s' ∧ s'.next.age = s.next.age := by
  rw [slab_return] at h
  by_cases hc : s.count = 0
  · simp [hc] at h
  rw [if_neg hc] at h
  by_cases hv : slab_valid s id
  · rw [if_neg (by simp [hv])] at h
    have hvp : id.index < s.buckets.length ∧
        blockAge s.buckets id.index ≠ 0 ∧ blockAge s.buckets id.index = id.age := by
      rw [slab_valid] at hv
      by_cases hcc : s.count = 0 ∨ id.index ≥ s.buckets.length
      · simp [hcc] at hv
      · rw [if_neg hcc] at hv
        simp at hv hcc
        exact ⟨hcc.2, hv.1, hv.2⟩
    obtain ⟨hilt, hnz, hageq⟩ := hvp
    obtain ⟨b, hb⟩ : ∃ b, s.buckets[id.index]? = some b :=
      ⟨s.buckets.get ⟨id.index, hilt⟩, List.getElem?_eq_some_iff.mpr ⟨hilt, rfl⟩⟩
    rw [hb] at h
    obtain rfl : s' = ⟨s.count - 1,
        ⟨if s.next.index > id.index then id.index else s.next.index, s.next.age⟩,
        s.buckets.set id.index ⟨0, b.data⟩⟩ := by
      cases h; rfl
    set bs := s.buckets.set id.index ⟨0, b.data⟩ with hbs
    have hlen : bs.length = s.buckets.length := by simp [hbs]
    have hsetAge : ∀ j, blockAge bs j =
        if j = id.index then 0 else blockAge s.buckets j := by
      intro j
      by_cases hj : j = id.index
      · subst hj; simp [hbs, blockAge_set_self hilt]
      · simp [hbs, blockAge_set_ne (Ne.symm hj), hj]
    refine ⟨⟨?_, ?_, ?_, ?_, ?_, ?_, ?_⟩, rfl⟩
    · show s.count - 1 = liveCount bs
      have := liveCount_set s.buckets id.index ⟨0, b.data⟩ hilt
      rw [if_neg hnz] at this
      simp at this
      rw [← hbs] at this
      rw [wf.count_live]
      omega
    · intro j
      rw [hsetAge j]
      by_cases hj : j = id.index
      · simp [hj]; exact wf.age_pos
      · simp [hj]; exact wf.ages_lt j
    · exact wf.age_pos
    · exact wf.age_lt
    · show (if s.next.index > id.index then id.index else s.next.index) ≤ bs.length
      rw [hlen]
      split
      · omega
      · exact wf.hint_le
    · intro j hj
      simp only at hj
      rw [hsetAge j]
      split at hj
      · rw [if_neg (by omega)]
        exact wf.hint_ff j (by omega)
      · rename_i hgt
        rw [if_neg ?_]
        · exact wf.hint_ff j hj
        · intro hje
          subst hje
          omega
    · show (if s.next.index > id.index then id.index else s.next.index) = bs.length ∨
        blockAge bs (if s.next.index > id.index then id.index else s.next.index) = 0
      split
      · right; rw [hsetAge, if_pos rfl]
      · rename_i hng
        by_cases hhe : s.next.index = id.index
        · right; rw [hsetAge, if_pos hhe]
        · rcases wf.hint_free with hf | hf
          · left; rw [hlen]; exact hf
          · right; rw [hsetAge, if_neg hhe]; exact hf
  · rw [if_pos (by simp [hv])] at h
    simp at h

theorem clearGo_props {α : Type} : ∀ (bs : List (SlabBlock α)) (c : Nat), 0 < c →
    c = liveCount bs →
    (∀ j, blockAge (clearGo bs c).1 j = 0) ∧ (clearGo bs c).2 = 0 := by
  intro bs
  induction bs with
  | nil => intro c hc hl; simp [liveCount] at hl; omega
  | cons b bs ih =>
    intro c hc hl
    by_cases hb : b.age = 0
    · have hl' : c = liveCount bs := by simpa [liveCount, hb] using hl
      obtain ⟨ha, hr⟩ := ih c hc hl'
      rw [clearGo, if_pos hb]
      refine ⟨?_, hr⟩
      intro j
      cases j with
      | zero => rw [blockAge_cons_zero]; exact hb
      | succ j => rw [blockAge_cons_succ]; exact ha j
    · have hl' : c = 1 + liveCount bs := by simpa [liveCount, hb] using hl
      rw [clearGo, if_neg hb]
      by_cases hz : c - 1 = 0
      · rw [if_pos hz]
        have hlz : liveCount bs = 0 := by omega
        refine ⟨?_, rfl⟩
        intro j
        cases j with
        | zero => rw [blockAge_cons_zero]
        | succ j => rw [blockAge_cons_succ]; exact liveCount_eq_zero hlz j
      · rw [if_neg hz]
        obtain ⟨ha, hr⟩ := ih (c - 1) (by omega) (by omega)
        refine ⟨?_, hr⟩
        intro j
        cases j with
        | zero => rw [blockAge_cons_zero]
        | succ j => rw [blockAge_cons_succ]; exact ha j

theorem slab_clear_wf {α : Type} {s s' : Slab α} (wf : SlabWf s)
    (h : slab_clear s = some s') :
    SlabWf s' ∧ s'.next.age = s.next.age ∧ s'.count = 0 ∧
      (∀ j, blockAge s'.buckets j = 0) ∧ s'.next.index = 0 := by
  rw [slab_clear] at h
  by_cases hc : s.count = 0
  · rw [if_pos hc] at h
    cases h
    have hz : ∀ j, blockAge s.buckets j = 0 := by
      have : liveCount s.buckets = 0 := by rw [← wf.count_live]; exact hc
      exact liveCount_eq_zero this
    have hidx : s.next.index = 0 := by
      by_contra hne
      exact wf.hint_ff 0 (by omega) (hz 0)
    exact ⟨wf, rfl, hc, hz, hidx⟩
  · rw [if_neg hc] at h
    obtain ⟨ha, hr⟩ := clearGo_props s.buckets s.count (by omega) wf.count_live
    rw [if_neg (by simp [hr])] at h
    cases h
    refine ⟨⟨?_, ?_, wf.age_pos, wf.age_lt, ?_, ?_, ?_⟩, rfl, rfl, ha, rfl⟩
    · exact (liveCount_eq_zero_of_all ha).symm
    · intro j; rw [ha j]; exact wf.age_pos
    · exact Nat.zero_le _
    · intro j hj
      replace hj : j < 0 := hj
      exact absurd hj (Nat.not_lt_zero j)
    · exact Or.inr (ha 0)

/-- Lower bound on all live generations: every block is free or carries a
generation of at least `G`. -/
def AgeLB {α : Type} (G : Nat) (s : Slab α) : Prop :=
  ∀ j, blockAge s.buckets j = 0 ∨ G ≤ blockAge s.buckets j

theorem slab_borrow_ageLB {α : Type} {G : Nat} {s : Slab α} {d : α} {id : SlabId}
    {s' : Slab α} (hG : G ≤ s.next.age) (hA : AgeLB G s)
    (h : slab_borrow s d = some (id, s')) : AgeLB G s' := by
  rw [slab_borrow] at h
  by_cases hna : (s.next.age + 1) % 2 ^ 32 = 0
  · rw [if_pos hna] at h
    exact Option.noConfusion h
  rw [if_neg hna] at h
  by_cases hidx : s.next.index = s.buckets.length
  · rw [if_pos hidx] at h
    cases h
    intro j
    show blockAge (s.buckets ++ [⟨s.next.age, d⟩]) j = 0 ∨ _
    rcases Nat.lt_trichotomy j s.buckets.length with hj | hj | hj
    · rw [blockAge_append_left hj]; exact hA j
    · subst hj; rw [blockAge_append_last]; right; exact hG
    · rw [blockAge_of_ge (by simp; omega)]; left; rfl
  · rw [if_neg hidx] at h
    cases h
    intro j
    by_cases hj : j = s.next.index
    · subst hj
      rcases Nat.lt_or_ge s.next.index s.buckets.length with hlt | hge
      · rw [show blockAge (s.buckets.set s.next.index ⟨s.next.age, d⟩) s.next.index
              = s.next.age from blockAge_set_self hlt _]
        right; exact hG
      · rw [blockAge_of_ge (by simpa using hge)]
        left; rfl
    · rw [blockAge_set_ne (Ne.symm hj)]
      exact hA j

theorem slab_return_ageLB {α : Type} {G : Nat} {s : Slab α} {id : SlabId}
    {s' : Slab α} (hA : AgeLB G s) (h : slab_return s id = some s') : AgeLB G s' := by
  rw [slab_return] at h
  by_cases hc : s.count = 0
  · simp [hc] at h
  rw [if_neg hc] at h
  by_cases hv : slab_valid s id
  · rw [if_neg (by simp [hv])] at h
    cases hb : s.buckets[id.index]? with
    | none => rw [hb] at h; cases h
    | some b =>
      rw [hb] at h
      cases h
      intro j
      by_cases hj : j = id.index
      · subst hj
        have hlt : id.index < s.buckets.length := by
          rcases List.getElem?_eq_some_iff.mp hb with ⟨hh, _⟩
          exact hh
        rw [show blockAge (s.buckets.set id.index ⟨0, b.data⟩) id.index = 0 from
          blockAge_set_self hlt _]
        left; rfl
      · show blockAge (s.buckets.set id.index ⟨0, b.data⟩) j = 0 ∨ _
        rw [blockAge_set_ne (Ne.symm hj)]
        exact hA j
  · rw [if_pos (by simp [hv])] at h
    simp at h

theorem clearGo_ageLB {α : Type} : ∀ (bs : List (SlabBlock α)) (c j : Nat),
    blockAge (clearGo bs c).1 j = 0 ∨ blockAge (clearGo bs c).1 j = blockAge bs j := by
  intro bs
  induction bs with
  | nil => intro c j; left; simp [clearGo, blockAge_nil]
  | cons b bs ih =>
    intro c j
    rw [clearGo]
    by_cases hb : b.age = 0
    · rw [if_pos hb]
      cases j with
      | zero => right; simp [blockAge_cons_zero]
      | succ j =>
        simp only [blockAge_cons_succ]
        exact ih c j
    · rw [if_neg hb]
      by_cases hz : c - 1 = 0
      · rw [if_pos hz]
        cases j with
        | zero => left; rw [blockAge_cons_zero]
        | succ j => right; simp only [blockAge_cons_succ]
      · rw [if_neg hz]
        cases j with
        | zero => left; rw [blockAge_cons_zero]
        | succ j =>
          simp only [blockAge_cons_succ]
          exact ih (c - 1) j

theorem slab_clear_ageLB {α : Type} {G : Nat} {s s' : Slab α} (hA : AgeLB G s)
    (h : slab_clear s = some s') : AgeLB G s' := by
  rw [slab_clear] at h
  by_cases hc : s.count = 0
  · rw [if_pos hc] at h; cases h; exact hA
  · rw [if_neg hc] at h
    by_cases hr : (clearGo s.buckets s.count).2 ≠ 0
    · rw [if_pos hr] at h; cases h
    · rw [if_neg hr] at h
      cases h
      intro j
      rcases clearGo_ageLB s.buckets s.count j with h0 | heq
      · left; exact h0
      · show blockAge (clearGo s.buckets s.count).1 j = 0 ∨ _
        rw [heq]
        exact hA j

/-- Combined run lemma: well-formedness and the age lower bound are
preserved, the hint generation is monotone, and every issued handle's
generation lies in `[s.next.age, s'.next.age)`. -/
theorem slab_run_spec {α : Type} (G : Nat) : ∀ (ops : List (SlabOp α)) (s s' : Slab α)
    (hs : List SlabId), SlabWf s → AgeLB G s → G ≤ s.next.age →
    slab_run s ops = some (s', hs) →
    SlabWf s' ∧ AgeLB G s' ∧ s.next.age ≤ s'.next.age ∧
    ∀ h ∈ hs, s.next.age ≤ h.age ∧ h.age < s'.next.age := by
  intro ops
  induction ops with
  | nil =>
    intro s s' hs wf hA hG h
    rw [slab_run] at h
    cases h
    exact ⟨wf, hA, Nat.le_refl _, by simp⟩
  | cons op ops ih =>
    intro s s' hs wf hA hG h
    cases op with
    | borrow d =>
      rw [slab_run] at h
      cases hbor : slab_borrow s d with
      | none => rw [hbor] at h; cases h
      | some p =>
        rw [hbor] at h
        rw [Option.some_bind] at h
        cases hrun : slab_run p.2 ops with
        | none => rw [hrun] at h; cases h
        | some q =>
          rw [hrun] at h
          rw [Option.map_some'] at h
          cases h
          obtain ⟨wf1, hid, hage1⟩ := slab_borrow_wf wf hbor
          have hA1 : AgeLB G p.2 := slab_borrow_ageLB hG hA hbor
          obtain ⟨wf2, hA2, hmono, hhs⟩ :=
            ih p.2 q.1 q.2 wf1 hA1 (by omega) hrun
          refine ⟨wf2, hA2, by omega, ?_⟩
          intro hdl hmem
          rcases List.mem_cons.mp hmem with rfl | hmem2
          · rw [hid]
            exact ⟨Nat.le_refl _, by omega⟩
          · have := hhs hdl hmem2; omega
    | ret id =>
      rw [slab_run] at h
      cases hret : slab_return s id with
      | none => rw [hret] at h; cases h
      | some s1 =>
        rw [hret] at h
        rw [Option.some_bind] at h
        obtain ⟨wf1, hage1⟩ := slab_return_wf wf hret
        have hA1 : AgeLB G s1 := slab_return_ageLB hA hret
        obtain ⟨wf2, hA2, hmono, hhs⟩ := ih s1 s' hs wf1 hA1 (by omega) h
        refine ⟨wf2, hA2, by omega, ?_⟩
        intro hd hm
        have := hhs hd hm
        omega
    | clear =>
      rw [slab_run] at h
      cases hcl : slab_clear s with
      | none => rw [hcl] at h; cases h
      | some s1 =>
        rw [hcl] at h
        rw [Option.some_bind] at h
        obtain ⟨wf1, hage1, _, _, _⟩ := slab_clear_wf wf hcl
        have hA1 : AgeLB G s1 := slab_clear_ageLB hA hcl
        obtain ⟨wf2, hA2, hmono, hhs⟩ := ih s1 s' hs wf1 hA1 (by omega) h
        refine ⟨wf2, hA2, by omega, ?_⟩
        intro hd hm
        have := hhs hd hm
        omega

theorem slab_valid_of_count_zero {α : Type} {s : Slab α} (h : s.count = 0)
    (id : SlabId) : slab_valid s id = false := by
  simp [slab_valid, h]

theorem slab_valid_false_of_age_lt {α : Type} {G : Nat} {s : Slab α} {id : SlabId}
    (hA : AgeLB G s) (hlt : id.age < G) : slab_valid s id = false := by
  rw [slab_valid]
  by_cases hc : s.count = 0 ∨ id.index ≥ s.buckets.length
  · rw [if_pos hc]
  · rw [if_neg hc]
    rcases hA id.index with h0 | hge
    · simp [h0]
    · have : blockAge s.buckets id.index ≠ id.age := by omega
      simp [this]

theorem slab_new_wf {α : Type} (cap : Nat) : SlabWf (slab_new α cap) := by
  refine ⟨rfl, ?_, Nat.le_refl 1, by show (1 : Nat) < 2 ^ 32; norm_num,
    Nat.le_refl 0, ?_, Or.inl rfl⟩
  · intro j
    show blockAge ([] : List (SlabBlock α)) j < 1
    rw [blockAge_nil]
    exact Nat.one_pos
  · intro j hj
    replace hj : j < 0 := hj
    exact absurd hj (Nat.not_lt_zero j)

/-- C9: after a `clear`, every handle issued before the clear is invalid
immediately and stays invalid across any further operations, because the
clear keeps the generation counter (while resetting the hint index to 0)
and every handle issued later carries a strictly greater generation. -/
theorem slab_clear_invalidates_forever {α : Type} (cap : Nat)
    (pre post : List (SlabOp α)) (s1 s2 s3 : Slab α) (hs1 hs2 : List SlabId)
    (h1 : slab_run (slab_new α cap) pre = some (s1, hs1))
    (h2 : slab_clear s1 = some s2)
    (h3 : slab_run s2 post = some (s3, hs2)) :
    s2.next.age = s1.next.age ∧ s2.next.index = 0 ∧
    (∀ h ∈ hs1, slab_valid s2 h = false) ∧
    (∀ h ∈ hs1, slab_valid s3 h = false) ∧
    ∀ h ∈ hs1, ∀ h' ∈ hs2, h.age < h'.age := by
  have hA0 : AgeLB 1 (slab_new α cap) := by
    intro j; left; exact blockAge_nil j
  obtain ⟨wf1, _, _, hpre⟩ :=
    slab_run_spec 1 pre (slab_new α cap) s1 hs1 (slab_new_wf cap) hA0
      (Nat.le_refl 1) h1
  obtain ⟨wf2, hage2, hcnt2, hzero2, hidx2⟩ := slab_clear_wf wf1 h2
  have hA2 : AgeLB s2.next.age s2 := fun j => Or.inl (hzero2 j)
  obtain ⟨wf3, hA3, hmono3, hpost⟩ :=
    slab_run_spec s2.next.age post s2 s3 hs2 wf2 hA2 (Nat.le_refl _) h3
  have hup : ∀ h ∈ hs1, h.age < s2.next.age := by
    intro h hm
    have := (hpre h hm).2
    omega
  refine ⟨hage2, hidx2, ?_, ?_, ?_⟩
  · intro h hm
    exact slab_valid_of_count_zero hcnt2 h
  · intro h hm
    exact slab_valid_false_of_age_lt hA3 (hup h hm)
  · intro h hm h' hm'
    have := (hpost h' hm').1
    have := hup h hm
    omega

/-- Witness for C9 at a concrete run: borrow twice, return the first
handle, clear, then borrow again. -/
theorem slab_clear_invalidates_forever_witness :
    (slab_run (slab_new Nat 2) [.borrow 10, .borrow 20, .ret ⟨0, 1⟩]
      = some (⟨1, ⟨0, 3⟩, [⟨0, 10⟩, ⟨2, 20⟩]⟩, [⟨0, 1⟩, ⟨1, 2⟩])) ∧
    (slab_clear ⟨1, ⟨0, 3⟩, [⟨0, 10⟩, ⟨2, 20⟩]⟩
      = some (⟨0, ⟨0, 3⟩, [⟨0, 10⟩, ⟨0, 20⟩]⟩ : Slab Nat)) ∧
    (slab_run (⟨0, ⟨0, 3⟩, [⟨0, 10⟩, ⟨0, 20⟩]⟩ : Slab Nat) [.borrow 30]
      = some (⟨1, ⟨1, 4⟩, [⟨3, 30⟩, ⟨0, 20⟩]⟩, [⟨0, 3⟩])) ∧
    ((⟨0, ⟨0, 3⟩, [⟨0, 10⟩, ⟨0, 20⟩]⟩ : Slab Nat).next.age
        = (⟨1, ⟨0, 3⟩, [⟨0, 10⟩, ⟨2, 20⟩]⟩ : Slab Nat).next.age ∧
      (⟨0, ⟨0, 3⟩, [⟨0, 10⟩, ⟨0, 20⟩]⟩ : Slab Nat).next.index = 0 ∧
      (∀ h ∈ [(⟨0, 1⟩ : SlabId), ⟨1, 2⟩],
        slab_valid (⟨0, ⟨0, 3⟩, [⟨0, 10⟩, ⟨0, 20⟩]⟩ : Slab Nat) h = false) ∧
      (∀ h ∈ [(⟨0, 1⟩ : SlabId), ⟨1, 2⟩],
        slab_valid (⟨1, ⟨1, 4⟩, [⟨3, 30⟩, ⟨0, 20⟩]⟩ : Slab Nat) h = false) ∧
      ∀ h ∈ [(⟨0, 1⟩ : SlabId), ⟨1, 2⟩], ∀ h' ∈ [(⟨0, 3⟩ : SlabId)],
        h.age < h'.age) :=
  ⟨by decide, by decide, by decide,
    slab_clear_invalidates_forever 2 [.borrow 10, .borrow 20, .ret ⟨0, 1⟩]
      [.borrow 30] ⟨1, ⟨0, 3⟩, [⟨0, 10⟩, ⟨2, 20⟩]⟩ ⟨0, ⟨0, 3⟩, [⟨0, 10⟩, ⟨0, 20⟩]⟩
      ⟨1, ⟨1, 4⟩, [⟨3, 30⟩, ⟨0, 20⟩]⟩ [⟨0, 1⟩, ⟨1, 2⟩] [⟨0, 3⟩]
      (by decide) (by decide) (by decide)⟩

/-! ## Open-addressing hash map (`map.h`)

The map owns a vector of buckets used as a raw array: only its capacity
(`buckets.length` here) matters.  Parameters of the `DECLARE_MAP_NAMED`
macro become parameters `keq` (the `x_y_equals` code) and `hash` (the
`key_hasher` code); the deleter is a no-op for the value types considered.
Debug assertions of `map.h` never fire on the runs considered and are not
modelled; the unbounded `while (true)` retry loop of `insert` carries
explicit fuel (`none` = fuel exhausted), with fuel 2 proved sufficient for
well-formed maps. -/

/-- Bucket state tag (`BUCKET_EMPTY` / `BUCKET_OCCUPIED` / `BUCKET_SKIP`). -/
inductive BucketState where
  | empty
  | occupied
  | skip
deriving DecidableEq, Repr

/-- A map bucket (`ds_##name##_bucket`). -/
structure MBucket (K V : Type) where
  key : K
  value : V
  state : BucketState
deriving DecidableEq, Repr

/-- The hash map (`name` struct of `map.h`): live count and bucket array. -/
structure HMap (K V : Type) where
  count : Nat
  buckets : List (MBucket K V)
deriving DecidableEq, Repr

variable {K V : Type} [Inhabited K] [Inhabited V]

/-- A zero-initialized bucket (`memset` / `calloc` in the C code). -/
def emptyBucket : MBucket K V := ⟨default, default, .empty⟩

/-- `name##_new(capacity)`: zeroed bucket array of the given capacity. -/
def map_new (cap : Nat) : HMap K V := ⟨0, List.replicate cap emptyBucket⟩

/-- `self->buckets.array[i]` (always in range in the C code). -/
def bucketAt (bs : List (MBucket K V)) (i : Nat) : MBucket K V :=
  bs.getD i emptyBucket

variable (keq : K → K → Bool) (hash : K → Nat)

/-- Probe loop of `name##_find`: bounded by `remaining > 0 && i < capacity`
(fuel encodes `capacity - i`); stops at an Empty bucket, skips tombstones,
compares keys at Occupied buckets, decrementing `remaining` on mismatch. -/
def findGo (key : K) (bs : List (MBucket K V)) (cap h : Nat) :
    Nat → Nat → Nat → Option V
  | _, _, 0 => none
  | i, remaining, fuel + 1 =>
    if remaining = 0 then none
    else
      let b := bucketAt bs ((h + i) % cap)
      match b.state with
      | .empty => none
      | .skip => findGo key bs cap h (i + 1) remaining fuel
      | .occupied =>
        if keq key b.key then some b.value
        else findGo key bs cap h (i + 1) (remaining - 1) fuel

/-- `name##_find(self, key)` from `map.h` (also `find_const`). -/
def map_find (m : HMap K V) (key : K) : Option V :=
  findGo keq key m.buckets m.buckets.length (hash key % m.buckets.length) 0
    m.count m.buckets.length

/-- `name##_contains(self, key)`. -/
def map_contains (m : HMap K V) (key : K) : Bool :=
  (map_find keq hash m key).isSome

/-- Result of the insert probe loop over one table. -/
inductive ProbeRes (K V : Type) where
  | placed (bs : List (MBucket K V))
  | over (bs : List (MBucket K V))
  | exhausted
deriving DecidableEq, Repr

/-- The `for` probe of `name##_insert`: remembers the first
Empty-or-Tombstone slot as `target`; on an Empty slot places the new
bucket at the remembered target (or the Empty slot itself); on an equal
key overwrites in place; if the loop exhausts all `capacity` slots the
caller rehashes. -/
def insProbeGo (key : K) (nb : MBucket K V) (bs : List (MBucket K V)) (cap h : Nat) :
    Nat → Option Nat → Nat → ProbeRes K V
  | _, _, 0 => .exhausted
  | i, target, fuel + 1 =>
    let idx := (h + i) % cap
    let b := bucketAt bs idx
    match b.state with
    | .empty => .placed (bs.set (target.getD idx) nb)
    | .skip => insProbeGo key nb bs cap h (i + 1) (some (target.getD idx)) fuel
    | .occupied =>
      if keq key b.key then .over (bs.set idx nb)
      else insProbeGo key nb bs cap h (i + 1) target fuel

/-- Inner placement loop of `name##_resize`: probe the fresh array from
the rehashed position and write the bucket at the first non-Occupied
slot. -/
def resizePlaceGo (bk : MBucket K V) (cap h : Nat) :
    Nat → Nat → List (MBucket K V) → List (MBucket K V)
  | _, 0, arr => arr
  | j, fuel + 1, arr =>
    let idx := (h + j) % cap
    if (bucketAt arr idx).state = .occupied then resizePlaceGo bk cap h (j + 1) fuel arr
    else arr.set idx bk

/-- Outer loop of `name##_resize`: walk the old array while `remaining > 0`,
re-inserting every Occupied bucket into the fresh array (tombstones are
not carried over). -/
def resizeGo (oldBs : List (MBucket K V)) (cap : Nat) :
    Nat → Nat → Nat → List (MBucket K V) → List (MBucket K V)
  | _, _, 0, arr => arr
  | i, remaining, fuel + 1, arr =>
    if remaining = 0 then arr
    else
      let b := bucketAt oldBs i
      if b.state = .occupied then
        resizeGo oldBs cap (i + 1) (remaining - 1) fuel
          (resizePlaceGo b cap (hash b.key % cap) 0 cap arr)
      else resizeGo oldBs cap (i + 1) remaining fuel arr

/-- `name##_resize(self, capacity)` from `map.h`: early-returns when the
requested capacity equals the live count, otherwise rehashes every
occupied bucket into a fresh zeroed array. -/
def map_resize (m : HMap K V) (cap : Nat) : HMap K V :=
  if cap = m.count then m
  else
    ⟨m.count, resizeGo hash m.buckets cap 0 m.count m.buckets.length
      (List.replicate cap emptyBucket)⟩

/-- The `while (true)` loop of `name##_insert`.  Note the C code computes
`hash` once and then reduces it by `hash %= capacity` inside the loop, so
a retry after a rehash probes from the hash reduced modulo the *old*
capacity; the reduced value `h` is threaded through. -/
def insertLoop (key : K) (value : V) : Nat → Nat → HMap K V → Option (Bool × HMap K V)
  | 0, _, _ => none
  | fuel + 1, h, m =>
    let cap := m.buckets.length
    let h2 := h % cap
    match insProbeGo keq key ⟨key, value, .occupied⟩ m.buckets cap h2 0 none cap with
    | .placed bs => some (false, ⟨m.count + 1, bs⟩)
    | .over bs => some (true, ⟨m.count, bs⟩)
    | .exhausted => insertLoop key value fuel h2 (map_resize hash m (2 * cap))

/-- The load-factor check at the top of `name##_insert`: when
`MAP_LOAD_FACTOR_DEN * (count + 1) > MAP_LOAD_FACTOR_NUM * capacity`
(factors 2 and 1), rehash to `VECTOR_EXPANSION * capacity` first. -/
def loadCheck (m : HMap K V) : HMap K V :=
  if 2 * (m.count + 1) > m.buckets.length
    then map_resize hash m (2 * m.buckets.length) else m

/-- `name##_insert(self, key, value)` from `map.h`: the load-factor check
first, then the probe loop (with fuel 2, proved sufficient under
well-formedness). -/
def map_insert (m : HMap K V) (key : K) (value : V) : Option (Bool × HMap K V) :=
  insertLoop keq hash key value 2 (hash key) (loadCheck hash m)

/-- Probe loop of `name##_erase`; returns the index of the matching
Occupied bucket, if any. -/
def eraseGo (key : K) (bs : List (MBucket K V)) (cap h : Nat) :
    Nat → Nat → Nat → Option Nat
  | _, _, 0 => none
  | i, remaining, fuel + 1 =>
    if remaining = 0 then none
    else
      let idx := (h + i) % cap
      let b := bucketAt bs idx
      match b.state with
      | .empty => none
      | .skip => eraseGo key bs cap h (i + 1) remaining fuel
      | .occupied =>
        if keq key b.key then some idx
        else eraseGo key bs cap h (i + 1) (remaining - 1) fuel

/-- `name##_erase(self, key)` from `map.h`: on a match, decrement the
count and mark the bucket as a tombstone (`BUCKET_SKIP`), keeping its
key/value storage. -/
def map_erase (m : HMap K V) (key : K) : Bool × HMap K V :=
  match eraseGo keq key m.buckets m.buckets.length
      (hash key % m.buckets.length) 0 m.count m.buckets.length with
  | none => (false, m)
  | some idx =>
    let b := bucketAt m.buckets idx
    (true, ⟨m.count - 1, m.buckets.set idx ⟨b.key, b.value, .skip⟩⟩)

/-- Insert/erase operations, for stating reachability. -/
inductive MapOp (K V : Type) where
  | ins (key : K) (value : V)
  | del (key : K)

/-- Run a sequence of map operations (`none` when an insert runs out of
fuel, which cannot happen on well-formed maps). -/
def map_run : HMap K V → List (MapOp K V) → Option (HMap K V)
  | m, [] => some m
  | m, .ins k v :: ops =>
    match map_insert keq hash m k v with
    | some p => map_run p.2 ops
    | none => none
  | m, .del k :: ops => map_run (map_erase keq hash m k).2 ops

/-- `hashify(size, data)` from `std.h`: FNV-1a over the bytes of the key,
on a 64-bit `size_t` (multiplication wraps modulo `2 ^ 64`).  A C string
key is modelled as its list of bytes (without the terminating NUL, as
`strlen` excludes it). -/
def hashify (data : List Nat) : Nat :=
  data.foldl (fun h b => ((h ^^^ b) * 16777619) % 2 ^ 64) 2166136261

/-- `STRING_HASH` for the map macro. -/
def strHash : List Nat → Nat := hashify

/-- String equality for the map macro (byte-wise, as `strcmp == 0`). -/
def strEq : List Nat → List Nat → Bool := fun a b => a == b

/-- `INT_HASH` (the key itself). -/
def natHash : Nat → Nat := fun k => k

/-- `DEFAULT_EQUALS` (`x == y`). -/
def natEq : Nat → Nat → Bool := fun x y => x == y

/-- Observations of the C6 scenario: capacity after the three inserts,
`find("b")`, result of `erase("a")`, `find("a")`, `contains("c")`, final
count. -/
structure C6Obs where
  capacity : Nat
  findB : Option Nat
  erasedA : Bool
  findA : Option Nat
  containsC : Bool
  cnt : Nat
deriving DecidableEq, Repr

/-- The C6 scenario: capacity 4; insert "a"↦1, "b"↦2, "c"↦3; then
`find("b")`, `erase("a")`, `find("a")`, `contains("c")`, count.  The keys
are the byte strings "a" = [97], "b" = [98], "c" = [99]. -/
def c6run : Option C6Obs :=
  (map_insert strEq strHash (map_new 4) [97] 1).bind fun p1 =>
  (map_insert strEq strHash p1.2 [98] 2).bind fun p2 =>
  (map_insert strEq strHash p2.2 [99] 3).map fun p3 =>
  let e := map_erase strEq strHash p3.2 [97]
  ⟨p3.2.buckets.length, map_find strEq strHash p3.2 [98], e.1,
    map_find strEq strHash e.2 [97], map_contains strEq strHash e.2 [99],
    e.2.count⟩

/-- C6: with the FNV-1a string hasher, the scenario works as specified:
the third insert grows the table from capacity 4 to 8 (at least one
rehash), `find("b")` yields 2, `erase("a")` succeeds, `find("a")` then
fails, `contains("c")` holds and the final live count is 2. -/
theorem map_string_scenario : c6run = some ⟨8, some 2, true, none, true, 2⟩ := by
  decide

/-- The reachable pre-state of the C1 counterexample: capacity 4, one
live key 3 at slot 3, tombstones in slots 0-2. -/
def c1state : HMap Nat Nat :=
  ⟨1, [⟨0, 0, .skip⟩, ⟨1, 10, .skip⟩, ⟨2, 20, .skip⟩, ⟨3, 30, .occupied⟩]⟩

/-- C1 (counterexample): in `c1state` — reachable by ordinary inserts and
erases — inserting key 7 passes the load-factor check unchanged, and its
probe scans all 4 slots finding tombstones but no Empty slot and no equal
key.  The claim then demands placement at the earliest remembered
Empty-or-Tombstone slot with no further rehash; the code instead rehashes
to capacity 8 (`VECTOR_EXPANSION`) and retries, so the resulting capacity
is 8, not 4. -/
theorem map_insert_exhaust_counterexample :
    map_run natEq natHash (map_new 4)
        [.ins 0 0, .ins 1 10, .del 0, .del 1, .ins 2 20, .ins 3 30, .del 2]
      = some c1state ∧
    ¬ 2 * (c1state.count + 1) > c1state.buckets.length ∧
    insProbeGo natEq 7 ⟨7, 70, .occupied⟩ c1state.buckets 4 (7 % 4) 0 none 4
      = .exhausted ∧
    (bucketAt c1state.buckets ((7 % 4 + 1) % 4)).state = .skip ∧
    (map_insert natEq natHash c1state 7 70).map
        (fun p => (p.1, p.2.buckets.length, p.2.count)) = some (false, 8, 2) := by
  decide

/-- The reachable pre-state of the C3 counterexample: capacity 4, one
live key 1 at slot 1, a tombstone at slot 0. -/
def c3state : HMap Nat Nat :=
  ⟨1, [⟨0, 0, .skip⟩, ⟨1, 10, .occupied⟩, emptyBucket, emptyBucket]⟩

/-- C3 (counterexample): `c3state` is reachable and contains a tombstone;
`resize(1)` with `newCapacity = liveCount = 1` satisfies the claim's
precondition `newCapacity ≥ liveCount`, but the early return
`if (capacity == self->count) return;` leaves the table — tombstone
included — untouched, contradicting "leaves no Tombstone bucket anywhere
afterwards". -/
theorem map_resize_eq_count_keeps_tombstone :
    map_run natEq natHash (map_new 4) [.ins 0 0, .ins 1 10, .del 0]
      = some c3state ∧
    c3state.count ≤ 1 ∧
    map_resize natHash c3state 1 = c3state ∧
    (bucketAt c3state.buckets 0).state = .skip := by
  decide

/-! ### Hash map invariants (claims C3, C4, C1 amended) -/

/-- Number of Occupied buckets. -/
def occCount : List (MBucket K V) → Nat
  | [] => 0
  | b :: bs => (if b.state = .occupied then 1 else 0) + occCount bs

/-- Key/value pairs of the Occupied buckets, in slot order. -/
def occPairs : List (MBucket K V) → List (K × V)
  | [] => []
  | b :: bs =>
    if b.state = .occupied then (b.key, b.value) :: occPairs bs else occPairs bs

/-- The multiset of live key/value entries. -/
def occMS (bs : List (MBucket K V)) : Multiset (K × V) := (occPairs bs : List (K × V))

/-- No tombstones anywhere. -/
def NoSkip (bs : List (MBucket K V)) : Prop :=
  ∀ j, (bucketAt bs j).state ≠ .skip

theorem bucketAt_nil (i : Nat) : bucketAt ([] : List (MBucket K V)) i = emptyBucket := by
  simp [bucketAt]

theorem bucketAt_cons_zero (b : MBucket K V) (bs : List (MBucket K V)) :
    bucketAt (b :: bs) 0 = b := rfl

theorem bucketAt_cons_succ (b : MBucket K V) (bs : List (MBucket K V)) (i : Nat) :
    bucketAt (b :: bs) (i + 1) = bucketAt bs i := rfl

theorem bucketAt_set_self {bs : List (MBucket K V)} {i : Nat} (h : i < bs.length)
    (b : MBucket K V) : bucketAt (bs.set i b) i = b := by
  simp [bucketAt, List.getD, List.getElem?_set_eq h]

theorem bucketAt_set_ne {bs : List (MBucket K V)} {i j : Nat} (h : i ≠ j)
    (b : MBucket K V) : bucketAt (bs.set i b) j = bucketAt bs j := by
  simp [bucketAt, List.getD, List.getElem?_set_ne h]

theorem bucketAt_of_ge {bs : List (MBucket K V)} {i : Nat} (h : bs.length ≤ i) :
    bucketAt bs i = emptyBucket := by
  simp [bucketAt, List.getD, List.getElem?_eq_none h]

theorem bucketAt_replicate (n i : Nat) :
    bucketAt (List.replicate n (emptyBucket : MBucket K V)) i = emptyBucket := by
  rcases Nat.lt_or_ge i n with h | h
  · simp [bucketAt, List.getD, List.getElem?_replicate, h]
  · exact bucketAt_of_ge (by simpa using h)

theorem emptyBucket_state : (emptyBucket : MBucket K V).state = .empty := rfl

theorem occCount_replicate (n : Nat) :
    occCount (List.replicate n (emptyBucket : MBucket K V)) = 0 := by
  induction n with
  | zero => rfl
  | succ n ih =>
    rw [List.replicate_succ, occCount, ih,
      if_neg (by rw [emptyBucket_state]; intro hc; cases hc)]

theorem occPairs_replicate (n : Nat) :
    occPairs (List.replicate n (emptyBucket : MBucket K V)) = [] := by
  induction n with
  | zero => rfl
  | succ n ih =>
    rw [List.replicate_succ, occPairs,
      if_neg (by rw [emptyBucket_state]; intro hc; cases hc), ih]

theorem occCount_le_length (bs : List (MBucket K V)) : occCount bs ≤ bs.length := by
  induction bs with
  | nil => exact Nat.le_refl 0
  | cons b bs ih => simp [occCount]; split <;> omega

theorem occCount_eq_zero_pairs {bs : List (MBucket K V)} (h : occCount bs = 0) :
    occPairs bs = [] := by
  induction bs with
  | nil => rfl
  | cons b bs ih =>
    by_cases hb : b.state = .occupied
    · simp [occCount, hb] at h
    · simp [occCount, hb] at h
      simp [occPairs, hb]
      exact ih h

theorem occCount_set {bs : List (MBucket K V)} {i : Nat} (h : i < bs.length)
    (b : MBucket K V) :
    occCount (bs.set i b) + (if (bucketAt bs i).state = .occupied then 1 else 0)
      = occCount bs + (if b.state = .occupied then 1 else 0) := by
  induction bs generalizing i with
  | nil => simp at h
  | cons hd tl ih =>
    cases i with
    | zero => simp [List.set, occCount, bucketAt_cons_zero]; omega
    | succ i =>
      have hlt : i < tl.length := by simpa using h
      have := ih hlt
      simp [List.set, occCount, bucketAt_cons_succ]
      omega

theorem occMS_cons_occ {hd : MBucket K V} (hh : hd.state = .occupied)
    (tl : List (MBucket K V)) :
    occMS (hd :: tl) = (hd.key, hd.value) ::ₘ occMS tl := by
  rw [occMS, occPairs, if_pos hh]
  exact (Multiset.cons_coe _ _).symm

theorem occMS_cons_nonocc {hd : MBucket K V} (hh : hd.state ≠ .occupied)
    (tl : List (MBucket K V)) : occMS (hd :: tl) = occMS tl := by
  rw [occMS, occPairs, if_neg hh]
  rfl

theorem occMS_set_of_nonocc {bs : List (MBucket K V)} {i : Nat} (h : i < bs.length)
    (hno : (bucketAt bs i).state ≠ .occupied) {b : MBucket K V}
    (hb : b.state = .occupied) :
    occMS (bs.set i b) = (b.key, b.value) ::ₘ occMS bs := by
  induction bs generalizing i with
  | nil => simp at h
  | cons hd tl ih =>
    cases i with
    | zero =>
      rw [bucketAt_cons_zero] at hno
      rw [List.set_cons_zero, occMS_cons_occ hb, occMS_cons_nonocc hno]
    | succ i =>
      have hlt : i < tl.length := by simpa using h
      rw [bucketAt_cons_succ] at hno
      have hih := ih hlt hno
      rw [List.set_cons_succ]
      by_cases hh : hd.state = .occupied
      · rw [occMS_cons_occ hh, occMS_cons_occ hh, hih, Multiset.cons_swap]
      · rw [occMS_cons_nonocc hh, occMS_cons_nonocc hh, hih]

theorem occMS_set_of_occ {bs : List (MBucket K V)} {i : Nat} (h : i < bs.length)
    (hocc : (bucketAt bs i).state = .occupied) {b : MBucket K V}
    (hb : b.state = .occupied) :
    ((bucketAt bs i).key, (bucketAt bs i).value) ::ₘ occMS (bs.set i b)
      = (b.key, b.value) ::ₘ occMS bs := by
  induction bs generalizing i with
  | nil => simp at h
  | cons hd tl ih =>
    cases i with
    | zero =>
      rw [bucketAt_cons_zero] at hocc ⊢
      rw [List.set_cons_zero, occMS_cons_occ hb, occMS_cons_occ hocc,
        Multiset.cons_swap]
    | succ i =>
      have hlt : i < tl.length := by simpa using h
      rw [bucketAt_cons_succ] at hocc ⊢
      have hih := ih hlt hocc
      rw [List.set_cons_succ]
      by_cases hh : hd.state = .occupied
      · rw [occMS_cons_occ hh, occMS_cons_occ hh, Multiset.cons_swap, hih,
          Multiset.cons_swap]
      · rw [occMS_cons_nonocc hh, occMS_cons_nonocc hh, hih]

theorem occCount_eq_card (bs : List (MBucket K V)) :
    occCount bs = Multiset.card (occMS bs) := by
  induction bs with
  | nil => rfl
  | cons b bs ih =>
    by_cases hb : b.state = .occupied
    · rw [occCount, if_pos hb, occMS_cons_occ hb, Multiset.card_cons, ih]
      omega
    · rw [occCount, if_neg hb, occMS_cons_nonocc hb, ih]
      omega

theorem occPairs_mem_iff {bs : List (MBucket K V)} {p : K × V} :
    p ∈ occPairs bs ↔ ∃ t, t < bs.length ∧ bucketAt bs t = ⟨p.1, p.2, .occupied⟩ := by
  induction bs with
  | nil => simp [occPairs]
  | cons b bs ih =>
    constructor
    · intro hp
      by_cases hb : b.state = .occupied
      · rw [occPairs, if_pos hb] at hp
        rcases List.mem_cons.mp hp with he | hm
        · refine ⟨0, by simp, ?_⟩
          rw [bucketAt_cons_zero]
          obtain ⟨pk, pv⟩ := p
          obtain ⟨bk, bv, bst⟩ := b
          simp only [Prod.mk.injEq] at he
          simp only at hb
          simp [hb, he.1, he.2]
        · obtain ⟨t, ht, he⟩ := ih.mp hm
          exact ⟨t + 1, by simpa using ht, by rwa [bucketAt_cons_succ]⟩
      · rw [occPairs, if_neg hb] at hp
        obtain ⟨t, ht, he⟩ := ih.mp hp
        exact ⟨t + 1, by simpa using ht, by rwa [bucketAt_cons_succ]⟩
    · rintro ⟨t, ht, he⟩
      cases t with
      | zero =>
        rw [bucketAt_cons_zero] at he
        subst he
        simp [occPairs]
      | succ t =>
        rw [bucketAt_cons_succ] at he
        have hm := ih.mpr ⟨t, by simpa using ht, he⟩
        by_cases hb : b.state = .occupied
        · rw [occPairs, if_pos hb]; exact List.mem_cons_of_mem _ hm
        · rwa [occPairs, if_neg hb]

theorem occCount_pos_of_occ {bs : List (MBucket K V)} {t : Nat} (ht : t < bs.length)
    (h : (bucketAt bs t).state = .occupied) : 1 ≤ occCount bs := by
  have hmem : ((bucketAt bs t).key, (bucketAt bs t).value) ∈ occPairs bs := by
    refine occPairs_mem_iff.mpr ⟨t, ht, ?_⟩
    cases hb : bucketAt bs t with
    | mk bk bv bst =>
      rw [hb] at h
      simp only at h
      simp [h]
  rw [occCount_eq_card]
  have hpos : 0 < Multiset.card (occMS bs) :=
    Multiset.card_pos_iff_exists_mem.mpr ⟨((bucketAt bs t).key, (bucketAt bs t).value),
      by rw [occMS]; exact Multiset.mem_coe.mpr hmem⟩
  omega

theorem occCount_drop_succ {bs : List (MBucket K V)} {i : Nat} (h : i < bs.length) :
    occCount (bs.drop i)
      = (if (bucketAt bs i).state = .occupied then 1 else 0) + occCount (bs.drop (i + 1)) := by
  rw [List.drop_eq_getElem_cons h]
  rw [occCount]
  have : bucketAt bs i = bs[i] := by
    simp [bucketAt, List.getD, List.getElem?_eq_getElem h]
  rw [this]

theorem occMS_drop_succ_occ {bs : List (MBucket K V)} {i : Nat} (h : i < bs.length)
    (hocc : (bucketAt bs i).state = .occupied) :
    occMS (bs.drop i)
      = ((bucketAt bs i).key, (bucketAt bs i).value) ::ₘ occMS (bs.drop (i + 1)) := by
  rw [List.drop_eq_getElem_cons h]
  have hB : bucketAt bs i = bs[i] := by
    simp [bucketAt, List.getD, List.getElem?_eq_getElem h]
  rw [← hB]
  simp [occMS, occPairs, hocc]

theorem occMS_drop_succ_nonocc {bs : List (MBucket K V)} {i : Nat} (h : i < bs.length)
    (hocc : (bucketAt bs i).state ≠ .occupied) :
    occMS (bs.drop i) = occMS (bs.drop (i + 1)) := by
  rw [List.drop_eq_getElem_cons h]
  have hB : bucketAt bs i = bs[i] := by
    simp [bucketAt, List.getD, List.getElem?_eq_getElem h]
  rw [← hB]
  simp [occMS, occPairs, hocc]

/-- The linear probe covers every slot of the table. -/
theorem probe_cover {cap h t : Nat} (hcap : 0 < cap) (ht : t < cap) :
    ∃ j, j < cap ∧ (h + j) % cap = t := by
  have ha : h % cap < cap := Nat.mod_lt _ hcap
  by_cases hc : h % cap ≤ t
  · refine ⟨t - h % cap, by omega, ?_⟩
    rw [Nat.add_mod, Nat.mod_eq_of_lt (by omega : t - h % cap < cap)]
    rw [show h % cap + (t - h % cap) = t from by omega, Nat.mod_eq_of_lt ht]
  · refine ⟨t + cap - h % cap, by omega, ?_⟩
    rw [Nat.add_mod]
    rw [Nat.mod_eq_of_lt (by omega : t + cap - h % cap < cap)]
    rw [show h % cap + (t + cap - h % cap) = t + cap from by omega]
    rw [Nat.add_mod_right, Nat.mod_eq_of_lt ht]

theorem exists_nonocc {bs : List (MBucket K V)} (h : occCount bs < bs.length) :
    ∃ t, t < bs.length ∧ (bucketAt bs t).state ≠ .occupied := by
  induction bs with
  | nil => simp at h
  | cons b bs ih =>
    by_cases hb : b.state = .occupied
    · have : occCount bs < bs.length := by
        simp [occCount, hb] at h
        omega
      obtain ⟨t, ht, hs⟩ := ih this
      exact ⟨t + 1, by simpa using ht, by rwa [bucketAt_cons_succ]⟩
    · exact ⟨0, by simp, by rwa [bucketAt_cons_zero]⟩

/-- The inner placement loop of `resize` writes the bucket at some
non-Occupied probe slot whenever one exists within the remaining fuel. -/
theorem resizePlaceGo_spec {cap h : Nat} (hcap : 0 < cap) (bk : MBucket K V) :
    ∀ fuel j arr, (∃ d, d < fuel ∧ (bucketAt arr ((h + (j + d)) % cap)).state ≠ .occupied) →
      ∃ idx, idx < cap ∧ (bucketAt arr idx).state ≠ .occupied ∧
        resizePlaceGo bk cap h j fuel arr = arr.set idx bk := by
  intro fuel
  induction fuel with
  | zero =>
    intro j arr hex
    obtain ⟨d, hd, _⟩ := hex
    omega
  | succ fuel ih =>
    intro j arr hex
    rw [resizePlaceGo]
    by_cases hocc : (bucketAt arr ((h + j) % cap)).state = .occupied
    · rw [if_pos hocc]
      obtain ⟨d, hd, hne⟩ := hex
      have hd0 : d ≠ 0 := by
        intro h0
        subst h0
        simp at hne
        exact hne hocc
      refine ih (j + 1) arr ⟨d - 1, by omega, ?_⟩
      rw [show j + 1 + (d - 1) = j + d from by omega]
      exact hne
    · rw [if_neg hocc]
      exact ⟨(h + j) % cap, Nat.mod_lt _ hcap, hocc, rfl⟩

/-- The outer loop of `resize` preserves the multiset of live entries,
never writes a tombstone, and keeps the array length. -/
theorem resizeGo_spec {cap : Nat} (hcap : 0 < cap) (old : List (MBucket K V))
    (hlt : occCount old < cap) :
    ∀ fuel i arr, old.length ≤ i + fuel → arr.length = cap → NoSkip arr →
      occCount arr + occCount (old.drop i) = occCount old →
      (resizeGo hash old cap i (occCount (old.drop i)) fuel arr).length = cap ∧
      NoSkip (resizeGo hash old cap i (occCount (old.drop i)) fuel arr) ∧
      occMS (resizeGo hash old cap i (occCount (old.drop i)) fuel arr)
        = occMS arr + occMS (old.drop i) := by
  intro fuel
  induction fuel with
  | zero =>
    intro i arr hfuel hlen hns hinv
    have hdrop : old.drop i = [] := List.drop_eq_nil_of_le (by omega)
    rw [resizeGo, hdrop]
    simp [occMS, occPairs]
    exact ⟨hlen, hns⟩
  | succ fuel ih =>
    intro i arr hfuel hlen hns hinv
    rw [resizeGo]
    by_cases hz : occCount (old.drop i) = 0
    · rw [hz, if_pos rfl]
      rw [hz] at hinv
      have : occMS (old.drop i) = 0 := by
        have := occCount_eq_zero_pairs hz
        simp [occMS, this]
      rw [this]
      simpa using ⟨hlen, hns⟩
    · rw [if_neg hz]
      have hi : i < old.length := by
        by_contra hge
        have : old.drop i = [] := List.drop_eq_nil_of_le (by omega)
        rw [this] at hz
        exact hz rfl
      by_cases hocc : (bucketAt old i).state = .occupied
      · rw [if_pos hocc]
        have hrem : occCount (old.drop i) = 1 + occCount (old.drop (i + 1)) := by
          rw [occCount_drop_succ hi, if_pos hocc]
        have hoccarr : occCount arr < cap := by
          have h1 := occCount_pos_of_occ hi hocc
          omega
        have hside : ∃ d, d < cap ∧
            (bucketAt arr ((hash (bucketAt old i).key % cap + (0 + d)) % cap)).state
              ≠ .occupied := by
          obtain ⟨t, ht, hts⟩ := exists_nonocc
            (show occCount arr < arr.length by omega)
          obtain ⟨j, hj, hje⟩ := probe_cover (h := hash (bucketAt old i).key % cap)
            hcap (t := t) (by omega)
          refine ⟨j, hj, ?_⟩
          rw [Nat.zero_add, hje]
          exact hts
        obtain ⟨idx, hidx, hnocc, heq⟩ :=
          resizePlaceGo_spec (h := hash (bucketAt old i).key % cap) hcap
            (bucketAt old i) cap 0 arr hside
        set arr2 := arr.set idx (bucketAt old i) with harr2
        have hidx' : idx < arr.length := by omega
        have hlen2 : arr2.length = cap := by rw [harr2]; simpa using hlen
        have hns2 : NoSkip arr2 := by
          intro j
          by_cases hj : j = idx
          · subst hj
            rw [harr2, bucketAt_set_self hidx']
            rw [hocc]
            intro hcon
            cases hcon
          · rw [harr2, bucketAt_set_ne (Ne.symm hj)]
            exact hns j
        have hcnt2 : occCount arr2 = occCount arr + 1 := by
          have := occCount_set hidx' (bucketAt old i)
          rw [if_neg hnocc, if_pos hocc, ← harr2] at this
          omega
        have hinv2 : occCount arr2 + occCount (old.drop (i + 1)) = occCount old := by
          omega
        have hms2 : occMS arr2 = ((bucketAt old i).key, (bucketAt old i).value) ::ₘ occMS arr := by
          rw [harr2]
          exact occMS_set_of_nonocc hidx' hnocc hocc
        have hrec := ih (i + 1) arr2 (by omega) hlen2 hns2 hinv2
        rw [show occCount (old.drop i) - 1 = occCount (old.drop (i + 1)) from by omega]
        rw [heq]
        refine ⟨hrec.1, hrec.2.1, ?_⟩
        rw [hrec.2.2, hms2, occMS_drop_succ_occ hi hocc]
        rw [Multiset.cons_add, ← Multiset.add_cons]
      · rw [if_neg hocc]
        have hrem : occCount (old.drop i) = occCount (old.drop (i + 1)) := by
          rw [occCount_drop_succ hi, if_neg hocc]
          omega
        have hinv2 : occCount arr + occCount (old.drop (i + 1)) = occCount old := by
          omega
        have hrec := ih (i + 1) arr (by omega) hlen hns hinv2
        rw [hrem]
        refine ⟨hrec.1, hrec.2.1, ?_⟩
        rw [hrec.2.2, occMS_drop_succ_nonocc hi hocc]

/-- C3 (amended): for every map whose count matches its occupancy and
every `newCapacity` strictly greater than the live count, `resize`
preserves the multiset of live key/value entries exactly, leaves no
tombstone anywhere and resizes the array; at `newCapacity = liveCount`
the C code early-returns instead (see the counterexample). -/
theorem map_resize_rehash_spec (m : HMap K V) (cap : Nat)
    (hwf : m.count = occCount m.buckets) (hlt : m.count < cap) :
    (map_resize hash m cap).count = m.count ∧
    (map_resize hash m cap).buckets.length = cap ∧
    NoSkip (map_resize hash m cap).buckets ∧
    occMS (map_resize hash m cap).buckets = occMS m.buckets := by
  rw [map_resize, if_neg (by omega)]
  have hcap : 0 < cap := by omega
  have h0 := resizeGo_spec hash hcap m.buckets (by omega)
    m.buckets.length 0 (List.replicate cap emptyBucket) (by omega)
    (by simp) (fun j => by rw [bucketAt_replicate]; intro hc; cases hc)
    (by simpa [occCount_replicate] using hwf.symm)
  rw [List.drop_zero] at h0
  rw [show m.count = occCount m.buckets from hwf]
  refine ⟨rfl, h0.1, h0.2.1, ?_⟩
  rw [h0.2.2]
  simp [occMS, occPairs_replicate]

/-- The remembered probe target is `none` or a non-Occupied slot index. -/
def targetOk (bs : List (MBucket K V)) (cap : Nat) : Option Nat → Prop
  | none => True
  | some t => t < cap ∧ (bucketAt bs t).state ≠ .occupied

theorem insProbeGo_placed_spec {key : K} {nb : MBucket K V} {bs : List (MBucket K V)}
    {cap h : Nat} (hcap : 0 < cap) :
    ∀ fuel i target bs', targetOk bs cap target →
      insProbeGo keq key nb bs cap h i target fuel = .placed bs' →
      ∃ t, t < cap ∧ (bucketAt bs t).state ≠ .occupied ∧ bs' = bs.set t nb := by
  intro fuel
  induction fuel with
  | zero =>
    intro i target bs' ht hp
    rw [insProbeGo] at hp
    exact ProbeRes.noConfusion hp
  | succ fuel ih =>
    intro i target bs' ht hp
    rw [insProbeGo] at hp
    cases hs : (bucketAt bs ((h + i) % cap)).state with
    | empty =>
      rw [hs] at hp
      simp only [] at hp
      injection hp with hbs
      cases target with
      | none =>
        refine ⟨(h + i) % cap, Nat.mod_lt _ hcap, ?_, ?_⟩
        · rw [hs]; intro hc; cases hc
        · rw [← hbs]; rfl
      | some t =>
        obtain ⟨ht1, ht2⟩ := ht
        exact ⟨t, ht1, ht2, by rw [← hbs]; rfl⟩
    | skip =>
      rw [hs] at hp
      simp only [] at hp
      refine ih (i + 1) (some (target.getD ((h + i) % cap))) bs' ?_ hp
      cases target with
      | none =>
        refine ⟨Nat.mod_lt _ hcap, ?_⟩
        show (bucketAt bs ((h + i) % cap)).state ≠ .occupied
        rw [hs]; intro hc; cases hc
      | some t => exact ht
    | occupied =>
      rw [hs] at hp
      simp only [] at hp
      by_cases hk : keq key (bucketAt bs ((h + i) % cap)).key
      · rw [if_pos hk] at hp
        exact ProbeRes.noConfusion hp
      · rw [if_neg hk] at hp
        exact ih (i + 1) target bs' ht hp

theorem insProbeGo_over_spec {key : K} {nb : MBucket K V} {bs : List (MBucket K V)}
    {cap h : Nat} (hcap : 0 < cap) :
    ∀ fuel i target bs',
      insProbeGo keq key nb bs cap h i target fuel = .over bs' →
      ∃ t, t < cap ∧ (bucketAt bs t).state = .occupied ∧
        keq key (bucketAt bs t).key = true ∧ bs' = bs.set t nb := by
  intro fuel
  induction fuel with
  | zero =>
    intro i target bs' hp
    rw [insProbeGo] at hp
    exact ProbeRes.noConfusion hp
  | succ fuel ih =>
    intro i target bs' hp
    rw [insProbeGo] at hp
    cases hs : (bucketAt bs ((h + i) % cap)).state with
    | empty =>
      rw [hs] at hp
      simp only [] at hp
      exact ProbeRes.noConfusion hp
    | skip =>
      rw [hs] at hp
      simp only [] at hp
      exact ih (i + 1) _ bs' hp
    | occupied =>
      rw [hs] at hp
      simp only [] at hp
      by_cases hk : keq key (bucketAt bs ((h + i) % cap)).key
      · rw [if_pos hk] at hp
        injection hp with hbs
        exact ⟨(h + i) % cap, Nat.mod_lt _ hcap, hs, by rw [hk], by rw [← hbs]⟩
      · rw [if_neg hk] at hp
        exact ih (i + 1) target bs' hp

theorem insProbeGo_ne_exhausted {key : K} {nb : MBucket K V} {bs : List (MBucket K V)}
    {cap h : Nat} :
    ∀ fuel i target, (∃ j, j < fuel ∧ (bucketAt bs ((h + (i + j)) % cap)).state = .empty) →
      insProbeGo keq key nb bs cap h i target fuel ≠ .exhausted := by
  intro fuel
  induction fuel with
  | zero =>
    intro i target hex
    obtain ⟨j, hj, _⟩ := hex
    omega
  | succ fuel ih =>
    intro i target hex hp
    rw [insProbeGo] at hp
    cases hs : (bucketAt bs ((h + i) % cap)).state with
    | empty =>
      rw [hs] at hp
      simp only [] at hp
      exact ProbeRes.noConfusion hp
    | skip =>
      rw [hs] at hp
      simp only [] at hp
      obtain ⟨j, hj, hje⟩ := hex
      have hj0 : j ≠ 0 := by
        intro h0
        subst h0
        rw [show i + 0 = i from rfl] at hje
        rw [hje] at hs
        cases hs
      refine ih (i + 1) _ ⟨j - 1, by omega, ?_⟩ hp
      rw [show i + 1 + (j - 1) = i + j from by omega]
      exact hje
    | occupied =>
      rw [hs] at hp
      simp only [] at hp
      by_cases hk : keq key (bucketAt bs ((h + i) % cap)).key
      · rw [if_pos hk] at hp
        exact ProbeRes.noConfusion hp
      · rw [if_neg hk] at hp
        obtain ⟨j, hj, hje⟩ := hex
        have hj0 : j ≠ 0 := by
          intro h0
          subst h0
          rw [show i + 0 = i from rfl] at hje
          rw [hje] at hs
          cases hs
        refine ih (i + 1) target ⟨j - 1, by omega, ?_⟩ hp
        rw [show i + 1 + (j - 1) = i + j from by omega]
        exact hje

theorem insProbeGo_exhausted_spec {key : K} {nb : MBucket K V} {bs : List (MBucket K V)}
    {cap h : Nat} :
    ∀ fuel i target, insProbeGo keq key nb bs cap h i target fuel = .exhausted →
      ∀ j, j < fuel → (bucketAt bs ((h + (i + j)) % cap)).state ≠ .empty ∧
        ((bucketAt bs ((h + (i + j)) % cap)).state = .occupied →
          keq key (bucketAt bs ((h + (i + j)) % cap)).key = false) := by
  intro fuel
  induction fuel with
  | zero =>
    intro i target _ j hj
    omega
  | succ fuel ih =>
    intro i target hp j hj
    rw [insProbeGo] at hp
    cases hs : (bucketAt bs ((h + i) % cap)).state with
    | empty =>
      rw [hs] at hp
      simp only [] at hp
      exact ProbeRes.noConfusion hp
    | skip =>
      rw [hs] at hp
      simp only [] at hp
      cases j with
      | zero =>
        rw [show i + 0 = i from rfl]
        constructor
        · rw [hs]; intro hc; cases hc
        · rw [hs]; intro hc; cases hc
      | succ j =>
        have := ih (i + 1) _ hp j (by omega)
        rwa [show i + 1 + j = i + (j + 1) from by omega] at this
    | occupied =>
      rw [hs] at hp
      simp only [] at hp
      by_cases hk : keq key (bucketAt bs ((h + i) % cap)).key
      · rw [if_pos hk] at hp
        exact ProbeRes.noConfusion hp
      · rw [if_neg hk] at hp
        cases j with
        | zero =>
          rw [show i + 0 = i from rfl]
          constructor
          · rw [hs]; intro hc; cases hc
          · intro _
            exact Bool.of_not_eq_true hk
        | succ j =>
          have := ih (i + 1) target hp j (by omega)
          rwa [show i + 1 + j = i + (j + 1) from by omega] at this

/-- Well-formedness of a map: a positive capacity and a count that matches
the number of Occupied buckets. -/
structure MapWf (m : HMap K V) : Prop where
  cap_pos : 0 < m.buckets.length
  count_occ : m.count = occCount m.buckets

theorem map_resize_wf {m : HMap K V} {cap : Nat} (hwf : MapWf m) (hlt : m.count < cap) :
    MapWf (map_resize hash m cap) ∧ (map_resize hash m cap).count = m.count ∧
      (map_resize hash m cap).buckets.length = cap := by
  obtain ⟨h1, h2, h3, h4⟩ := map_resize_rehash_spec hash m cap hwf.count_occ hlt
  refine ⟨⟨by omega, ?_⟩, h1, h2⟩
  rw [h1, hwf.count_occ, occCount_eq_card, occCount_eq_card, h4]

theorem loadCheck_spec {m : HMap K V} (hwf : MapWf m)
    (hload : 2 * m.count ≤ m.buckets.length) :
    MapWf (loadCheck hash m) ∧ (loadCheck hash m).count = m.count ∧
      2 * ((loadCheck hash m).count + 1) ≤ (loadCheck hash m).buckets.length := by
  rw [loadCheck]
  split
  · have hle : m.count ≤ m.buckets.length := hwf.count_occ ▸ occCount_le_length _
    have hcap := hwf.cap_pos
    have hlt2 : m.count < 2 * m.buckets.length := by omega
    obtain ⟨hwf2, hc2, hl2⟩ := map_resize_wf hash hwf hlt2
    refine ⟨hwf2, hc2, ?_⟩
    rw [hc2, hl2]
    omega
  · exact ⟨hwf, rfl, by omega⟩

theorem exists_empty_slot {bs : List (MBucket K V)} (hns : NoSkip bs)
    (hlt : occCount bs < bs.length) :
    ∃ t, t < bs.length ∧ (bucketAt bs t).state = .empty := by
  obtain ⟨t, ht, hno⟩ := exists_nonocc hlt
  refine ⟨t, ht, ?_⟩
  cases hst : (bucketAt bs t).state with
  | empty => rfl
  | occupied => exact absurd hst hno
  | skip => exact absurd hst (hns t)

theorem insertLoop_succ (key : K) (value : V) (fuel h : Nat) (m : HMap K V) :
    insertLoop keq hash key value (fuel + 1) h m =
      match insProbeGo keq key ⟨key, value, .occupied⟩ m.buckets m.buckets.length
          (h % m.buckets.length) 0 none m.buckets.length with
      | .placed bs => some (false, ⟨m.count + 1, bs⟩)
      | .over bs => some (true, ⟨m.count, bs⟩)
      | .exhausted =>
        insertLoop keq hash key value fuel (h % m.buckets.length)
          (map_resize hash m (2 * m.buckets.length)) := rfl

/-- The probe on a rehashed (tombstone-free, non-full) table cannot
exhaust. -/
theorem probe_on_rehashed_ne_exhausted {key : K} {nb : MBucket K V}
    {bs : List (MBucket K V)} {h : Nat} (hns : NoSkip bs)
    (hlt : occCount bs < bs.length) (target : Option Nat) :
    insProbeGo keq key nb bs bs.length h 0 target bs.length ≠ .exhausted := by
  have hcap : 0 < bs.length := by
    have := occCount_le_length bs
    omega
  obtain ⟨t, ht, hemp⟩ := exists_empty_slot hns hlt
  obtain ⟨j, hj, hje⟩ := probe_cover (h := h) hcap ht
  refine insProbeGo_ne_exhausted keq bs.length 0 target ⟨j, hj, ?_⟩
  rw [Nat.zero_add, hje]
  exact hemp

theorem map_insert_spec {m : HMap K V} (hwf : MapWf m)
    (hload : 2 * m.count ≤ m.buckets.length) (key : K) (value : V) :
    ∃ b m', map_insert keq hash m key value = some (b, m') ∧ MapWf m' ∧
      2 * m'.count ≤ m'.buckets.length ∧ m'.count ≤ m.count + 1 := by
  obtain ⟨hwf1, hc1, hl1⟩ := loadCheck_spec hash hwf hload
  set m1 := loadCheck hash m with hm1
  rw [map_insert, ← hm1, show (2 : Nat) = 1 + 1 from rfl, insertLoop_succ]
  cases hpr : insProbeGo keq key ⟨key, value, .occupied⟩ m1.buckets m1.buckets.length
      (hash key % m1.buckets.length) 0 none m1.buckets.length with
  | placed bs =>
    obtain ⟨t, ht, hno, hbs⟩ :=
      insProbeGo_placed_spec keq hwf1.cap_pos _ 0 none bs trivial hpr
    have hocc : occCount bs = occCount m1.buckets + 1 := by
      have := occCount_set ht ⟨key, value, .occupied⟩
      rw [if_neg hno, if_pos rfl, ← hbs] at this
      omega
    refine ⟨false, ⟨m1.count + 1, bs⟩, rfl, ⟨?_, ?_⟩, ?_,
      by show m1.count + 1 ≤ m.count + 1; omega⟩
    · show 0 < bs.length
      rw [hbs]
      simpa using hwf1.cap_pos
    · show m1.count + 1 = occCount bs
      rw [hocc, hwf1.count_occ]
    · show 2 * (m1.count + 1) ≤ bs.length
      rw [hbs, List.length_set]
      exact hl1
  | over bs =>
    obtain ⟨t, ht, hso, hk, hbs⟩ := insProbeGo_over_spec keq hwf1.cap_pos _ 0 none bs hpr
    have hocc : occCount bs = occCount m1.buckets := by
      have := occCount_set ht ⟨key, value, .occupied⟩
      rw [if_pos hso, if_pos rfl, ← hbs] at this
      omega
    refine ⟨true, ⟨m1.count, bs⟩, rfl, ⟨?_, ?_⟩, ?_,
      by show m1.count ≤ m.count + 1; omega⟩
    · show 0 < bs.length
      rw [hbs]
      simpa using hwf1.cap_pos
    · show m1.count = occCount bs
      rw [hocc, hwf1.count_occ]
    · show 2 * m1.count ≤ bs.length
      rw [hbs, List.length_set]
      omega
  | exhausted =>
    have hltc : m1.count < 2 * m1.buckets.length := by
      have := hwf1.cap_pos
      omega
    obtain ⟨h1, h2, h3, h4⟩ :=
      map_resize_rehash_spec hash m1 (2 * m1.buckets.length) hwf1.count_occ hltc
    obtain ⟨hwf2, hc2, hl2⟩ := map_resize_wf hash hwf1 hltc
    set m2 := map_resize hash m1 (2 * m1.buckets.length) with hm2
    rw [show (1 : Nat) = 0 + 1 from rfl, insertLoop_succ]
    have hne : insProbeGo keq key ⟨key, value, .occupied⟩ m2.buckets m2.buckets.length
        (hash key % m1.buckets.length % m2.buckets.length) 0 none m2.buckets.length
          ≠ .exhausted := by
      refine probe_on_rehashed_ne_exhausted keq h3 ?_ none
      rw [← hwf2.count_occ, hc2, hl2]
      omega
    cases hpr2 : insProbeGo keq key ⟨key, value, .occupied⟩ m2.buckets m2.buckets.length
        (hash key % m1.buckets.length % m2.buckets.length) 0 none m2.buckets.length with
    | placed bs =>
      obtain ⟨t, ht, hno, hbs⟩ :=
        insProbeGo_placed_spec keq hwf2.cap_pos _ 0 none bs trivial hpr2
      have hocc : occCount bs = occCount m2.buckets + 1 := by
        have := occCount_set ht ⟨key, value, .occupied⟩
        rw [if_neg hno, if_pos rfl, ← hbs] at this
        omega
      refine ⟨false, ⟨m2.count + 1, bs⟩, rfl, ⟨?_, ?_⟩, ?_,
        by show m2.count + 1 ≤ m.count + 1; omega⟩
      · show 0 < bs.length
        rw [hbs]
        simpa using hwf2.cap_pos
      · show m2.count + 1 = occCount bs
        rw [hocc, hwf2.count_occ]
      · show 2 * (m2.count + 1) ≤ bs.length
        rw [hbs, List.length_set, hc2, hl2]
        omega
    | over bs =>
      obtain ⟨t, ht, hso, hk, hbs⟩ := insProbeGo_over_spec keq hwf2.cap_pos _ 0 none bs hpr2
      have hocc : occCount bs = occCount m2.buckets := by
        have := occCount_set ht ⟨key, value, .occupied⟩
        rw [if_pos hso, if_pos rfl, ← hbs] at this
        omega
      refine ⟨true, ⟨m2.count, bs⟩, rfl, ⟨?_, ?_⟩, ?_,
        by show m2.count ≤ m.count + 1; omega⟩
      · show 0 < bs.length
        rw [hbs]
        simpa using hwf2.cap_pos
      · show m2.count = occCount bs
        rw [hocc, hwf2.count_occ]
      · show 2 * m2.count ≤ bs.length
        rw [hbs, List.length_set, hc2, hl2]
        omega
    | exhausted => exact absurd hpr2 hne

theorem eraseGo_some_spec {key : K} {bs : List (MBucket K V)} {cap h : Nat}
    (hcap : 0 < cap) :
    ∀ fuel i remaining idx, eraseGo keq key bs cap h i remaining fuel = some idx →
      idx < cap ∧ (bucketAt bs idx).state = .occupied := by
  intro fuel
  induction fuel with
  | zero =>
    intro i remaining idx hp
    rw [eraseGo] at hp
    exact Option.noConfusion hp
  | succ fuel ih =>
    intro i remaining idx hp
    rw [eraseGo] at hp
    by_cases hr : remaining = 0
    · rw [if_pos hr] at hp
      exact Option.noConfusion hp
    · rw [if_neg hr] at hp
      simp only [] at hp
      cases hs : (bucketAt bs ((h + i) % cap)).state with
      | empty =>
        rw [hs] at hp
        simp only [] at hp
        exact Option.noConfusion hp
      | skip =>
        rw [hs] at hp
        simp only [] at hp
        exact ih (i + 1) remaining idx hp
      | occupied =>
        rw [hs] at hp
        simp only [] at hp
        by_cases hk : keq key (bucketAt bs ((h + i) % cap)).key
        · rw [if_pos hk] at hp
          injection hp with hidx
          rw [← hidx]
          exact ⟨Nat.mod_lt _ hcap, hs⟩
        · rw [if_neg hk] at hp
          exact ih (i + 1) (remaining - 1) idx hp

theorem map_erase_wf {m : HMap K V} (hwf : MapWf m)
    (hload : 2 * m.count ≤ m.buckets.length) (key : K) :
    MapWf (map_erase keq hash m key).2 ∧
      2 * (map_erase keq hash m key).2.count ≤ (map_erase keq hash m key).2.buckets.length := by
  rw [map_erase]
  cases hg : eraseGo keq key m.buckets m.buckets.length
      (hash key % m.buckets.length) 0 m.count m.buckets.length with
  | none => exact ⟨hwf, hload⟩
  | some idx =>
    obtain ⟨hidx, hocc⟩ := eraseGo_some_spec keq hwf.cap_pos _ 0 m.count idx hg
    have hcnt : m.count ≥ 1 := by
      rw [hwf.count_occ]
      exact occCount_pos_of_occ hidx hocc
    have hset := occCount_set hidx
      ⟨(bucketAt m.buckets idx).key, (bucketAt m.buckets idx).value, .skip⟩
    rw [if_pos hocc, if_neg (by intro hc; cases hc)] at hset
    refine ⟨⟨?_, ?_⟩, ?_⟩
    · show 0 < (List.set _ _ _).length
      rw [List.length_set]
      exact hwf.cap_pos
    · show m.count - 1 = occCount (List.set _ _ _)
      have := hwf.count_occ
      omega
    · show 2 * (m.count - 1) ≤ (List.set _ _ _).length
      rw [List.length_set]
      omega

theorem map_new_wf (cap : Nat) (hcap : 0 < cap) :
    MapWf (map_new cap : HMap K V) ∧
      2 * (map_new cap : HMap K V).count ≤ (map_new cap : HMap K V).buckets.length := by
  constructor
  · constructor
    · show 0 < (List.replicate cap (emptyBucket : MBucket K V)).length
      simpa using hcap
    · show 0 = occCount (List.replicate cap (emptyBucket : MBucket K V))
      rw [occCount_replicate]
  · show 2 * 0 ≤ (List.replicate cap (emptyBucket : MBucket K V)).length
    omega

theorem map_run_wf : ∀ (ops : List (MapOp K V)) (m m' : HMap K V), MapWf m →
    2 * m.count ≤ m.buckets.length →
    map_run keq hash m ops = some m' → MapWf m' ∧ 2 * m'.count ≤ m'.buckets.length := by
  intro ops
  induction ops with
  | nil =>
    intro m m' hwf hload h
    rw [map_run] at h
    cases h
    exact ⟨hwf, hload⟩
  | cons op ops ih =>
    intro m m' hwf hload h
    cases op with
    | ins k v =>
      rw [map_run] at h
      obtain ⟨b, m2, he, hwf2, hl2, _⟩ := map_insert_spec keq hash hwf hload k v
      rw [he] at h
      exact ih m2 m' hwf2 hl2 h
    | del k =>
      rw [map_run] at h
      obtain ⟨hwf2, hl2⟩ := map_erase_wf keq hash hwf hload k
      exact ih _ m' hwf2 hl2 h

/-- C4: for every map created with a positive capacity and every sequence
of inserts and erases, the live count right after any further insert
never exceeds half the bucket capacity. -/
theorem map_load_factor_invariant (cap : Nat) (hcap : 0 < cap)
    (ops : List (MapOp K V)) (m m' : HMap K V) (key : K) (value : V) (b : Bool)
    (hrun : map_run keq hash (map_new cap) ops = some m)
    (hins : map_insert keq hash m key value = some (b, m')) :
    2 * m'.count ≤ m'.buckets.length := by
  obtain ⟨hwf0, hload0⟩ := @map_new_wf K V _ _ cap hcap
  obtain ⟨hwf, hload⟩ := map_run_wf keq hash ops _ m hwf0 hload0 hrun
  obtain ⟨b2, m2, he, hwf2, hl2, _⟩ := map_insert_spec keq hash hwf hload key value
  rw [he] at hins
  injection hins with hp
  injection hp with hb hm
  rw [← hm]
  exact hl2

/-- Witness for C4: inserting into a fresh capacity-1 map (which forces
the load-factor rehash to capacity 2). -/
theorem map_load_factor_invariant_witness :
    (map_run natEq natHash (map_new 1) [] = some (map_new 1 : HMap Nat Nat) ∧
      map_insert natEq natHash (map_new 1) 0 5
        = some (false, ⟨1, [⟨0, 5, .occupied⟩, emptyBucket]⟩)) ∧
    2 * (⟨1, [⟨0, 5, .occupied⟩, emptyBucket]⟩ : HMap Nat Nat).count
      ≤ (⟨1, [⟨0, 5, .occupied⟩, emptyBucket]⟩ : HMap Nat Nat).buckets.length :=
  ⟨⟨by decide, by decide⟩,
    map_load_factor_invariant natEq natHash 1 (by decide) [] (map_new 1)
      ⟨1, [⟨0, 5, .occupied⟩, emptyBucket]⟩ 0 5 false (by decide) (by decide)⟩

/-- C1 (amended): when the insert probe (after the load-factor check)
exhausts all capacity slots — seeing tombstones but no Empty slot and no
equal key — the code does not place the entry at the remembered
Empty-or-Tombstone slot: it rehashes to double capacity and retries
(probing from the hash reduced modulo the old capacity).  The insert
still returns "inserted" (false) and increments the live count, and the
entry occupies some slot of the doubled table. -/
theorem map_insert_exhaust_spec (m : HMap K V) (key : K) (value : V)
    (hwf : MapWf m) (hload : 2 * m.count ≤ m.buckets.length)
    (hex : insProbeGo keq key ⟨key, value, .occupied⟩ (loadCheck hash m).buckets
        (loadCheck hash m).buckets.length
        (hash key % (loadCheck hash m).buckets.length) 0 none
        (loadCheck hash m).buckets.length = .exhausted)
    (hts : ∃ j, j < (loadCheck hash m).buckets.length ∧
        (bucketAt (loadCheck hash m).buckets j).state = .skip) :
    ∃ m', map_insert keq hash m key value = some (false, m') ∧
      m'.buckets.length = 2 * (loadCheck hash m).buckets.length ∧
      m'.count = m.count + 1 ∧
      ∃ t, t < m'.buckets.length ∧ bucketAt m'.buckets t = ⟨key, value, .occupied⟩ := by
  obtain ⟨hwf1, hc1, hl1⟩ := loadCheck_spec hash hwf hload
  set m1 := loadCheck hash m with hm1
  rw [map_insert, ← hm1, show (2 : Nat) = 1 + 1 from rfl, insertLoop_succ, hex]
  have hltc : m1.count < 2 * m1.buckets.length := by
    have := hwf1.cap_pos
    omega
  obtain ⟨h1, h2, h3, h4⟩ :=
    map_resize_rehash_spec hash m1 (2 * m1.buckets.length) hwf1.count_occ hltc
  obtain ⟨hwf2, hc2, hl2⟩ := map_resize_wf hash hwf1 hltc
  set m2 := map_resize hash m1 (2 * m1.buckets.length) with hm2
  rw [show (1 : Nat) = 0 + 1 from rfl, insertLoop_succ]
  have hnomatch : ∀ p : K × V, p ∈ occPairs m2.buckets → keq key p.1 = false := by
    intro p hp
    have hp1 : p ∈ occPairs m1.buckets := by
      have : p ∈ occMS m2.buckets := Multiset.mem_coe.mpr hp
      rw [h4] at this
      exact Multiset.mem_coe.mp this
    obtain ⟨t1, ht1, hbt1⟩ := occPairs_mem_iff.mp hp1
    obtain ⟨j, hj, hje⟩ := probe_cover (h := hash key % m1.buckets.length)
      hwf1.cap_pos ht1
    have := (insProbeGo_exhausted_spec keq
      m1.buckets.length 0 none hex j hj).2
    rw [Nat.zero_add, hje, hbt1] at this
    exact this rfl
  have hne : insProbeGo keq key ⟨key, value, .occupied⟩ m2.buckets m2.buckets.length
      (hash key % m1.buckets.length % m2.buckets.length) 0 none m2.buckets.length
        ≠ .exhausted := by
    refine probe_on_rehashed_ne_exhausted keq h3 ?_ none
    rw [← hwf2.count_occ, hc2, hl2]
    omega
  cases hpr2 : insProbeGo keq key ⟨key, value, .occupied⟩ m2.buckets m2.buckets.length
      (hash key % m1.buckets.length % m2.buckets.length) 0 none m2.buckets.length with
  | placed bs =>
    obtain ⟨t, ht, hno, hbs⟩ :=
      insProbeGo_placed_spec keq hwf2.cap_pos _ 0 none bs trivial hpr2
    refine ⟨⟨m2.count + 1, bs⟩, rfl, ?_, ?_, ⟨t, ?_, ?_⟩⟩
    · show bs.length = 2 * m1.buckets.length
      rw [hbs, List.length_set, hl2]
    · show m2.count + 1 = m.count + 1
      rw [hc2, hc1]
    · show t < bs.length
      rw [hbs, List.length_set, hl2]
      omega
    · show bucketAt bs t = ⟨key, value, .occupied⟩
      rw [hbs]
      exact bucketAt_set_self (by omega) _
  | over bs =>
    obtain ⟨t, ht, hso, hk, hbs⟩ := insProbeGo_over_spec keq hwf2.cap_pos _ 0 none bs hpr2
    have hmem : ((bucketAt m2.buckets t).key, (bucketAt m2.buckets t).value)
        ∈ occPairs m2.buckets := by
      refine occPairs_mem_iff.mpr ⟨t, by omega, ?_⟩
      cases hb : bucketAt m2.buckets t with
      | mk bk bv bst =>
        rw [hb] at hso
        simp only at hso
        simp [hso]
    have := hnomatch _ hmem
    rw [this] at hk
    exact Bool.noConfusion hk
  | exhausted => exact absurd hpr2 hne

/-- Witness for the amended C1 at the concrete reachable map `c1state`
(capacity 4, one live key, three tombstones), inserting key 7. -/
theorem map_insert_exhaust_spec_witness :
    ((c1state.count = occCount c1state.buckets ∧ 0 < c1state.buckets.length) ∧
      2 * c1state.count ≤ c1state.buckets.length ∧
      insProbeGo natEq 7 ⟨7, 70, .occupied⟩ (loadCheck natHash c1state).buckets
        (loadCheck natHash c1state).buckets.length
        (natHash 7 % (loadCheck natHash c1state).buckets.length) 0 none
        (loadCheck natHash c1state).buckets.length = .exhausted) ∧
    ∃ m', map_insert natEq natHash c1state 7 70 = some (false, m') ∧
      m'.buckets.length = 2 * (loadCheck natHash c1state).buckets.length ∧
      m'.count = c1state.count + 1 ∧
      ∃ t, t < m'.buckets.length ∧ bucketAt m'.buckets t = ⟨7, 70, .occupied⟩ :=
  ⟨⟨⟨by decide, by decide⟩, by decide, by decide⟩,
    map_insert_exhaust_spec natEq natHash c1state 7 70 ⟨by decide, by decide⟩
      (by decide) (by decide) ⟨0, by decide, by decide⟩⟩

/-- Witness for the amended C3 at the concrete reachable map `c3state`
resized to capacity 4 (> liveCount 1). -/
theorem map_resize_rehash_spec_witness :
    (c3state.count = occCount c3state.buckets ∧ c3state.count < 4) ∧
    ((map_resize natHash c3state 4).count = c3state.count ∧
      (map_resize natHash c3state 4).buckets.length = 4 ∧
      NoSkip (map_resize natHash c3state 4).buckets ∧
      occMS (map_resize natHash c3state 4).buckets = occMS c3state.buckets) :=
  ⟨⟨by decide, by decide⟩, by
    have h := map_resize_rehash_spec natHash c3state 4 (by decide) (by decide)
    refine ⟨h.1, h.2.1, h.2.2.1, h.2.2.2⟩⟩

/-! ## Sorted binary tree set (`ds_set.h`)

The set is an intrusive pointer tree with `calloc`/`free` per node, and
its set-algebra operations mutate the tree while traversing it, so the
embedding keeps an explicit heap: addresses are `Nat`, a node holds its
payload and two child addresses, and `free` removes the address from the
heap.  Reading a freed or never-allocated address yields `none` (this is
what a C use-after-free would be), and every operation propagates that
failure, so an operation returning `some` touched no freed node.  The
macro parameters are instantiated with the defaults for an ordered type:
`x_y_equals` is `x = y` and `x_y_comparer` is `x > y` (`DEFAULT_COMPARE`),
over a linear order.  Loops and recursion carry fuel bounded by the node
count; `none` from fuel cannot happen on well-formed sets. -/

/-- A tree node (`ds__##name##_node`): payload and child pointers; a
child pointer is `none` for NULL or `some a` for the node at address
`a`. -/
structure SNode (α : Type) where
  data : α
  left : Option Nat
  right : Option Nat
deriving DecidableEq, Repr

/-- The node heap: address → allocated node (`none` = unallocated or
freed). -/
def SHeap (α : Type) : Type := Nat → Option (SNode α)

/-- A set (`name` struct of `ds_set.h`) together with its allocator
state: `next` is the next fresh address `calloc` hands out. -/
structure SetS (α : Type) where
  count : Nat
  root : Option Nat
  heap : SHeap α
  next : Nat

/-- Heap update (also used for `free`, with `none`). -/
def hupd {α : Type} (h : SHeap α) (a : Nat) (n : Option (SNode α)) : SHeap α :=
  fun b => if b = a then n else h b

/-- `name##_new()`: empty set over an empty heap. -/
def set_new (α : Type) : SetS α := ⟨0, none, fun _ => none, 0⟩

variable {α : Type} [LinearOrder α]

/-- Descent loop of `name##_insert` (the `while (true)` over `current`):
on `x_y_equals` replace the payload in place, else descend per
`x_y_comparer` (`x > y`), allocating a fresh leaf at a NULL child. -/
def setInsertGo (d : α) : Nat → SetS α → Nat → Option (Bool × SetS α)
  | _, _, 0 => none
  | cur, s, fuel + 1 => do
    let n ← s.heap cur
    if d = n.data then
      some (true, { s with heap := hupd s.heap cur (some { n with data := d }) })
    else if n.data < d then
      match n.right with
      | none =>
        some (false, ⟨s.count + 1, s.root,
          hupd (hupd s.heap cur (some { n with right := some s.next }))
            s.next (some ⟨d, none, none⟩),
          s.next + 1⟩)
      | some r => setInsertGo d r s fuel
    else
      match n.left with
      | none =>
        some (false, ⟨s.count + 1, s.root,
          hupd (hupd s.heap cur (some { n with left := some s.next }))
            s.next (some ⟨d, none, none⟩),
          s.next + 1⟩)
      | some l => setInsertGo d l s fuel

/-- `name##_insert(self, data)` from `ds_set.h`. -/
def set_insert (s : SetS α) (d : α) : Option (Bool × SetS α) :=
  match s.root with
  | none =>
    some (false, ⟨s.count + 1, some s.next,
      hupd s.heap s.next (some ⟨d, none, none⟩), s.next + 1⟩)
  | some r => setInsertGo d r s (s.count + 1)

/-- Search loop of `name##_find`. -/
def setFindGo (d : α) : Nat → SetS α → Nat → Option Bool
  | _, _, 0 => none
  | cur, s, fuel + 1 => do
    let n ← s.heap cur
    if d = n.data then some true
    else if n.data < d then
      match n.right with
      | none => some false
      | some r => setFindGo d r s fuel
    else
      match n.left with
      | none => some false
      | some l => setFindGo d l s fuel

/-- `name##_contains(self, data)` (via `name##_find`). -/
def set_contains (s : SetS α) (d : α) : Option Bool :=
  match s.root with
  | none => some false
  | some r => setFindGo d r s (s.count + 1)

/-- The predecessor scan of `name##_erase`
(`while (replace->right != NULL) { replace_parent = replace; replace = replace->right; }`),
returning `(replace_parent, replace)`. -/
def findMaxGo {α : Type} (h : SHeap α) : Nat → Nat → Nat → Option (Nat × Nat)
  | _, _, 0 => none
  | rp, r, fuel + 1 => do
    let n ← h r
    match n.right with
    | none => some (rp, r)
    | some r2 => findMaxGo h r r2 fuel

/-- Tail of `name##_erase` after the splice: relink the parent (or the
root) to `replace` and `free(current)`. -/
def eraseFinish {α : Type} (s : SetS α) (parent : Option Nat) (cur : Nat)
    (h : SHeap α) (replace : Option Nat) : Option (SetS α) :=
  match parent with
  | none => some ⟨s.count - 1, replace, hupd h cur none, s.next⟩
  | some p => do
    let pn ← h p
    let h2 := if pn.left = some cur
      then hupd h p (some { pn with left := replace })
      else hupd h p (some { pn with right := replace })
    some ⟨s.count - 1, s.root, hupd h2 cur none, s.next⟩

/-- The matched branch of `name##_erase`: `--count`, splice out `current`
(promoting the in-order predecessor when a left child exists), relink and
free.  Every pointer read is from the current heap, as in the C code. -/
def eraseFound (s : SetS α) (parent : Option Nat) (cur : Nat) (n : SNode α)
    (fuel : Nat) : Option (SetS α) :=
  match n.left with
  | none => eraseFinish s parent cur s.heap n.right
  | some la => do
    let pr ← findMaxGo s.heap cur la fuel
    let rn ← s.heap pr.2
    let h1 ← if pr.1 = cur then do
        let cn ← s.heap pr.1
        pure (hupd s.heap pr.1 (some { cn with left := rn.left }))
      else do
        let pn ← s.heap pr.1
        pure (hupd s.heap pr.1 (some { pn with right := rn.left }))
    let cn2 ← h1 cur
    let h2 ← if cn2.left ≠ some pr.2 then do
        let rn2 ← h1 pr.2
        pure (hupd h1 pr.2 (some { rn2 with left := cn2.left }))
      else pure h1
    let cn3 ← h2 cur
    let rn3 ← h2 pr.2
    eraseFinish s parent cur (hupd h2 pr.2 (some { rn3 with right := cn3.right }))
      (some pr.2)

/-- Search loop of `name##_erase`, tracking the parent pointer. -/
def setEraseGo (d : α) : Option Nat → Nat → SetS α → Nat → Option (Bool × SetS α)
  | _, _, _, 0 => none
  | parent, cur, s, fuel + 1 => do
    let n ← s.heap cur
    if d = n.data then do
      let s2 ← eraseFound s parent cur n (s.count + 1)
      pure (true, s2)
    else if n.data < d then
      match n.right with
      | none => some (false, s)
      | some r => setEraseGo d (some cur) r s fuel
    else
      match n.left with
      | none => some (false, s)
      | some l => setEraseGo d (some cur) l s fuel

/-- `name##_erase(self, data)` from `ds_set.h`. -/
def set_erase (s : SetS α) (d : α) : Option (Bool × SetS α) :=
  match s.root with
  | none => some (false, s)
  | some r => setEraseGo d none r s (s.count + 1)

/-- `ds__##name##_subset(set, node)`: in-order check that every value of
self's subtree is contained in `other`, short-circuiting on failure. -/
def setSubsetGo (other selfS : SetS α) : Nat → Nat → Option Bool
  | _, 0 => none
  | a, fuel + 1 => do
    let n ← selfS.heap a
    let lb ← match n.left with
      | none => pure true
      | some l => setSubsetGo other selfS l fuel
    if !lb then pure false
    else do
      let c ← set_contains other n.data
      if !c then pure false
      else match n.right with
        | none => pure true
        | some r => setSubsetGo other selfS r fuel

/-- `name##_subset(self, set, or_equal)` from `ds_set.h`: an empty self
short-circuits to true; otherwise the recursive check, and-ed with the
cardinality condition `(or_equal || count != count)`. -/
def set_subset (selfS other : SetS α) (or_equal : Bool) : Option Bool :=
  match selfS.root with
  | none => some true
  | some r => do
    let b ← setSubsetGo other selfS r (selfS.count + 1)
    pure (b && (or_equal || decide (selfS.count ≠ other.count)))

/-- `ds__##name##_union(self, node)`: walk the argument tree in-order
inserting every value into self. -/
def setUnionGo (b : SetS α) : Nat → SetS α → Nat → Option (SetS α)
  | _, _, 0 => none
  | a, s, fuel + 1 => do
    let n ← b.heap a
    let s1 ← match n.left with
      | none => pure s
      | some l => setUnionGo b l s fuel
    let p ← set_insert s1 n.data
    match n.right with
    | none => pure p.2
    | some r => setUnionGo b r p.2 fuel

/-- `name##_union(self, set)` from `ds_set.h` (mutates and returns self). -/
def set_union (s b : SetS α) : Option (SetS α) :=
  match b.root with
  | none => some s
  | some r => setUnionGo b r s (b.count + 1)

/-- `ds__##name##_difference(self, node)`: walk the argument tree
in-order erasing every value from self. -/
def setDiffGo (b : SetS α) : Nat → SetS α → Nat → Option (SetS α)
  | _, _, 0 => none
  | a, s, fuel + 1 => do
    let n ← b.heap a
    let s1 ← match n.left with
      | none => pure s
      | some l => setDiffGo b l s fuel
    let p ← set_erase s1 n.data
    match n.right with
    | none => pure p.2
    | some r => setDiffGo b r p.2 fuel

/-- `name##_difference(self, set)` from `ds_set.h`. -/
def set_difference (s b : SetS α) : Option (SetS α) :=
  match b.root with
  | none => some s
  | some r => setDiffGo b r s (b.count + 1)

/-- `ds__##name##_intersect(self, node, set)`: post-order walk of self's
own (mutating) tree; after both child recursions, re-read the node and
erase its value from self when it is not in the argument set.  The child
pointers are read exactly when the C code reads them: `node->left` before
the left recursion, `node->right` after it, `node->data` after both. -/
def setInterGo (b : SetS α) : Nat → SetS α → Nat → Option (SetS α)
  | _, _, 0 => none
  | a, s, fuel + 1 => do
    let n1 ← s.heap a
    let s1 ← match n1.left with
      | none => pure s
      | some l => setInterGo b l s fuel
    let n2 ← s1.heap a
    let s2 ← match n2.right with
      | none => pure s1
      | some r => setInterGo b r s1 fuel
    let n3 ← s2.heap a
    let c ← set_contains b n3.data
    if c then pure s2
    else do
      let p ← set_erase s2 n3.data
      pure p.2

/-- `name##_intersect(self, set)` from `ds_set.h`. -/
def set_intersect (s b : SetS α) : Option (SetS α) :=
  match s.root with
  | none => some s
  | some r => setInterGo b r s (s.count + 1)

/-- `ds__##name##_foreach`: in-order visit list. -/
def setForeachGo (s : SetS α) : Nat → Nat → Option (List α)
  | _, 0 => none
  | a, fuel + 1 => do
    let n ← s.heap a
    let ls ← match n.left with
      | none => pure []
      | some l => setForeachGo s l fuel
    let rs ← match n.right with
      | none => pure []
      | some r => setForeachGo s r fuel
    pure (ls ++ n.data :: rs)

/-- `name##_foreach(self, action)` from `ds_set.h`, as the list of values
passed to `action` in order. -/
def set_foreach (s : SetS α) : Option (List α) :=
  match s.root with
  | none => some []
  | some r => setForeachGo s r (s.count + 1)

/-- C10: whenever self's tree is empty, `subset(self, set, or_equal)`
returns true for every argument set and both flag values — the code
short-circuits on `self->root == NULL` before the cardinality condition
is ever considered. -/
theorem set_subset_empty_self (s other : SetS α) (orEq : Bool)
    (h : s.root = none) : set_subset s other orEq = some true := by
  rw [set_subset, h]

/-- Witness for C10: the empty set is a subset of itself even with
`or_equal = false` (where the cardinality rule for non-empty equal sets
would say otherwise). -/
theorem set_subset_empty_self_witness :
    ((set_new Nat).root = none) ∧
      set_subset (set_new Nat) (set_new Nat) false = some true :=
  ⟨rfl, set_subset_empty_self (set_new Nat) (set_new Nat) false rfl⟩

/-! ### Abstract trees over the heap (claims C2 and C7)

An `ATree` is the shape of a heap tree: every node records its address.
`IsTree h root t` says the heap `h` lays out `t` starting at pointer
`root`.  A `Path` is the context of a subtree inside a bigger tree
(innermost crumb first); `plug` rebuilds the full tree. -/

/-- Abstract tree with node addresses. -/
inductive ATree (α : Type) where
  | leaf
  | node (l : ATree α) (a : Nat) (v : α) (r : ATree α)
deriving DecidableEq, Repr

/-- Address of the root node, NULL for a leaf. -/
def ATree.rootAddr {α : Type} : ATree α → Option Nat
  | .leaf => none
  | .node _ a _ _ => some a

/-- All node addresses, in order. -/
def ATree.addrs {α : Type} : ATree α → List Nat
  | .leaf => []
  | .node l a _ r => l.addrs ++ a :: r.addrs

/-- All values, in order. -/
def ATree.vals {α : Type} : ATree α → List α
  | .leaf => []
  | .node l _ v r => l.vals ++ v :: r.vals

/-- Node count. -/
def ATree.size {α : Type} (t : ATree α) : Nat := t.vals.length

/-- The heap lays out `t` at `root`. -/
inductive IsTree {α : Type} (h : SHeap α) : Option Nat → ATree α → Prop where
  | leaf : IsTree h none .leaf
  | node {l r : ATree α} {a : Nat} {v : α} :
      h a = some ⟨v, l.rootAddr, r.rootAddr⟩ →
      IsTree h l.rootAddr l → IsTree h r.rootAddr r →
      IsTree h (some a) (.node l a v r)

theorem IsTree.root_eq {α : Type} {h : SHeap α} {root : Option Nat} {t : ATree α}
    (ht : IsTree h root t) : root = t.rootAddr := by
  cases ht with
  | leaf => rfl
  | node _ _ _ => rfl

theorem IsTree.congr {α : Type} {h h2 : SHeap α} {root : Option Nat} {t : ATree α}
    (ht : IsTree h root t) (hagree : ∀ b ∈ t.addrs, h2 b = h b) :
    IsTree h2 root t := by
  induction ht with
  | leaf => exact .leaf
  | node ha htl htr ihl ihr =>
    rename_i l r a v
    refine .node ?_ ?_ ?_
    · rw [hagree a (by simp [ATree.addrs])]
      exact ha
    · exact ihl fun b hb => hagree b (by simp [ATree.addrs, hb])
    · exact ihr fun b hb => hagree b (by simp [ATree.addrs, hb])

theorem rootAddr_mem_addrs {α : Type} {t : ATree α} {a : Nat}
    (h : t.rootAddr = some a) : a ∈ t.addrs := by
  cases t with
  | leaf => cases h
  | node l b v r =>
    cases h
    simp [ATree.addrs]

/-- One context crumb: `lt a v r` means the hole is the left child of a
node with address `a`, value `v` and right subtree `r` (symmetrically for
`rt`). -/
inductive PStep (α : Type) where
  | lt (a : Nat) (v : α) (r : ATree α)
  | rt (a : Nat) (v : α) (l : ATree α)
deriving DecidableEq, Repr

/-- A subtree context, innermost crumb first. -/
abbrev Path (α : Type) : Type := List (PStep α)

/-- Rebuild the full tree from a context and a subtree. -/
def plug {α : Type} : Path α → ATree α → ATree α
  | [], t => t
  | .lt a v r :: p, t => plug p (.node t a v r)
  | .rt a v l :: p, t => plug p (.node l a v t)

/-- The parent address of the hole (the innermost crumb's address). -/
def pParent {α : Type} : Path α → Option Nat
  | [] => none
  | .lt a _ _ :: _ => some a
  | .rt a _ _ :: _ => some a

/-- Values of the context to the left of the hole. -/
def ctxPre {α : Type} : Path α → List α
  | [] => []
  | .lt _ _ _ :: p => ctxPre p
  | .rt _ v l :: p => ctxPre p ++ l.vals ++ [v]

/-- Values of the context to the right of the hole. -/
def ctxSuf {α : Type} : Path α → List α
  | [] => []
  | .lt _ v r :: p => v :: r.vals ++ ctxSuf p
  | .rt _ _ _ :: p => ctxSuf p

/-- Addresses of the context. -/
def pathAddrs {α : Type} : Path α → List Nat
  | [] => []
  | .lt a _ r :: p => a :: r.addrs ++ pathAddrs p
  | .rt a _ l :: p => a :: l.addrs ++ pathAddrs p

theorem vals_plug {α : Type} : ∀ (p : Path α) (t : ATree α),
    (plug p t).vals = ctxPre p ++ t.vals ++ ctxSuf p := by
  intro p
  induction p with
  | nil => intro t; simp [plug, ctxPre, ctxSuf]
  | cons c p ih =>
    intro t
    cases c with
    | lt a v r =>
      show (plug p (.node t a v r)).vals = _
      rw [ih]
      simp [ATree.vals, ctxPre, ctxSuf]
    | rt a v l =>
      show (plug p (.node l a v t)).vals = _
      rw [ih]
      simp [ATree.vals, ctxPre, ctxSuf]

theorem addrs_plug_perm {α : Type} : ∀ (p : Path α) (t : ATree α),
    (plug p t).addrs.Perm (t.addrs ++ pathAddrs p) := by
  intro p
  induction p with
  | nil => intro t; simp [plug, pathAddrs]
  | cons c p ih =>
    intro t
    cases c with
    | lt a v r =>
      refine (ih (.node t a v r)).trans ?_
      show ((t.addrs ++ a :: r.addrs) ++ pathAddrs p).Perm
        (t.addrs ++ (a :: (r.addrs ++ pathAddrs p)))
      simp [List.append_assoc]
    | rt a v l =>
      refine (ih (.node l a v t)).trans ?_
      show ((l.addrs ++ a :: t.addrs) ++ pathAddrs p).Perm
        (t.addrs ++ (a :: (l.addrs ++ pathAddrs p)))
      refine ((List.perm_append_comm.append_right _).trans ?_).trans
        List.perm_middle.symm
      show ((a :: t.addrs ++ l.addrs) ++ pathAddrs p).Perm
        (a :: (t.addrs ++ (l.addrs ++ pathAddrs p)))
      simp [List.append_assoc]

theorem size_plug_le {α : Type} (p : Path α) (t : ATree α) :
    t.size ≤ (plug p t).size := by
  show t.vals.length ≤ (plug p t).vals.length
  rw [vals_plug]
  simp only [List.length_append]
  omega

/-- The subtree at the hole of a laid-out plugged tree is itself laid out. -/
theorem IsTree_plug_sub {α : Type} {h : SHeap α} : ∀ (p : Path α) (t : ATree α)
    {root : Option Nat}, IsTree h root (plug p t) → IsTree h t.rootAddr t := by
  intro p
  induction p with
  | nil =>
    intro t root ht
    have hr := ht.root_eq
    rwa [hr] at ht
  | cons c p ih =>
    intro t root ht
    cases c with
    | lt a v r =>
      have hsub := ih (.node t a v r) ht
      cases hsub with
      | node ha htl htr => exact htl
    | rt a v l =>
      have hsub := ih (.node l a v t) ht
      cases hsub with
      | node ha htl htr => exact htr

/-- Replacing the subtree at the hole: if the new heap lays out the new
subtree, agrees with the old heap on all context addresses, and the new
subtree keeps the old root address, the whole plugged tree is laid out. -/
theorem isTree_plug_update {α : Type} : ∀ (p : Path α) (t t2 : ATree α)
    (h h2 : SHeap α) (root : Option Nat),
    IsTree h root (plug p t) →
    t2.rootAddr = t.rootAddr →
    IsTree h2 t2.rootAddr t2 →
    (∀ b ∈ pathAddrs p, h2 b = h b) →
    IsTree h2 root (plug p t2) := by
  intro p
  induction p with
  | nil =>
    intro t t2 h h2 root ht hroot ht2 _
    have hr : root = t2.rootAddr := by
      rw [hroot]
      exact ht.root_eq
    subst hr
    exact ht2
  | cons c p ih =>
    intro t t2 h h2 root ht hroot ht2 hagree
    cases c with
    | lt a v r =>
      have hsub := IsTree_plug_sub p (.node t a v r) ht
      cases hsub with
      | node ha htl htr =>
        refine ih (.node t a v r) (.node t2 a v r) h h2 root ht rfl ?_
          fun b hb => hagree b ?_
        · refine .node ?_ ht2 (htr.congr fun b hb => hagree b ?_)
          · rw [hagree a (by simp [pathAddrs]), ha, hroot]
          · show b ∈ a :: r.addrs ++ pathAddrs p
            simp [hb]
        · show b ∈ a :: r.addrs ++ pathAddrs p
          simp [hb]
    | rt a v l =>
      have hsub := IsTree_plug_sub p (.node l a v t) ht
      cases hsub with
      | node ha htl htr =>
        refine ih (.node l a v t) (.node l a v t2) h h2 root ht rfl ?_
          fun b hb => hagree b ?_
        · refine .node ?_ (htl.congr fun b hb => hagree b ?_) ht2
          · rw [hagree a (by simp [pathAddrs]), ha, hroot]
          · show b ∈ a :: l.addrs ++ pathAddrs p
            simp [hb]
        · show b ∈ a :: l.addrs ++ pathAddrs p
          simp [hb]

theorem nodup_plug_facts {α : Type} {p : Path α} {t : ATree α}
    (h : (plug p t).addrs.Nodup) :
    t.addrs.Nodup ∧ (pathAddrs p).Nodup ∧ ∀ b ∈ t.addrs, b ∉ pathAddrs p := by
  have hp := ((addrs_plug_perm p t).nodup_iff).mp h
  rw [List.nodup_append] at hp
  exact hp

theorem sorted_plug_bounds {α : Type} [LinearOrder α] {p : Path α}
    {l r : ATree α} {a : Nat} {v : α}
    (h : List.Pairwise (· < ·) (plug p (.node l a v r)).vals) :
    (∀ x ∈ ctxPre p, x < v) ∧ (∀ x ∈ l.vals, x < v) ∧
      (∀ x ∈ r.vals, v < x) ∧ (∀ x ∈ ctxSuf p, v < x) := by
  rw [vals_plug] at h
  rw [List.pairwise_append] at h
  obtain ⟨h1, hsuf, hcross⟩ := h
  rw [List.pairwise_append] at h1
  obtain ⟨hpre, hmid, hcross2⟩ := h1
  have hvmid : v ∈ (ATree.node l a v r).vals := by simp [ATree.vals]
  refine ⟨fun x hx => hcross2 x hx v hvmid, ?_, ?_,
    fun x hx => hcross v (by simp [hvmid]) x hx⟩
  · show ∀ x ∈ l.vals, x < v
    intro x hx
    rw [show (ATree.node l a v r).vals = l.vals ++ v :: r.vals from rfl,
      List.pairwise_append] at hmid
    exact hmid.2.2 x hx v (by simp)
  · show ∀ x ∈ r.vals, v < x
    rw [show (ATree.node l a v r).vals = l.vals ++ v :: r.vals from rfl,
      List.pairwise_append, List.pairwise_cons] at hmid
    exact hmid.2.1.1

theorem pairwise_node_vals {α : Type} [LinearOrder α] {l r : ATree α}
    {a : Nat} {v : α}
    (h : List.Pairwise (· < ·) (ATree.node l a v r).vals) :
    List.Pairwise (· < ·) l.vals ∧ List.Pairwise (· < ·) r.vals ∧
      (∀ x ∈ l.vals, x < v) ∧ (∀ x ∈ r.vals, v < x) := by
  rw [show (ATree.node l a v r).vals = l.vals ++ v :: r.vals from rfl,
    List.pairwise_append, List.pairwise_cons] at h
  exact ⟨h.1, h.2.1.2, fun x hx => h.2.2 x hx v (by simp), h.2.1.1⟩

theorem mem_plug_addrs {α : Type} {p : Path α} {t : ATree α} {b : Nat} :
    b ∈ (plug p t).addrs ↔ b ∈ t.addrs ∨ b ∈ pathAddrs p := by
  rw [(addrs_plug_perm p t).mem_iff, List.mem_append]

/-- Well-formedness of a set state: the heap lays out a tree with
distinct node addresses, strictly increasing in-order values, the stored
count is the node count, all addresses were allocated, and everything
outside the tree is unallocated. -/
structure SetWf {α : Type} [LinearOrder α] (s : SetS α) (t : ATree α) : Prop where
  tree : IsTree s.heap s.root t
  nodup : t.addrs.Nodup
  sorted : List.Pairwise (· < ·) t.vals
  hcount : s.count = t.size
  bound : ∀ b ∈ t.addrs, b < s.next
  dom : ∀ b, b ∉ t.addrs → s.heap b = none

theorem SetWf.heap_node {α : Type} [LinearOrder α] {s : SetS α}
    {path : Path α} {l r : ATree α} {a : Nat} {v : α}
    (hwf : SetWf s (plug path (.node l a v r))) :
    s.heap a = some ⟨v, l.rootAddr, r.rootAddr⟩ := by
  have hsub := IsTree_plug_sub path (.node l a v r) hwf.tree
  cases hsub with
  | node ha _ _ => exact ha

/-- Ordered-list insertion: the effect of BST insertion on the in-order
value list. -/
def linsert (d : α) : List α → List α
  | [] => [d]
  | x :: xs => if d = x then x :: xs
    else if x < d then x :: linsert d xs
    else d :: x :: xs

/-- Functional mirror of the insert descent on the abstract tree; `fresh`
is the address allocated if a new leaf is created.  Returns the C
function's result (`true` = value was already present) and the new
tree. -/
def funIns (d : α) (fresh : Nat) : ATree α → Bool × ATree α
  | .leaf => (false, .node .leaf fresh d .leaf)
  | .node l a v r =>
    if d = v then (true, .node l a d r)
    else if v < d then
      ((funIns d fresh r).1, .node l a v (funIns d fresh r).2)
    else
      ((funIns d fresh l).1, .node (funIns d fresh l).2 a v r)

theorem funIns_found {d : α} {f : Nat} : ∀ {t : ATree α},
    (funIns d f t).1 = true → (funIns d f t).2 = t := by
  intro t
  induction t with
  | leaf => intro h; cases h
  | node l a v r ihl ihr =>
    intro h
    rw [funIns] at h ⊢
    by_cases he : d = v
    · subst he
      simp
    · rw [if_neg he] at h ⊢
      by_cases hlt : v < d
      · rw [if_pos hlt] at h ⊢
        simp only at h
        simp [ihr h]
      · rw [if_neg hlt] at h ⊢
        simp only at h
        simp [ihl h]

theorem funIns_len {d : α} {f : Nat} : ∀ (t : ATree α),
    (funIns d f t).2.vals.length =
      t.vals.length + (if (funIns d f t).1 then 0 else 1) := by
  intro t
  induction t with
  | leaf => simp [funIns, ATree.vals]
  | node l a v r ihl ihr =>
    rw [funIns]
    by_cases he : d = v
    · simp [he, ATree.vals]
    · rw [if_neg he]
      by_cases hlt : v < d
      · rw [if_pos hlt]
        simp only [ATree.vals, List.length_append, List.length_cons]
        rw [ihr]
        split <;> omega
      · rw [if_neg hlt]
        simp only [ATree.vals, List.length_append, List.length_cons]
        rw [ihl]
        split <;> omega

theorem funIns_root {d : α} {f : Nat} (l : ATree α) (a : Nat) (v : α)
    (r : ATree α) : (funIns d f (.node l a v r)).2.rootAddr = some a := by
  rw [funIns]
  by_cases he : d = v
  · simp [he, ATree.rootAddr]
  · rw [if_neg he]
    by_cases hlt : v < d
    · simp [hlt, ATree.rootAddr]
    · simp [hlt, ATree.rootAddr]

theorem funIns_addrs_new {d : α} {f : Nat} : ∀ {t : ATree α},
    (funIns d f t).1 = false → (funIns d f t).2.addrs.Perm (f :: t.addrs) := by
  intro t
  induction t with
  | leaf => intro _; simp [funIns, ATree.addrs]
  | node l a v r ihl ihr =>
    intro h
    rw [funIns] at h ⊢
    by_cases he : d = v
    · rw [if_pos he] at h; cases h
    · rw [if_neg he] at h ⊢
      by_cases hlt : v < d
      · rw [if_pos hlt] at h ⊢
        simp only at h
        show (l.addrs ++ a :: (funIns d f r).2.addrs).Perm
          (f :: (l.addrs ++ a :: r.addrs))
        refine (List.Perm.append_left l.addrs ((ihr h).cons a)).trans ?_
        refine (List.Perm.append_left l.addrs (List.Perm.swap f a r.addrs)).trans ?_
        exact List.perm_middle
      · rw [if_neg hlt] at h ⊢
        simp only at h
        show ((funIns d f l).2.addrs ++ a :: r.addrs).Perm
          (f :: (l.addrs ++ a :: r.addrs))
        exact ((ihl h).append_right (a :: r.addrs)).trans (List.Perm.refl _)

theorem linsert_mem {d : α} : ∀ {xs : List α} {y : α},
    y ∈ linsert d xs ↔ y = d ∨ y ∈ xs := by
  intro xs
  induction xs with
  | nil => intro y; simp [linsert]
  | cons x xs ih =>
    intro y
    rw [linsert]
    by_cases he : d = x
    · rw [if_pos he]
      subst he
      simp only [List.mem_cons]
      tauto
    · rw [if_neg he]
      by_cases hlt : x < d
      · rw [if_pos hlt]
        simp only [List.mem_cons, ih]
        tauto
      · rw [if_neg hlt]
        simp only [List.mem_cons]

theorem linsert_sorted {d : α} : ∀ {xs : List α},
    List.Pairwise (· < ·) xs → List.Pairwise (· < ·) (linsert d xs) := by
  intro xs
  induction xs with
  | nil => intro _; simp [linsert]
  | cons x xs ih =>
    intro h
    rw [List.pairwise_cons] at h
    rw [linsert]
    by_cases he : d = x
    · rw [if_pos he, List.pairwise_cons]
      exact ⟨h.1, h.2⟩
    · rw [if_neg he]
      by_cases hlt : x < d
      · rw [if_pos hlt, List.pairwise_cons]
        refine ⟨fun y hy => ?_, ih h.2⟩
        rcases linsert_mem.mp hy with hyd | hyx
        · rw [hyd]; exact hlt
        · exact h.1 y hyx
      · have hdx : d < x := lt_of_le_of_ne (le_of_not_lt hlt) he
        rw [if_neg hlt, List.pairwise_cons]
        refine ⟨fun y hy => ?_, List.pairwise_cons.mpr ⟨h.1, h.2⟩⟩
        rcases List.mem_cons.mp hy with hyx | hyxs
        · rw [hyx]; exact hdx
        · exact hdx.trans (h.1 y hyxs)

theorem linsert_append_lt {d : α} : ∀ (pre rest : List α),
    (∀ x ∈ pre, x < d) → linsert d (pre ++ rest) = pre ++ linsert d rest := by
  intro pre
  induction pre with
  | nil => intro rest _; simp
  | cons x pre ih =>
    intro rest hb
    have hx : x < d := hb x (by simp)
    show linsert d (x :: (pre ++ rest)) = x :: (pre ++ linsert d rest)
    rw [linsert, if_neg (ne_of_gt hx), if_pos hx,
      ih rest fun y hy => hb y (by simp [hy])]

theorem linsert_append_of_lt {d v : α} (hdv : d < v) : ∀ (xs ys : List α),
    linsert d (xs ++ v :: ys) = linsert d xs ++ v :: ys := by
  intro xs
  induction xs with
  | nil =>
    intro ys
    show linsert d (v :: ys) = [d] ++ v :: ys
    rw [linsert, if_neg (ne_of_lt hdv), if_neg (not_lt_of_gt hdv)]
    rfl
  | cons x xs ih =>
    intro ys
    show linsert d (x :: (xs ++ v :: ys)) = linsert d (x :: xs) ++ v :: ys
    rw [linsert, linsert]
    by_cases he : d = x
    · rw [if_pos he, if_pos he]
      rfl
    · rw [if_neg he, if_neg he]
      by_cases hlt : x < d
      · rw [if_pos hlt, if_pos hlt, ih]
        rfl
      · rw [if_neg hlt, if_neg hlt]
        rfl

theorem funIns_vals {d : α} {f : Nat} : ∀ {t : ATree α},
    List.Pairwise (· < ·) t.vals →
    (funIns d f t).2.vals = linsert d t.vals := by
  intro t
  induction t with
  | leaf => intro _; simp [funIns, ATree.vals, linsert]
  | node l a v r ihl ihr =>
    intro hs
    obtain ⟨hsl, hsr, hlv, hrv⟩ := pairwise_node_vals hs
    rw [funIns]
    by_cases he : d = v
    · subst he
      rw [if_pos rfl]
      show (ATree.node l a d r).vals = _
      rw [show (ATree.node l a d r).vals = l.vals ++ d :: r.vals from rfl,
        linsert_append_lt l.vals (d :: r.vals) hlv, linsert, if_pos rfl]
    · rw [if_neg he]
      by_cases hlt : v < d
      · rw [if_pos hlt]
        show l.vals ++ v :: (funIns d f r).2.vals = _
        rw [show (ATree.node l a v r).vals = l.vals ++ v :: r.vals from rfl,
          ihr hsr,
          linsert_append_lt l.vals (v :: r.vals) fun x hx => (hlv x hx).trans hlt,
          linsert, if_neg he, if_pos hlt]
      · have hdv : d < v := lt_of_le_of_ne (le_of_not_lt hlt) he
        rw [if_neg hlt]
        show (funIns d f l).2.vals ++ v :: r.vals = _
        rw [show (ATree.node l a v r).vals = l.vals ++ v :: r.vals from rfl,
          ihl hsl, linsert_append_of_lt hdv]

theorem funIns_mem {d : α} {f : Nat} : ∀ {t : ATree α},
    List.Pairwise (· < ·) t.vals →
    (funIns d f t).1 = decide (d ∈ t.vals) := by
  intro t
  induction t with
  | leaf => intro _; simp [funIns, ATree.vals]
  | node l a v r ihl ihr =>
    intro hs
    obtain ⟨hsl, hsr, hlv, hrv⟩ := pairwise_node_vals hs
    rw [funIns]
    by_cases he : d = v
    · subst he
      rw [if_pos rfl]
      simp [ATree.vals]
    · rw [if_neg he]
      by_cases hlt : v < d
      · rw [if_pos hlt]
        simp only
        rw [ihr hsr]
        have hnl : d ∉ l.vals := fun hc => absurd ((hlv d hc).trans hlt) (lt_irrefl d)
        simp [ATree.vals, hnl, he]
      · have hdv : d < v := lt_of_le_of_ne (le_of_not_lt hlt) he
        rw [if_neg hlt]
        simp only
        rw [ihl hsl]
        have hnr : d ∉ r.vals := fun hc => absurd (hdv.trans (hrv d hc)) (lt_irrefl d)
        simp [ATree.vals, hnr, he]

theorem sorted_ctx_linsert {pre mid suf : List α} {d : α}
    (h : List.Pairwise (· < ·) (pre ++ mid ++ suf))
    (hpre : ∀ x ∈ pre, x < d) (hsuf : ∀ x ∈ suf, d < x) :
    List.Pairwise (· < ·) (pre ++ linsert d mid ++ suf) := by
  rw [List.pairwise_append] at h ⊢
  obtain ⟨h1, hs, hcross⟩ := h
  rw [List.pairwise_append] at h1 ⊢
  obtain ⟨hp, hm, hcross2⟩ := h1
  refine ⟨⟨hp, linsert_sorted hm, fun x hx y hy => ?_⟩, hs, fun x hx y hy => ?_⟩
  · rcases linsert_mem.mp hy with hyd | hym
    · rw [hyd]; exact hpre x hx
    · exact hcross2 x hx y hym
  · rcases List.mem_append.mp hx with hxp | hxm
    · exact hcross x (List.mem_append.mpr (Or.inl hxp)) y hy
    · rcases linsert_mem.mp hxm with hxd | hxm2
      · rw [hxd]; exact hsuf y hy
      · exact hcross x (List.mem_append.mpr (Or.inr hxm2)) y hy

theorem funIns_plug {d : α} {f : Nat} : ∀ (p : Path α) (t : ATree α),
    (∀ x ∈ ctxPre p, x < d) → (∀ x ∈ ctxSuf p, d < x) →
    funIns d f (plug p t) = ((funIns d f t).1, plug p (funIns d f t).2) := by
  intro p
  induction p with
  | nil => intro t _ _; rfl
  | cons c p ih =>
    intro t hpre hsuf
    cases c with
    | lt a v r =>
      have hdv : d < v := hsuf v (by simp [ctxSuf])
      show funIns d f (plug p (.node t a v r)) = _
      rw [ih (.node t a v r) (fun x hx => hpre x hx)
        (fun x hx => hsuf x (by simp [ctxSuf, hx]))]
      rw [funIns, if_neg (ne_of_lt hdv), if_neg (not_lt_of_gt hdv)]
      rfl
    | rt a v l =>
      have hvd : v < d := hpre v (by simp [ctxPre])
      show funIns d f (plug p (.node l a v t)) = _
      rw [ih (.node l a v t) (fun x hx => hpre x (by simp [ctxPre, hx]))
        (fun x hx => hsuf x hx)]
      rw [funIns, if_neg (Ne.symm (ne_of_lt hvd)), if_pos hvd]
      rfl

theorem hupd_eq {α : Type} (h : SHeap α) (a : Nat) (n : Option (SNode α)) :
    hupd h a n a = n := by simp [hupd]

theorem hupd_ne {α : Type} (h : SHeap α) (a : Nat) (n : Option (SNode α))
    {b : Nat} (hb : b ≠ a) : hupd h a n b = h b := by simp [hupd, hb]

theorem size_node {α : Type} (l : ATree α) (a : Nat) (v : α) (r : ATree α) :
    (ATree.node l a v r).size = l.size + 1 + r.size := by
  show (l.vals ++ v :: r.vals).length = _
  simp only [List.length_append, List.length_cons, ATree.size]
  omega

theorem pairwise_middle {α : Type} {R : α → α → Prop} {pre mid suf : List α}
    (h : List.Pairwise R (pre ++ mid ++ suf)) : List.Pairwise R mid := by
  rw [List.pairwise_append] at h
  exact ((List.pairwise_append).mp h.1).2.1

theorem SetWf.sorted_sub {α : Type} [LinearOrder α] {s : SetS α}
    {path : Path α} {t : ATree α} (hwf : SetWf s (plug path t)) :
    List.Pairwise (· < ·) t.vals := by
  have hs := hwf.sorted
  rw [vals_plug] at hs
  exact pairwise_middle hs

theorem nodup_node_facts {α : Type} {l r : ATree α} {a : Nat} {v : α}
    (h : (ATree.node l a v r).addrs.Nodup) :
    a ∉ l.addrs ∧ a ∉ r.addrs ∧ l.addrs.Nodup ∧ r.addrs.Nodup ∧
      ∀ b ∈ l.addrs, b ∉ r.addrs := by
  rw [show (ATree.node l a v r).addrs = l.addrs ++ a :: r.addrs from rfl,
    List.nodup_append] at h
  obtain ⟨hl, hc, hdisj⟩ := h
  rw [List.nodup_cons] at hc
  refine ⟨fun hc2 => hdisj hc2 (by simp), hc.1, hl, hc.2, fun b hb hbr =>
    hdisj hb (by simp [hbr])⟩

/-- One unfolding step of the insert loop at an allocated node. -/
theorem setInsertGo_step_eq {s : SetS α} {a : Nat} {v : α} {lo ro : Option Nat}
    {d : α} (hn : s.heap a = some ⟨v, lo, ro⟩) (he : d = v) (fuel : Nat) :
    setInsertGo d a s (fuel + 1) =
      some (true, { s with heap := hupd s.heap a (some ⟨d, lo, ro⟩) }) := by
  rw [setInsertGo, hn]
  simp only [Option.bind_eq_bind, Option.some_bind]
  rw [if_pos he]

theorem setInsertGo_step_rn {s : SetS α} {a : Nat} {v : α} {lo : Option Nat}
    {d : α} (hn : s.heap a = some ⟨v, lo, none⟩) (he : ¬(d = v))
    (hlt : v < d) (fuel : Nat) :
    setInsertGo d a s (fuel + 1) =
      some (false, ⟨s.count + 1, s.root,
        hupd (hupd s.heap a (some ⟨v, lo, some s.next⟩)) s.next
          (some ⟨d, none, none⟩), s.next + 1⟩) := by
  rw [setInsertGo, hn]
  simp only [Option.bind_eq_bind, Option.some_bind]
  rw [if_neg he, if_pos hlt]

theorem setInsertGo_step_rs {s : SetS α} {a rr : Nat} {v : α} {lo : Option Nat}
    {d : α} (hn : s.heap a = some ⟨v, lo, some rr⟩) (he : ¬(d = v))
    (hlt : v < d) (fuel : Nat) :
    setInsertGo d a s (fuel + 1) = setInsertGo d rr s fuel := by
  rw [setInsertGo, hn]
  simp only [Option.bind_eq_bind, Option.some_bind]
  rw [if_neg he, if_pos hlt]

theorem setInsertGo_step_ln {s : SetS α} {a : Nat} {v : α} {ro : Option Nat}
    {d : α} (hn : s.heap a = some ⟨v, none, ro⟩) (he : ¬(d = v))
    (hlt : ¬(v < d)) (fuel : Nat) :
    setInsertGo d a s (fuel + 1) =
      some (false, ⟨s.count + 1, s.root,
        hupd (hupd s.heap a (some ⟨v, some s.next, ro⟩)) s.next
          (some ⟨d, none, none⟩), s.next + 1⟩) := by
  rw [setInsertGo, hn]
  simp only [Option.bind_eq_bind, Option.some_bind]
  rw [if_neg he, if_neg hlt]

theorem setInsertGo_step_ls {s : SetS α} {a ll : Nat} {v : α} {ro : Option Nat}
    {d : α} (hn : s.heap a = some ⟨v, some ll, ro⟩) (he : ¬(d = v))
    (hlt : ¬(v < d)) (fuel : Nat) :
    setInsertGo d a s (fuel + 1) = setInsertGo d ll s fuel := by
  rw [setInsertGo, hn]
  simp only [Option.bind_eq_bind, Option.some_bind]
  rw [if_neg he, if_neg hlt]

/-- Common part of the well-formedness argument for an insert that
allocates a new leaf at address `s.next`. -/
theorem insert_wf_generic {s : SetS α} {p : Path α} {t : ATree α} {d : α}
    {s2 : SetS α}
    (hwf : SetWf s (plug p t))
    (hpre : ∀ x ∈ ctxPre p, x < d) (hsuf : ∀ x ∈ ctxSuf p, d < x)
    (htree : IsTree s2.heap s2.root (plug p (funIns d s.next t).2))
    (hff : (funIns d s.next t).1 = false)
    (hcnt : s2.count = s.count + 1)
    (hnext : s2.next = s.next + 1)
    (hdom : ∀ b, b ∉ (plug p (funIns d s.next t).2).addrs →
      s2.heap b = none) :
    SetWf s2 (plug p (funIns d s.next t).2) := by
  have hperm2 : (plug p (funIns d s.next t).2).addrs.Perm
      (s.next :: (plug p t).addrs) := by
    refine (addrs_plug_perm p _).trans ?_
    refine ((funIns_addrs_new hff).append_right (pathAddrs p)).trans ?_
    show (s.next :: (t.addrs ++ pathAddrs p)).Perm _
    exact ((addrs_plug_perm p t).symm.cons s.next)
  refine ⟨htree, ?_, ?_, ?_, ?_, hdom⟩
  · rw [hperm2.nodup_iff, List.nodup_cons]
    exact ⟨fun hc => absurd (hwf.bound _ hc) (lt_irrefl _), hwf.nodup⟩
  · rw [vals_plug, funIns_vals hwf.sorted_sub]
    have hs := hwf.sorted
    rw [vals_plug] at hs
    exact sorted_ctx_linsert hs hpre hsuf
  · rw [hcnt, hwf.hcount]
    show (plug p t).size + 1 = (plug p (funIns d s.next t).2).size
    show (plug p t).vals.length + 1 = (plug p (funIns d s.next t).2).vals.length
    rw [vals_plug, vals_plug]
    simp only [List.length_append]
    rw [funIns_len, hff]
    simp only [Bool.false_eq_true, if_false]
    omega
  · intro b hb
    rw [hnext]
    have h1 := (hperm2.mem_iff).mp hb
    rw [List.mem_cons] at h1
    rcases h1 with h1 | h1
    · subst h1; exact Nat.lt_succ_self _
    · exact (hwf.bound b h1).trans (Nat.lt_succ_self _)

/-- The insert descent refines the functional insert `funIns`: started at
the root of the subtree in the hole of `path`, with enough fuel and with
the context values on the correct sides of `d`, it succeeds, returns the
`funIns` flag, and leaves a well-formed state laying out the `funIns`
tree in the same hole. -/
theorem setInsertGo_spec {s : SetS α} {d : α} :
    ∀ (t : ATree α) (fuel : Nat) (path : Path α) (ta : Nat),
      SetWf s (plug path t) → t.rootAddr = some ta → t.size < fuel →
      (∀ x ∈ ctxPre path, x < d) → (∀ x ∈ ctxSuf path, d < x) →
      ∃ res : Bool × SetS α,
        setInsertGo d ta s fuel = some res ∧
        res.1 = (funIns d s.next t).1 ∧
        SetWf res.2 (plug path (funIns d s.next t).2) := by
  intro t
  induction t with
  | leaf => intro fuel path ta _ hroot _ _ _; cases hroot
  | node l a v r ihl ihr =>
    intro fuel path ta hwf hroot hfuel hpre hsuf
    rw [show (ATree.node l a v r).rootAddr = some a from rfl] at hroot
    injection hroot with hta
    subst hta
    cases fuel with
    | zero => exact absurd hfuel (Nat.not_lt_zero _)
    | succ fuel =>
      have hn : s.heap a = some ⟨v, l.rootAddr, r.rootAddr⟩ := hwf.heap_node
      have hsub := IsTree_plug_sub path (.node l a v r) hwf.tree
      have htl : IsTree s.heap l.rootAddr l := by
        cases hsub with | node _ x _ => exact x
      have htr : IsTree s.heap r.rootAddr r := by
        cases hsub with | node _ _ x => exact x
      obtain ⟨hal, har, hndl, hndr, hdisjlr⟩ :=
        nodup_node_facts (nodup_plug_facts hwf.nodup).1
      have hpdisj := (nodup_plug_facts hwf.nodup).2.2
      obtain ⟨hctxv, hlv, hrv, hvctx⟩ := sorted_plug_bounds hwf.sorted
      have hmema : a ∈ (plug path (ATree.node l a v r)).addrs :=
        mem_plug_addrs.mpr (Or.inl (by simp [ATree.addrs]))
      have hanext : a < s.next := hwf.bound a hmema
      by_cases he : d = v
      · -- value already present at this node: in-place payload write
        have hstep := setInsertGo_step_eq hn he fuel
        have hf1 : (funIns d s.next (ATree.node l a v r)).1 = true := by
          rw [funIns, if_pos he]
        refine ⟨_, hstep, ?_, ?_⟩
        · rw [hf1]
        · rw [funIns_found hf1]
          refine ⟨hwf.tree.congr fun b hb => ?_, hwf.nodup, hwf.sorted,
            hwf.hcount, hwf.bound, fun b hb => ?_⟩
          · show hupd s.heap a (some ⟨d, l.rootAddr, r.rootAddr⟩) b = s.heap b
            by_cases hba : b = a
            · subst hba
              rw [hupd_eq, hn, he]
            · exact hupd_ne _ _ _ hba
          · have hba : b ≠ a := fun hc => hb (hc ▸ hmema)
            show hupd s.heap a (some ⟨d, l.rootAddr, r.rootAddr⟩) b = none
            rw [hupd_ne _ _ _ hba]
            exact hwf.dom b hb
      · by_cases hlt : v < d
        · -- descend right
          have hT1 : (funIns d s.next (ATree.node l a v r)).1
              = (funIns d s.next r).1 := by
            rw [funIns, if_neg he, if_pos hlt]
          have hT2 : (funIns d s.next (ATree.node l a v r)).2
              = ATree.node l a v (funIns d s.next r).2 := by
            rw [funIns, if_neg he, if_pos hlt]
          cases r with
          | leaf =>
            -- allocate a fresh right leaf
            have hn2 : s.heap a = some ⟨v, l.rootAddr, none⟩ := hn
            have hstep := setInsertGo_step_rn hn2 he hlt fuel
            have hff : (funIns d s.next (ATree.node l a v .leaf)).1 = false := by
              rw [hT1, funIns]
            have hT2b : (funIns d s.next (ATree.node l a v .leaf)).2
                = ATree.node l a v (ATree.node .leaf s.next d .leaf) := by
              rw [hT2, funIns]
            refine ⟨_, hstep, by rw [hff], ?_⟩
            refine insert_wf_generic hwf hpre hsuf ?_ hff rfl rfl ?_
            · rw [hT2b]
              refine isTree_plug_update path (.node l a v .leaf) _ s.heap _
                s.root hwf.tree rfl ?_ ?_
              · refine IsTree.node ?_ ?_ (IsTree.node ?_ .leaf .leaf)
                · show hupd (hupd s.heap a _) s.next _ a = _
                  rw [hupd_ne _ _ _ (ne_of_lt hanext), hupd_eq]
                  rfl
                · refine htl.congr fun b hb => ?_
                  have hba : b ≠ a := fun hc => hal (hc ▸ hb)
                  have hbn : b ≠ s.next := ne_of_lt (hwf.bound b
                    (mem_plug_addrs.mpr (Or.inl (by simp [ATree.addrs, hb]))))
                  show hupd (hupd s.heap a _) s.next _ b = _
                  rw [hupd_ne _ _ _ hbn, hupd_ne _ _ _ hba]
                · show hupd (hupd s.heap a _) s.next _ s.next = _
                  rw [hupd_eq]
                  rfl
              · intro b hb
                have hba : b ≠ a := fun hc => hpdisj a (by simp [ATree.addrs])
                  (hc ▸ hb)
                have hbn : b ≠ s.next := ne_of_lt (hwf.bound b
                  (mem_plug_addrs.mpr (Or.inr hb)))
                show hupd (hupd s.heap a _) s.next _ b = _
                rw [hupd_ne _ _ _ hbn, hupd_ne _ _ _ hba]
            · intro b hb
              rw [hT2b] at hb
              have hbn : b ≠ s.next := by
                intro hc
                exact hb (hc ▸ mem_plug_addrs.mpr (Or.inl
                  (by simp [ATree.addrs])))
              have hba : b ≠ a := by
                intro hc
                exact hb (hc ▸ mem_plug_addrs.mpr (Or.inl
                  (by simp [ATree.addrs])))
              have hb1 : b ∉ (plug path (ATree.node l a v .leaf)).addrs := by
                intro hc
                apply hb
                rcases mem_plug_addrs.mp hc with h1 | h1
                · refine mem_plug_addrs.mpr (Or.inl ?_)
                  simp only [ATree.addrs, List.mem_append, List.mem_cons,
                    List.append_nil] at h1 ⊢
                  tauto
                · exact mem_plug_addrs.mpr (Or.inr h1)
              show hupd (hupd s.heap a _) s.next _ b = none
              rw [hupd_ne _ _ _ hbn, hupd_ne _ _ _ hba]
              exact hwf.dom b hb1
          | node rl ra rv rr =>
            -- recurse into the allocated right child
            have hn2 : s.heap a = some ⟨v, l.rootAddr, some ra⟩ := hn
            have hstep := setInsertGo_step_rs hn2 he hlt fuel
            have hpre2 : ∀ x ∈ ctxPre (.rt a v l :: path), x < d := by
              intro x hx
              simp only [ctxPre, List.mem_append, List.mem_singleton] at hx
              rcases hx with (hx | hx) | hx
              · exact hpre x hx
              · exact (hlv x hx).trans hlt
              · rw [hx]; exact hlt
            have hsuf2 : ∀ x ∈ ctxSuf (.rt a v l :: path), d < x :=
              fun x hx => hsuf x hx
            have hsz : (ATree.node rl ra rv rr).size < fuel := by
              have h1 := size_node l a v (ATree.node rl ra rv rr)
              have h2 := size_node rl ra rv rr
              omega
            obtain ⟨res, heq, hr1, hr2⟩ := ihr fuel (.rt a v l :: path) ra
              hwf rfl hsz hpre2 hsuf2
            refine ⟨res, hstep.trans heq, ?_, ?_⟩
            · rw [hT1]; exact hr1
            · rw [hT2]; exact hr2
        · -- descend left
          have hT1 : (funIns d s.next (ATree.node l a v r)).1
              = (funIns d s.next l).1 := by
            rw [funIns, if_neg he, if_neg hlt]
          have hT2 : (funIns d s.next (ATree.node l a v r)).2
              = ATree.node (funIns d s.next l).2 a v r := by
            rw [funIns, if_neg he, if_neg hlt]
          have hdv : d < v := lt_of_le_of_ne (le_of_not_lt hlt) he
          cases l with
          | leaf =>
            -- allocate a fresh left leaf
            have hn2 : s.heap a = some ⟨v, none, r.rootAddr⟩ := hn
            have hstep := setInsertGo_step_ln hn2 he hlt fuel
            have hff : (funIns d s.next (ATree.node .leaf a v r)).1 = false := by
              rw [hT1, funIns]
            have hT2b : (funIns d s.next (ATree.node .leaf a v r)).2
                = ATree.node (ATree.node .leaf s.next d .leaf) a v r := by
              rw [hT2, funIns]
            refine ⟨_, hstep, by rw [hff], ?_⟩
            refine insert_wf_generic hwf hpre hsuf ?_ hff rfl rfl ?_
            · rw [hT2b]
              refine isTree_plug_update path (.node .leaf a v r) _ s.heap _
                s.root hwf.tree rfl ?_ ?_
              · refine IsTree.node ?_ (IsTree.node ?_ .leaf .leaf) ?_
                · show hupd (hupd s.heap a _) s.next _ a = _
                  rw [hupd_ne _ _ _ (ne_of_lt hanext), hupd_eq]
                  rfl
                · show hupd (hupd s.heap a _) s.next _ s.next = _
                  rw [hupd_eq]
                  rfl
                · refine htr.congr fun b hb => ?_
                  have hba : b ≠ a := fun hc => har (hc ▸ hb)
                  have hbn : b ≠ s.next := ne_of_lt (hwf.bound b
                    (mem_plug_addrs.mpr (Or.inl (by simp [ATree.addrs, hb]))))
                  show hupd (hupd s.heap a _) s.next _ b = _
                  rw [hupd_ne _ _ _ hbn, hupd_ne _ _ _ hba]
              · intro b hb
                have hba : b ≠ a := fun hc => hpdisj a (by simp [ATree.addrs])
                  (hc ▸ hb)
                have hbn : b ≠ s.next := ne_of_lt (hwf.bound b
                  (mem_plug_addrs.mpr (Or.inr hb)))
                show hupd (hupd s.heap a _) s.next _ b = _
                rw [hupd_ne _ _ _ hbn, hupd_ne _ _ _ hba]
            · intro b hb
              rw [hT2b] at hb
              have hbn : b ≠ s.next := by
                intro hc
                exact hb (hc ▸ mem_plug_addrs.mpr (Or.inl
                  (by simp [ATree.addrs])))
              have hba : b ≠ a := by
                intro hc
                exact hb (hc ▸ mem_plug_addrs.mpr (Or.inl
                  (by simp [ATree.addrs])))
              have hb1 : b ∉ (plug path (ATree.node .leaf a v r)).addrs := by
                intro hc
                apply hb
                rcases mem_plug_addrs.mp hc with h1 | h1
                · refine mem_plug_addrs.mpr (Or.inl ?_)
                  simp only [ATree.addrs, List.mem_append, List.mem_cons,
                    List.nil_append] at h1 ⊢
                  tauto
                · exact mem_plug_addrs.mpr (Or.inr h1)
              show hupd (hupd s.heap a _) s.next _ b = none
              rw [hupd_ne _ _ _ hbn, hupd_ne _ _ _ hba]
              exact hwf.dom b hb1
          | node ll la lv lr =>
            -- recurse into the allocated left child
            have hn2 : s.heap a = some ⟨v, some la, r.rootAddr⟩ := hn
            have hstep := setInsertGo_step_ls hn2 he hlt fuel
            have hpre2 : ∀ x ∈ ctxPre (.lt a v r :: path), x < d :=
              fun x hx => hpre x hx
            have hsuf2 : ∀ x ∈ ctxSuf (.lt a v r :: path), d < x := by
              intro x hx
              simp only [ctxSuf, List.cons_append, List.mem_cons,
                List.mem_append] at hx
              rcases hx with hx | hx | hx
              · rw [hx]; exact hdv
              · exact hdv.trans (hrv x hx)
              · exact hsuf x hx
            have hsz : (ATree.node ll la lv lr).size < fuel := by
              have h1 := size_node (ATree.node ll la lv lr) a v r
              have h2 := size_node ll la lv lr
              omega
            obtain ⟨res, heq, hr1, hr2⟩ := ihl fuel (.lt a v r :: path) la
              hwf rfl hsz hpre2 hsuf2
            refine ⟨res, hstep.trans heq, ?_, ?_⟩
            · rw [hT1]; exact hr1
            · rw [hT2]; exact hr2

/-- `name##_insert` refines `funIns` on any well-formed set. -/
theorem set_insert_spec {s : SetS α} {t : ATree α} {d : α} (hwf : SetWf s t) :
    ∃ res : Bool × SetS α, set_insert s d = some res ∧
      res.1 = (funIns d s.next t).1 ∧
      SetWf res.2 (funIns d s.next t).2 := by
  cases t with
  | leaf =>
    have hroot : s.root = none := hwf.tree.root_eq
    rw [set_insert, hroot]
    have hff : (funIns d s.next (ATree.leaf : ATree α)).1 = false := by
      rw [funIns]
    refine ⟨_, rfl, by rw [hff], ?_⟩
    refine insert_wf_generic (p := []) (t := .leaf) hwf (by simp [ctxPre])
      (by simp [ctxSuf]) ?_ hff rfl rfl ?_
    · exact IsTree.node (hupd_eq _ _ _) .leaf .leaf
    · intro b hb
      have hbn : b ≠ s.next := by
        intro hc
        exact hb (hc ▸ (by simp [plug, funIns, ATree.addrs]))
      show hupd s.heap s.next _ b = none
      rw [hupd_ne _ _ _ hbn]
      exact hwf.dom b (by simp [ATree.addrs])
  | node l a v r =>
    have hroot : s.root = some a := hwf.tree.root_eq
    rw [set_insert, hroot]
    have hsz : (ATree.node l a v r).size < s.count + 1 := by
      rw [hwf.hcount]
      exact Nat.lt_succ_self _
    obtain ⟨res, heq, h1, h2⟩ := setInsertGo_spec (s := s) (d := d)
      (.node l a v r) (s.count + 1) [] a hwf rfl hsz
      (by simp [ctxPre]) (by simp [ctxSuf])
    exact ⟨res, heq, h1, h2⟩

theorem setFindGo_step_eq {s : SetS α} {a : Nat} {v : α} {lo ro : Option Nat}
    {d : α} (hn : s.heap a = some ⟨v, lo, ro⟩) (he : d = v) (fuel : Nat) :
    setFindGo d a s (fuel + 1) = some true := by
  rw [setFindGo, hn]
  simp only [Option.bind_eq_bind, Option.some_bind]
  rw [if_pos he]

theorem setFindGo_step_rn {s : SetS α} {a : Nat} {v : α} {lo : Option Nat}
    {d : α} (hn : s.heap a = some ⟨v, lo, none⟩) (he : ¬(d = v))
    (hlt : v < d) (fuel : Nat) :
    setFindGo d a s (fuel + 1) = some false := by
  rw [setFindGo, hn]
  simp only [Option.bind_eq_bind, Option.some_bind]
  rw [if_neg he, if_pos hlt]

theorem setFindGo_step_rs {s : SetS α} {a rr : Nat} {v : α} {lo : Option Nat}
    {d : α} (hn : s.heap a = some ⟨v, lo, some rr⟩) (he : ¬(d = v))
    (hlt : v < d) (fuel : Nat) :
    setFindGo d a s (fuel + 1) = setFindGo d rr s fuel := by
  rw [setFindGo, hn]
  simp only [Option.bind_eq_bind, Option.some_bind]
  rw [if_neg he, if_pos hlt]

theorem setFindGo_step_ln {s : SetS α} {a : Nat} {v : α} {ro : Option Nat}
    {d : α} (hn : s.heap a = some ⟨v, none, ro⟩) (he : ¬(d = v))
    (hlt : ¬(v < d)) (fuel : Nat) :
    setFindGo d a s (fuel + 1) = some false := by
  rw [setFindGo, hn]
  simp only [Option.bind_eq_bind, Option.some_bind]
  rw [if_neg he, if_neg hlt]

theorem setFindGo_step_ls {s : SetS α} {a ll : Nat} {v : α} {ro : Option Nat}
    {d : α} (hn : s.heap a = some ⟨v, some ll, ro⟩) (he : ¬(d = v))
    (hlt : ¬(v < d)) (fuel : Nat) :
    setFindGo d a s (fuel + 1) = setFindGo d ll s fuel := by
  rw [setFindGo, hn]
  simp only [Option.bind_eq_bind, Option.some_bind]
  rw [if_neg he, if_neg hlt]

/-- The find loop decides membership in the in-order value list of the
subtree it starts at. -/
theorem setFindGo_spec {s : SetS α} {d : α} :
    ∀ (t : ATree α) (fuel : Nat) (ta : Nat),
      IsTree s.heap (some ta) t → List.Pairwise (· < ·) t.vals →
      t.size < fuel →
      setFindGo d ta s fuel = some (decide (d ∈ t.vals)) := by
  intro t
  induction t with
  | leaf =>
    intro fuel ta htree _ _
    cases htree
  | node l a v r ihl ihr =>
    intro fuel ta htree hsorted hfuel
    cases htree with
    | node hn htl htr =>
      obtain ⟨hsl, hsr, hlv, hrv⟩ := pairwise_node_vals hsorted
      cases fuel with
      | zero => exact absurd hfuel (Nat.not_lt_zero _)
      | succ fuel =>
        by_cases he : d = v
        · rw [setFindGo_step_eq hn he fuel]
          have : d ∈ (ATree.node l a v r).vals := by simp [ATree.vals, he]
          simp [this]
        · by_cases hlt : v < d
          · have hnl : d ∉ l.vals :=
              fun hc => absurd ((hlv d hc).trans hlt) (lt_irrefl d)
            cases r with
            | leaf =>
              rw [setFindGo_step_rn hn he hlt fuel]
              simp [ATree.vals, hnl, he]
            | node rl ra rv rr =>
              rw [setFindGo_step_rs hn he hlt fuel]
              have hsz : (ATree.node rl ra rv rr).size < fuel := by
                have h1 := size_node l a v (ATree.node rl ra rv rr)
                omega
              rw [ihr fuel ra htr hsr hsz]
              congr 1
              simp [ATree.vals, hnl, he]
          · have hdv : d < v := lt_of_le_of_ne (le_of_not_lt hlt) he
            have hnr : d ∉ r.vals :=
              fun hc => absurd (hdv.trans (hrv d hc)) (lt_irrefl d)
            cases l with
            | leaf =>
              rw [setFindGo_step_ln hn he hlt fuel]
              simp [ATree.vals, hnr, he]
            | node ll la lv lr =>
              rw [setFindGo_step_ls hn he hlt fuel]
              have hsz : (ATree.node ll la lv lr).size < fuel := by
                have h1 := size_node (ATree.node ll la lv lr) a v r
                omega
              rw [ihl fuel la htl hsl hsz]
              congr 1
              simp [ATree.vals, hnr, he]

/-- `name##_contains` decides membership in the in-order value list. -/
theorem set_contains_spec {s : SetS α} {t : ATree α} (hwf : SetWf s t)
    (d : α) : set_contains s d = some (decide (d ∈ t.vals)) := by
  cases t with
  | leaf =>
    have hroot : s.root = none := hwf.tree.root_eq
    rw [set_contains, hroot]
    simp [ATree.vals]
  | node l a v r =>
    have hroot : s.root = some a := hwf.tree.root_eq
    rw [set_contains, hroot]
    have htree : IsTree s.heap (some a) (ATree.node l a v r) := by
      have := hwf.tree
      rwa [hroot] at this
    refine setFindGo_spec (ATree.node l a v r) (s.count + 1) a htree
      hwf.sorted ?_
    rw [hwf.hcount]
    exact Nat.lt_succ_self _

/-- Functional mirror of the predecessor scan: given the left subtree
`node l a v r` of the erased node, return the maximum node's
`(address, value)` and the left subtree with that node spliced out. -/
def funSMax {α : Type} : ATree α → Nat → α → ATree α → (Nat × α) × ATree α
  | l, a, v, .leaf => ((a, v), l)
  | l, a, v, .node rl ra rv rr =>
    ((funSMax rl ra rv rr).1, .node l a v (funSMax rl ra rv rr).2)

/-- Functional mirror of splicing out the root `(a, v)` of
`node l a v r`: promote the in-order predecessor when a left child
exists. -/
def funDelRoot {α : Type} : ATree α → Nat → α → ATree α → ATree α
  | .leaf, _, _, r => r
  | .node ll la lv lr, _, _, r =>
    .node (funSMax ll la lv lr).2 (funSMax ll la lv lr).1.1
      (funSMax ll la lv lr).1.2 r

/-- Functional mirror of the erase descent. -/
def funErase (d : α) : ATree α → Bool × ATree α
  | .leaf => (false, .leaf)
  | .node l a v r =>
    if d = v then (true, funDelRoot l a v r)
    else if v < d then
      ((funErase d r).1, .node l a v (funErase d r).2)
    else
      ((funErase d l).1, .node (funErase d l).2 a v r)

/-- Ordered-list removal: the effect of BST erasure on the in-order
value list. -/
def lremove (d : α) : List α → List α
  | [] => []
  | x :: xs => if d = x then xs
    else if x < d then x :: lremove d xs
    else x :: xs

theorem funSMax_vals {α : Type} : ∀ (r l : ATree α) (a : Nat) (v : α),
    (ATree.node l a v r).vals =
      (funSMax l a v r).2.vals ++ [(funSMax l a v r).1.2] := by
  intro r
  induction r with
  | leaf => intro l a v; rfl
  | node rl ra rv rr ihl ihr =>
    intro l a v
    show l.vals ++ v :: (ATree.node rl ra rv rr).vals =
      (ATree.node l a v (funSMax rl ra rv rr).2).vals ++
        [(funSMax rl ra rv rr).1.2]
    rw [ihr rl ra rv]
    show l.vals ++ v :: ((funSMax rl ra rv rr).2.vals ++
        [(funSMax rl ra rv rr).1.2]) =
      (l.vals ++ v :: (funSMax rl ra rv rr).2.vals) ++
        [(funSMax rl ra rv rr).1.2]
    simp

theorem funSMax_addrs {α : Type} : ∀ (r l : ATree α) (a : Nat) (v : α),
    (ATree.node l a v r).addrs.Perm
      ((funSMax l a v r).2.addrs ++ [(funSMax l a v r).1.1]) := by
  intro r
  induction r with
  | leaf => intro l a v; exact List.Perm.refl _
  | node rl ra rv rr ihl ihr =>
    intro l a v
    show (l.addrs ++ a :: (ATree.node rl ra rv rr).addrs).Perm
      ((ATree.node l a v (funSMax rl ra rv rr).2).addrs ++
        [(funSMax rl ra rv rr).1.1])
    refine (List.Perm.append_left l.addrs ((ihr rl ra rv).cons a)).trans ?_
    show (l.addrs ++ a :: ((funSMax rl ra rv rr).2.addrs ++
        [(funSMax rl ra rv rr).1.1])).Perm
      ((l.addrs ++ a :: (funSMax rl ra rv rr).2.addrs) ++
        [(funSMax rl ra rv rr).1.1])
    simp [List.append_assoc]

theorem funDelRoot_vals {α : Type} (l : ATree α) (a : Nat) (v : α)
    (r : ATree α) : (funDelRoot l a v r).vals = l.vals ++ r.vals := by
  cases l with
  | leaf => rfl
  | node ll la lv lr =>
    show ((funSMax ll la lv lr).2.vals ++ (funSMax ll la lv lr).1.2 :: r.vals)
      = (ATree.node ll la lv lr).vals ++ r.vals
    rw [funSMax_vals lr ll la lv]
    simp

theorem funDelRoot_addrs {α : Type} (l : ATree α) (a : Nat) (v : α)
    (r : ATree α) : (funDelRoot l a v r).addrs.Perm (l.addrs ++ r.addrs) := by
  cases l with
  | leaf => exact List.Perm.refl _
  | node ll la lv lr =>
    show ((funSMax ll la lv lr).2.addrs ++
      (funSMax ll la lv lr).1.1 :: r.addrs).Perm
      ((ATree.node ll la lv lr).addrs ++ r.addrs)
    refine List.Perm.trans ?_ ((funSMax_addrs lr ll la lv).symm.append_right _)
    show ((funSMax ll la lv lr).2.addrs ++
      (funSMax ll la lv lr).1.1 :: r.addrs).Perm
      (((funSMax ll la lv lr).2.addrs ++ [(funSMax ll la lv lr).1.1]) ++ r.addrs)
    simp [List.append_assoc]

theorem funErase_not_found {d : α} : ∀ {t : ATree α},
    (funErase d t).1 = false → (funErase d t).2 = t := by
  intro t
  induction t with
  | leaf => intro _; rfl
  | node l a v r ihl ihr =>
    intro h
    rw [funErase] at h ⊢
    by_cases he : d = v
    · rw [if_pos he] at h; cases h
    · rw [if_neg he] at h ⊢
      by_cases hlt : v < d
      · rw [if_pos hlt] at h ⊢
        simp only at h
        simp [ihr h]
      · rw [if_neg hlt] at h ⊢
        simp only at h
        simp [ihl h]

theorem funErase_addrs_found {d : α} : ∀ {t : ATree α},
    (funErase d t).1 = true →
    ∃ da, t.addrs.Perm (da :: (funErase d t).2.addrs) := by
  intro t
  induction t with
  | leaf => intro h; cases h
  | node l a v r ihl ihr =>
    intro h
    rw [funErase] at h ⊢
    by_cases he : d = v
    · rw [if_pos he] at h ⊢
      refine ⟨a, ?_⟩
      show (l.addrs ++ a :: r.addrs).Perm (a :: (funDelRoot l a v r).addrs)
      exact List.perm_middle.trans ((funDelRoot_addrs l a v r).symm.cons a)
    · rw [if_neg he] at h ⊢
      by_cases hlt : v < d
      · rw [if_pos hlt] at h ⊢
        simp only at h
        obtain ⟨da, hda⟩ := ihr h
        refine ⟨da, ?_⟩
        show (l.addrs ++ a :: r.addrs).Perm
          (da :: (l.addrs ++ a :: (funErase d r).2.addrs))
        refine (List.Perm.append_left l.addrs (hda.cons a)).trans ?_
        refine (List.Perm.append_left l.addrs
          (List.Perm.swap da a (funErase d r).2.addrs)).trans ?_
        exact List.perm_middle
      · rw [if_neg hlt] at h ⊢
        simp only at h
        obtain ⟨da, hda⟩ := ihl h
        refine ⟨da, ?_⟩
        show (l.addrs ++ a :: r.addrs).Perm
          (da :: ((funErase d l).2.addrs ++ a :: r.addrs))
        exact (hda.append_right (a :: r.addrs)).trans (List.Perm.refl _)

theorem lremove_sublist {d : α} : ∀ (xs : List α),
    (lremove d xs).Sublist xs := by
  intro xs
  induction xs with
  | nil => exact List.Sublist.refl _
  | cons x xs ih =>
    rw [lremove]
    by_cases he : d = x
    · rw [if_pos he]
      exact List.sublist_cons_self x xs
    · rw [if_neg he]
      by_cases hlt : x < d
      · rw [if_pos hlt]
        exact ih.cons₂ x
      · rw [if_neg hlt]

theorem lremove_append_lt {d : α} : ∀ (pre rest : List α),
    (∀ x ∈ pre, x < d) → lremove d (pre ++ rest) = pre ++ lremove d rest := by
  intro pre
  induction pre with
  | nil => intro rest _; simp
  | cons x pre ih =>
    intro rest hb
    have hx : x < d := hb x (by simp)
    show lremove d (x :: (pre ++ rest)) = x :: (pre ++ lremove d rest)
    rw [lremove, if_neg (ne_of_gt hx), if_pos hx,
      ih rest fun y hy => hb y (by simp [hy])]

theorem lremove_append_of_lt {d v : α} (hdv : d < v) : ∀ (xs ys : List α),
    lremove d (xs ++ v :: ys) = lremove d xs ++ v :: ys := by
  intro xs
  induction xs with
  | nil =>
    intro ys
    show lremove d (v :: ys) = [] ++ v :: ys
    rw [lremove, if_neg (ne_of_lt hdv), if_neg (not_lt_of_gt hdv)]
    rfl
  | cons x xs ih =>
    intro ys
    show lremove d (x :: (xs ++ v :: ys)) = lremove d (x :: xs) ++ v :: ys
    rw [lremove, lremove]
    by_cases he : d = x
    · rw [if_pos he, if_pos he]
    · rw [if_neg he, if_neg he]
      by_cases hlt : x < d
      · rw [if_pos hlt, if_pos hlt, ih]
        rfl
      · rw [if_neg hlt, if_neg hlt]
        rfl

theorem funErase_vals {d : α} : ∀ {t : ATree α},
    List.Pairwise (· < ·) t.vals →
    (funErase d t).2.vals = lremove d t.vals := by
  intro t
  induction t with
  | leaf => intro _; rfl
  | node l a v r ihl ihr =>
    intro hs
    obtain ⟨hsl, hsr, hlv, hrv⟩ := pairwise_node_vals hs
    rw [funErase]
    by_cases he : d = v
    · rw [if_pos he]
      show (funDelRoot l a v r).vals = _
      rw [funDelRoot_vals,
        show (ATree.node l a v r).vals = l.vals ++ v :: r.vals from rfl,
        lremove_append_lt l.vals (v :: r.vals)
          fun x hx => he ▸ hlv x hx,
        lremove, if_pos he]
    · rw [if_neg he]
      by_cases hlt : v < d
      · rw [if_pos hlt]
        show l.vals ++ v :: (funErase d r).2.vals = _
        rw [show (ATree.node l a v r).vals = l.vals ++ v :: r.vals from rfl,
          ihr hsr,
          lremove_append_lt l.vals (v :: r.vals)
            fun x hx => (hlv x hx).trans hlt,
          lremove, if_neg he, if_pos hlt]
      · have hdv : d < v := lt_of_le_of_ne (le_of_not_lt hlt) he
        rw [if_neg hlt]
        show (funErase d l).2.vals ++ v :: r.vals = _
        rw [show (ATree.node l a v r).vals = l.vals ++ v :: r.vals from rfl,
          ihl hsl, lremove_append_of_lt hdv]

theorem funErase_mem {d : α} : ∀ {t : ATree α},
    List.Pairwise (· < ·) t.vals →
    (funErase d t).1 = decide (d ∈ t.vals) := by
  intro t
  induction t with
  | leaf => intro _; simp [funErase, ATree.vals]
  | node l a v r ihl ihr =>
    intro hs
    obtain ⟨hsl, hsr, hlv, hrv⟩ := pairwise_node_vals hs
    rw [funErase]
    by_cases he : d = v
    · rw [if_pos he]
      simp [ATree.vals, he]
    · rw [if_neg he]
      by_cases hlt : v < d
      · rw [if_pos hlt]
        simp only
        rw [ihr hsr]
        have hnl : d ∉ l.vals :=
          fun hc => absurd ((hlv d hc).trans hlt) (lt_irrefl d)
        simp [ATree.vals, hnl, he]
      · have hdv : d < v := lt_of_le_of_ne (le_of_not_lt hlt) he
        rw [if_neg hlt]
        simp only
        rw [ihl hsl]
        have hnr : d ∉ r.vals :=
          fun hc => absurd (hdv.trans (hrv d hc)) (lt_irrefl d)
        simp [ATree.vals, hnr, he]

theorem lremove_length_sorted {d : α} : ∀ {xs : List α},
    List.Pairwise (· < ·) xs →
    (lremove d xs).length + (if d ∈ xs then 1 else 0) = xs.length := by
  intro xs
  induction xs with
  | nil => intro _; simp [lremove]
  | cons x xs ih =>
    intro hs
    rw [List.pairwise_cons] at hs
    rw [lremove]
    by_cases he : d = x
    · rw [if_pos he]
      simp [he]
    · rw [if_neg he]
      by_cases hlt : x < d
      · rw [if_pos hlt]
        have hm : (d ∈ x :: xs) ↔ (d ∈ xs) := by simp [he]
        have hih := ih hs.2
        by_cases hd : d ∈ xs
        · rw [if_pos (hm.mpr hd)]
          rw [if_pos hd] at hih
          simp only [List.length_cons]
          omega
        · rw [if_neg (fun hc => hd (hm.mp hc))]
          rw [if_neg hd] at hih
          simp only [List.length_cons]
          omega
      · have hdx : d < x := lt_of_le_of_ne (le_of_not_lt hlt) he
        rw [if_neg hlt]
        have hm : d ∉ x :: xs := by
          intro hc
          rcases List.mem_cons.mp hc with hc | hc
          · exact he hc
          · exact absurd (hdx.trans (hs.1 d hc)) (lt_irrefl d)
        simp [hm]

theorem funErase_plug {d : α} : ∀ (p : Path α) (t : ATree α),
    (∀ x ∈ ctxPre p, x < d) → (∀ x ∈ ctxSuf p, d < x) →
    funErase d (plug p t) = ((funErase d t).1, plug p (funErase d t).2) := by
  intro p
  induction p with
  | nil => intro t _ _; rfl
  | cons c p ih =>
    intro t hpre hsuf
    cases c with
    | lt a v r =>
      have hdv : d < v := hsuf v (by simp [ctxSuf])
      show funErase d (plug p (.node t a v r)) = _
      rw [ih (.node t a v r) (fun x hx => hpre x hx)
        (fun x hx => hsuf x (by simp [ctxSuf, hx]))]
      rw [funErase, if_neg (ne_of_lt hdv), if_neg (not_lt_of_gt hdv)]
      rfl
    | rt a v l =>
      have hvd : v < d := hpre v (by simp [ctxPre])
      show funErase d (plug p (.node l a v t)) = _
      rw [ih (.node l a v t) (fun x hx => hpre x (by simp [ctxPre, hx]))
        (fun x hx => hsuf x hx)]
      rw [funErase, if_neg (Ne.symm (ne_of_lt hvd)), if_pos hvd]
      rfl

theorem findMaxGo_step_n {α : Type} {h : SHeap α} {r : Nat} {v : α}
    {lo : Option Nat} (hn : h r = some ⟨v, lo, none⟩) (rp fuel : Nat) :
    findMaxGo h rp r (fuel + 1) = some (rp, r) := by
  rw [findMaxGo, hn]
  simp only [Option.bind_eq_bind, Option.some_bind]

theorem findMaxGo_step_s {α : Type} {h : SHeap α} {r r2 : Nat} {v : α}
    {lo : Option Nat} (hn : h r = some ⟨v, lo, some r2⟩) (rp fuel : Nat) :
    findMaxGo h rp r (fuel + 1) = findMaxGo h r r2 fuel := by
  rw [findMaxGo, hn]
  simp only [Option.bind_eq_bind, Option.some_bind]

/-- The predecessor scan on the left subtree `node ll la lv lr` of the
erased node (with `lr` non-empty, so the parent result lies inside the
subtree): it finds the maximum node, and updating the parent's right
pointer to the maximum's left child lays out the `funSMax` remainder. -/
theorem findMax_spec {α : Type} :
    ∀ (lr ll : ATree α) (la : Nat) (lv : α) (h : SHeap α) (rp0 fuel : Nat),
      lr ≠ .leaf →
      IsTree h (some la) (.node ll la lv lr) →
      (ATree.node ll la lv lr).addrs.Nodup →
      (ATree.node ll la lv lr).size < fuel →
      ∃ rp2 rnl,
        findMaxGo h rp0 la fuel = some (rp2, (funSMax ll la lv lr).1.1) ∧
        rp2 ∈ (ATree.node ll la lv lr).addrs ∧
        (funSMax ll la lv lr).1.1 ∈ (ATree.node ll la lv lr).addrs ∧
        (funSMax ll la lv lr).1.1 ≠ rp2 ∧
        (∃ pn : SNode α, h rp2 = some pn ∧
          pn.right = some (funSMax ll la lv lr).1.1 ∧
          IsTree (hupd h rp2 (some { pn with right := rnl })) (some la)
            (funSMax ll la lv lr).2) ∧
        h (funSMax ll la lv lr).1.1 =
          some ⟨(funSMax ll la lv lr).1.2, rnl, none⟩ ∧
        (funSMax ll la lv lr).2.rootAddr = some la ∧
        (∀ b ∈ (funSMax ll la lv lr).2.addrs,
          b ∈ (ATree.node ll la lv lr).addrs) ∧
        (funSMax ll la lv lr).1.1 ∉ (funSMax ll la lv lr).2.addrs := by
  intro lr
  induction lr with
  | leaf => intro ll la lv h rp0 fuel hne _ _ _; exact absurd rfl hne
  | node rl ra rv rr ihl ihr =>
    intro ll la lv h rp0 fuel _ htree hnd hfuel
    have hT : IsTree h (some la) (.node ll la lv (.node rl ra rv rr)) := htree
    cases hT with
    | node hla htll htlr =>
      obtain ⟨hlal, hlar, hndll, hndlr, hdisj⟩ := nodup_node_facts hnd
      have hla2 : h la = some ⟨lv, ll.rootAddr, some ra⟩ := hla
      cases fuel with
      | zero => exact absurd hfuel (Nat.not_lt_zero _)
      | succ fuel =>
        have hstep := findMaxGo_step_s hla2 rp0 fuel
        cases hrr : rr with
        | leaf =>
          -- `ra` is the maximum: one more read, right child NULL
          subst hrr
          cases htlr with
          | node hra htrl htrr =>
            have hra2 : h ra = some ⟨rv, rl.rootAddr, none⟩ := hra
            cases fuel with
            | zero =>
              exfalso
              have h1 := size_node ll la lv (ATree.node rl ra rv .leaf)
              have h2 := size_node rl ra rv (.leaf : ATree α)
              omega
            | succ fuel =>
              have hstep2 := findMaxGo_step_n hra2 la fuel
              refine ⟨la, rl.rootAddr, hstep.trans hstep2, ?_, ?_, ?_, ?_,
                ?_, ?_, ?_, ?_⟩
              · show la ∈ ll.addrs ++ la :: _
                simp
              · show ra ∈ ll.addrs ++ la :: (rl.addrs ++ ra :: [])
                simp
              · show ra ≠ la
                intro hc
                exact hlar (hc ▸ (by simp [ATree.addrs] : ra ∈
                  (ATree.node rl ra rv .leaf).addrs))
              · refine ⟨⟨lv, ll.rootAddr, some ra⟩, hla2, rfl, ?_⟩
                show IsTree (hupd h la (some ⟨lv, ll.rootAddr, rl.rootAddr⟩))
                  (some la) (ATree.node ll la lv rl)
                refine IsTree.node (hupd_eq _ _ _) ?_ ?_
                · refine htll.congr fun b hb => ?_
                  exact hupd_ne _ _ _ fun hc => hlal (hc ▸ hb)
                · refine htrl.congr fun b hb => ?_
                  refine hupd_ne _ _ _ fun hc => hlar ?_
                  rw [← hc]
                  show b ∈ rl.addrs ++ ra :: []
                  simp [hb]
              · exact hra2
              · rfl
              · intro b hb
                show b ∈ ll.addrs ++ la :: (rl.addrs ++ ra :: [])
                have hb2 : b ∈ ll.addrs ++ la :: rl.addrs := hb
                simp only [List.mem_append, List.mem_cons] at hb2 ⊢
                tauto
              · show ra ∉ (ATree.node ll la lv rl).addrs
                intro hc
                have hc2 : ra ∈ ll.addrs ++ la :: rl.addrs := hc
                simp only [List.mem_append, List.mem_cons] at hc2
                rcases hc2 with hc2 | hc2 | hc2
                · exact hdisj ra hc2 (by simp [ATree.addrs])
                · exact hlar (hc2 ▸ (by simp [ATree.addrs] : ra ∈
                    (ATree.node rl ra rv .leaf).addrs))
                · have hndlr2 : (ATree.node rl ra rv (.leaf : ATree α)).addrs.Nodup :=
                    hndlr
                  obtain ⟨hx, _, _, _, _⟩ := nodup_node_facts hndlr2
                  exact hx hc2
        | node rrl rra rrv rrr =>
          -- recurse down the right spine
          subst hrr
          have hlr_ne : (ATree.node rl ra rv (.node rrl rra rrv rrr)) ≠ .leaf :=
            fun hc => ATree.noConfusion hc
          have htlr2 : IsTree h (some ra)
              (.node rl ra rv (.node rrl rra rrv rrr)) := htlr
          have hsz : (ATree.node rl ra rv (.node rrl rra rrv rrr)).size < fuel := by
            have h1 := size_node ll la lv
              (ATree.node rl ra rv (.node rrl rra rrv rrr))
            omega
          obtain ⟨rp2, rnl, heq, hrp2mem, hmamem, hmane, ⟨pn, hpn, hpnr, hist⟩,
            hma, hroot2, hsubaddr, hmanotin⟩ :=
            ihr rl ra rv h la fuel (fun hc => ATree.noConfusion hc) htlr2
              hndlr hsz
          have hlanotlr : la ∉ (ATree.node rl ra rv
              (.node rrl rra rrv rrr)).addrs := hlar
          refine ⟨rp2, rnl, hstep.trans heq, ?_, ?_, hmane, ?_, hma, rfl, ?_, ?_⟩
          · show rp2 ∈ ll.addrs ++ la :: _
            simp only [List.mem_append, List.mem_cons]
            exact Or.inr (Or.inr hrp2mem)
          · show (funSMax rl ra rv (.node rrl rra rrv rrr)).1.1 ∈
              ll.addrs ++ la :: _
            simp only [List.mem_append, List.mem_cons]
            exact Or.inr (Or.inr hmamem)
          · refine ⟨pn, hpn, hpnr, ?_⟩
            show IsTree _ (some la) (ATree.node ll la lv
              (funSMax rl ra rv (.node rrl rra rrv rrr)).2)
            have hrpla : rp2 ≠ la := fun hc => hlanotlr (hc ▸ hrp2mem)
            refine IsTree.node ?_ ?_ hist
            · rw [hupd_ne _ _ _ fun hc => hrpla hc.symm, hla2, hroot2]
            · refine htll.congr fun b hb => ?_
              refine hupd_ne _ _ _ fun hc => ?_
              subst hc
              exact hdisj b hb hrp2mem
          · intro b hb
            have hb2 : b ∈ ll.addrs ++ la ::
                (funSMax rl ra rv (.node rrl rra rrv rrr)).2.addrs := hb
            show b ∈ ll.addrs ++ la :: _
            simp only [List.mem_append, List.mem_cons] at hb2 ⊢
            rcases hb2 with hb2 | hb2 | hb2
            · exact Or.inl hb2
            · exact Or.inr (Or.inl hb2)
            · exact Or.inr (Or.inr (hsubaddr b hb2))
          · show (funSMax rl ra rv (.node rrl rra rrv rrr)).1.1 ∉
              (ATree.node ll la lv
                (funSMax rl ra rv (.node rrl rra rrv rrr)).2).addrs
            intro hc
            have hc2 : (funSMax rl ra rv (.node rrl rra rrv rrr)).1.1 ∈
                ll.addrs ++ la ::
                  (funSMax rl ra rv (.node rrl rra rrv rrr)).2.addrs := hc
            simp only [List.mem_append, List.mem_cons] at hc2
            rcases hc2 with hc2 | hc2 | hc2
            · exact hdisj _ hc2 hmamem
            · exact hlanotlr (hc2 ▸ hmamem)
            · exact hmanotin hc2

theorem eraseFinish_step_none {s : SetS α} {cur : Nat} {h : SHeap α}
    {rep : Option Nat} :
    eraseFinish s none cur h rep =
      some ⟨s.count - 1, rep, hupd h cur none, s.next⟩ := rfl

theorem eraseFinish_step_left {s : SetS α} {p cur : Nat} {h : SHeap α}
    {rep ro : Option Nat} {pv : α} (hp : h p = some ⟨pv, some cur, ro⟩) :
    eraseFinish s (some p) cur h rep =
      some ⟨s.count - 1, s.root,
        hupd (hupd h p (some ⟨pv, rep, ro⟩)) cur none, s.next⟩ := by
  rw [eraseFinish, hp]
  simp only [Option.bind_eq_bind, Option.some_bind]
  simp

theorem eraseFinish_step_right {s : SetS α} {p cur : Nat} {h : SHeap α}
    {rep lo ro : Option Nat} {pv : α} (hp : h p = some ⟨pv, lo, ro⟩)
    (hne : lo ≠ some cur) :
    eraseFinish s (some p) cur h rep =
      some ⟨s.count - 1, s.root,
        hupd (hupd h p (some ⟨pv, lo, rep⟩)) cur none, s.next⟩ := by
  rw [eraseFinish, hp]
  simp only [Option.bind_eq_bind, Option.some_bind]
  rw [if_neg hne]

/-- The relink-and-free tail of erase: given any heap `h3` that lays out
a replacement tree `tnew` for the spliced-out node `a` (with the node's
value gone from the in-order list and its address gone from the address
list), relinking the parent and freeing `a` yields a well-formed state
with `tnew` in the hole. -/
theorem eraseFinish_spec {s : SetS α} {path : Path α} {l r : ATree α}
    {a : Nat} {v : α} {h3 : SHeap α} (u : ATree α)
    (hwf : SetWf s (plug path (.node l a v r)))
    (hu : IsTree h3 u.rootAddr u)
    (hvals : u.vals = l.vals ++ r.vals)
    (hperm : (ATree.node l a v r).addrs.Perm (a :: u.addrs))
    (hagree : ∀ b ∈ pathAddrs path, h3 b = s.heap b)
    (hout : ∀ b, b ∉ (plug path (.node l a v r)).addrs → h3 b = s.heap b) :
    ∃ s2, eraseFinish s (pParent path) a h3 u.rootAddr = some s2 ∧
      SetWf s2 (plug path u) ∧ s2.next = s.next ∧
      s2.count = s.count - 1 := by
  have hpfacts := nodup_plug_facts hwf.nodup
  have hanew : a ∉ u.addrs := by
    have h1 := hperm.nodup_iff.mp hpfacts.1
    exact (List.nodup_cons.mp h1).1
  have hsubt : ∀ b ∈ u.addrs, b ∈ (ATree.node l a v r).addrs :=
    fun b hb => hperm.mem_iff.mpr (by simp [hb])
  have hamem : a ∈ (ATree.node l a v r).addrs := by simp [ATree.addrs]
  have hanp : a ∉ pathAddrs path := hpfacts.2.2 a hamem
  have hpermplug : (plug path (ATree.node l a v r)).addrs.Perm
      (a :: (plug path u).addrs) := by
    refine (addrs_plug_perm path _).trans ?_
    refine (hperm.append_right (pathAddrs path)).trans ?_
    show (a :: (u.addrs ++ pathAddrs path)).Perm _
    exact ((addrs_plug_perm path u).symm.cons a)
  have hnd2 : (plug path u).addrs.Nodup :=
    (List.nodup_cons.mp (hpermplug.nodup_iff.mp hwf.nodup)).2
  have hsorted2 : List.Pairwise (· < ·) (plug path u).vals := by
    refine List.Pairwise.sublist ?_ hwf.sorted
    rw [vals_plug, vals_plug, hvals,
      show (ATree.node l a v r).vals = l.vals ++ v :: r.vals from rfl]
    refine List.Sublist.append ?_ (List.Sublist.refl _)
    refine List.Sublist.append (List.Sublist.refl _) ?_
    refine List.Sublist.append (List.Sublist.refl _) ?_
    exact List.sublist_cons_self v r.vals
  have hsize : (plug path (ATree.node l a v r)).size =
      (plug path u).size + 1 := by
    show (plug path _).vals.length = (plug path u).vals.length + 1
    rw [vals_plug, vals_plug, hvals,
      show (ATree.node l a v r).vals = l.vals ++ v :: r.vals from rfl]
    simp only [List.length_append, List.length_cons]
    omega
  have hcnt2 : s.count - 1 = (plug path u).size := by
    have h1 := hwf.hcount
    omega
  have hbound2 : ∀ b ∈ (plug path u).addrs, b < s.next :=
    fun b hb => hwf.bound b (hpermplug.mem_iff.mpr (by simp [hb]))
  have hnotold : ∀ b, b ∉ (plug path u).addrs → b ≠ a →
      b ∉ (plug path (ATree.node l a v r)).addrs := by
    intro b hb hba hc
    rcases List.mem_cons.mp (hpermplug.mem_iff.mp hc) with h1 | h1
    · exact hba h1
    · exact hb h1
  cases path with
  | nil =>
    refine ⟨⟨s.count - 1, u.rootAddr, hupd h3 a none, s.next⟩,
      eraseFinish_step_none, ?_, rfl, rfl⟩
    refine ⟨?_, hnd2, hsorted2, hcnt2, hbound2, ?_⟩
    · show IsTree (hupd h3 a none) u.rootAddr (plug [] u)
      exact hu.congr fun b hb => hupd_ne _ _ _ fun hc => hanew (hc ▸ hb)
    · intro b hb
      show hupd h3 a none b = none
      by_cases hba : b = a
      · subst hba
        exact hupd_eq _ _ _
      · rw [hupd_ne _ _ _ hba, hout b (hnotold b hb hba)]
        exact hwf.dom b (hnotold b hb hba)
  | cons c p2 =>
    cases c with
    | lt p0 pv pr =>
      have hp0path : p0 ∈ pathAddrs (PStep.lt p0 pv pr :: p2) := by
        simp [pathAddrs]
      have hpnd : (p0 :: (pr.addrs ++ pathAddrs p2)).Nodup := hpfacts.2.1
      have hp0pr : p0 ∉ pr.addrs := fun hc =>
        (List.nodup_cons.mp hpnd).1 (by simp [hc])
      have hp0p2 : p0 ∉ pathAddrs p2 := fun hc =>
        (List.nodup_cons.mp hpnd).1 (by simp [hc])
      have hap0 : a ≠ p0 := fun hc => hanp (hc ▸ hp0path)
      have hsubp := IsTree_plug_sub p2
        (.node (.node l a v r) p0 pv pr) hwf.tree
      cases hsubp with
      | node hp0 htold htpr =>
        have hp0heap : s.heap p0 = some ⟨pv, some a, pr.rootAddr⟩ := hp0
        have hp0h3 : h3 p0 = some ⟨pv, some a, pr.rootAddr⟩ := by
          rw [hagree p0 hp0path, hp0heap]
        refine ⟨⟨s.count - 1, s.root,
          hupd (hupd h3 p0 (some ⟨pv, u.rootAddr, pr.rootAddr⟩)) a none,
          s.next⟩, eraseFinish_step_left hp0h3, ?_, rfl, rfl⟩
        refine ⟨?_, hnd2, hsorted2, hcnt2, hbound2, ?_⟩
        · show IsTree _ s.root (plug (PStep.lt p0 pv pr :: p2) u)
          show IsTree _ s.root (plug p2 (.node u p0 pv pr))
          refine isTree_plug_update p2 (.node (.node l a v r) p0 pv pr)
            (.node u p0 pv pr) s.heap _ s.root hwf.tree rfl ?_ ?_
          · refine IsTree.node ?_ ?_ ?_
            · show hupd (hupd h3 p0 _) a none p0 = _
              rw [hupd_ne _ _ _ (Ne.symm hap0), hupd_eq]
            · refine hu.congr fun b hb => ?_
              have hba : b ≠ a := fun hc => hanew (hc ▸ hb)
              have hbp0 : b ≠ p0 := fun hc =>
                hpfacts.2.2 b (hsubt b hb) (hc ▸ hp0path)
              show hupd (hupd h3 p0 _) a none b = h3 b
              rw [hupd_ne _ _ _ hba, hupd_ne _ _ _ hbp0]
            · refine htpr.congr fun b hb => ?_
              have hbpath : b ∈ pathAddrs (PStep.lt p0 pv pr :: p2) := by
                simp [pathAddrs, hb]
              have hba : b ≠ a := fun hc => hanp (hc ▸ hbpath)
              have hbp0 : b ≠ p0 := fun hc => hp0pr (hc ▸ hb)
              show hupd (hupd h3 p0 _) a none b = s.heap b
              rw [hupd_ne _ _ _ hba, hupd_ne _ _ _ hbp0]
              exact hagree b hbpath
          · intro b hb
            have hbpath : b ∈ pathAddrs (PStep.lt p0 pv pr :: p2) := by
              simp [pathAddrs, hb]
            have hba : b ≠ a := fun hc => hanp (hc ▸ hbpath)
            have hbp0 : b ≠ p0 := fun hc => hp0p2 (hc ▸ hb)
            show hupd (hupd h3 p0 _) a none b = s.heap b
            rw [hupd_ne _ _ _ hba, hupd_ne _ _ _ hbp0]
            exact hagree b hbpath
        · intro b hb
          show hupd (hupd h3 p0 _) a none b = none
          by_cases hba : b = a
          · subst hba
            exact hupd_eq _ _ _
          · have hbp0 : b ≠ p0 := fun hc =>
              hb (by rw [hc]; exact mem_plug_addrs.mpr (Or.inr hp0path))
            rw [hupd_ne _ _ _ hba, hupd_ne _ _ _ hbp0,
              hout b (hnotold b hb hba)]
            exact hwf.dom b (hnotold b hb hba)
    | rt p0 pv pl =>
      have hp0path : p0 ∈ pathAddrs (PStep.rt p0 pv pl :: p2) := by
        simp [pathAddrs]
      have hpnd : (p0 :: (pl.addrs ++ pathAddrs p2)).Nodup := hpfacts.2.1
      have hp0pl : p0 ∉ pl.addrs := fun hc =>
        (List.nodup_cons.mp hpnd).1 (by simp [hc])
      have hp0p2 : p0 ∉ pathAddrs p2 := fun hc =>
        (List.nodup_cons.mp hpnd).1 (by simp [hc])
      have hap0 : a ≠ p0 := fun hc => hanp (hc ▸ hp0path)
      have hsubp := IsTree_plug_sub p2
        (.node pl p0 pv (.node l a v r)) hwf.tree
      cases hsubp with
      | node hp0 htpl htold =>
        have hp0heap : s.heap p0 = some ⟨pv, pl.rootAddr, some a⟩ := hp0
        have hp0h3 : h3 p0 = some ⟨pv, pl.rootAddr, some a⟩ := by
          rw [hagree p0 hp0path, hp0heap]
        have hplne : pl.rootAddr ≠ some a := by
          cases hpl : pl.rootAddr with
          | none => simp
          | some x =>
            intro hc
            injection hc with hc
            subst hc
            have hx := rootAddr_mem_addrs hpl
            exact hanp (by simp [pathAddrs, hx])
        refine ⟨⟨s.count - 1, s.root,
          hupd (hupd h3 p0 (some ⟨pv, pl.rootAddr, u.rootAddr⟩)) a none,
          s.next⟩, eraseFinish_step_right hp0h3 hplne, ?_, rfl, rfl⟩
        refine ⟨?_, hnd2, hsorted2, hcnt2, hbound2, ?_⟩
        · show IsTree _ s.root (plug (PStep.rt p0 pv pl :: p2) u)
          show IsTree _ s.root (plug p2 (.node pl p0 pv u))
          refine isTree_plug_update p2 (.node pl p0 pv (.node l a v r))
            (.node pl p0 pv u) s.heap _ s.root hwf.tree rfl ?_ ?_
          · refine IsTree.node ?_ ?_ ?_
            · show hupd (hupd h3 p0 _) a none p0 = _
              rw [hupd_ne _ _ _ (Ne.symm hap0), hupd_eq]
            · refine htpl.congr fun b hb => ?_
              have hbpath : b ∈ pathAddrs (PStep.rt p0 pv pl :: p2) := by
                simp [pathAddrs, hb]
              have hba : b ≠ a := fun hc => hanp (hc ▸ hbpath)
              have hbp0 : b ≠ p0 := fun hc => hp0pl (hc ▸ hb)
              show hupd (hupd h3 p0 _) a none b = s.heap b
              rw [hupd_ne _ _ _ hba, hupd_ne _ _ _ hbp0]
              exact hagree b hbpath
            · refine hu.congr fun b hb => ?_
              have hba : b ≠ a := fun hc => hanew (hc ▸ hb)
              have hbp0 : b ≠ p0 := fun hc =>
                hpfacts.2.2 b (hsubt b hb) (hc ▸ hp0path)
              show hupd (hupd h3 p0 _) a none b = h3 b
              rw [hupd_ne _ _ _ hba, hupd_ne _ _ _ hbp0]
          · intro b hb
            have hbpath : b ∈ pathAddrs (PStep.rt p0 pv pl :: p2) := by
              simp [pathAddrs, hb]
            have hba : b ≠ a := fun hc => hanp (hc ▸ hbpath)
            have hbp0 : b ≠ p0 := fun hc => hp0p2 (hc ▸ hb)
            show hupd (hupd h3 p0 _) a none b = s.heap b
            rw [hupd_ne _ _ _ hba, hupd_ne _ _ _ hbp0]
            exact hagree b hbpath
        · intro b hb
          show hupd (hupd h3 p0 _) a none b = none
          by_cases hba : b = a
          · subst hba
            exact hupd_eq _ _ _
          · have hbp0 : b ≠ p0 := fun hc =>
              hb (by rw [hc]; exact mem_plug_addrs.mpr (Or.inr hp0path))
            rw [hupd_ne _ _ _ hba, hupd_ne _ _ _ hbp0,
              hout b (hnotold b hb hba)]
            exact hwf.dom b (hnotold b hb hba)

theorem eraseFound_step_noleft {s : SetS α} {parent : Option Nat} {cur : Nat}
    {v : α} {ro : Option Nat} (fuel : Nat) :
    eraseFound s parent cur ⟨v, none, ro⟩ fuel =
      eraseFinish s parent cur s.heap ro := rfl

/-- `eraseFound` when the predecessor scan stops immediately (the left
child has no right child): the scan returns `(cur, la)` and the code
takes the `replace_parent == current` branch. -/
theorem eraseFound_step_self {s : SetS α} {q : Option Nat}
    {cur la : Nat} {v lv : α} {ro rnl : Option Nat} {fuel : Nat}
    (hfm : findMaxGo s.heap cur la fuel = some (cur, la))
    (hla : s.heap la = some ⟨lv, rnl, none⟩)
    (hcur : s.heap cur = some ⟨v, some la, ro⟩)
    (hne : rnl ≠ some la) (hcl : cur ≠ la) :
    eraseFound s q cur ⟨v, some la, ro⟩ fuel =
      eraseFinish s q cur
        (hupd (hupd (hupd s.heap cur (some ⟨v, rnl, ro⟩)) la
          (some ⟨lv, rnl, none⟩)) la (some ⟨lv, rnl, ro⟩)) (some la) := by
  rw [eraseFound]
  simp only [Option.bind_eq_bind, Option.some_bind, hfm]
  rw [hla]
  simp only [Option.some_bind, if_true]
  rw [hcur]
  simp only [Option.some_bind, Option.pure_def]
  rw [hupd_eq]
  simp only [Option.some_bind]
  rw [if_pos hne, hupd_ne _ _ _ (Ne.symm hcl), hla]
  simp only [Option.some_bind]
  rw [hupd_ne _ _ _ hcl, hupd_eq, hupd_eq]
  simp only [Option.some_bind]

/-- `eraseFound` when the predecessor scan descends (parent inside the
left subtree, distinct from `cur`). -/
theorem eraseFound_step_other {s : SetS α} {q : Option Nat}
    {cur la ma rp : Nat} {v mv pnv : α} {ro rnl plo pro : Option Nat}
    {fuel : Nat}
    (hfm : findMaxGo s.heap cur la fuel = some (rp, ma))
    (hrp : ¬(rp = cur))
    (hma : s.heap ma = some ⟨mv, rnl, none⟩)
    (hpn : s.heap rp = some ⟨pnv, plo, pro⟩)
    (hcur : s.heap cur = some ⟨v, some la, ro⟩)
    (hcurrp : cur ≠ rp) (hlama : ¬(some la = some ma))
    (hmarp : ma ≠ rp) (hcurma : cur ≠ ma) :
    eraseFound s q cur ⟨v, some la, ro⟩ fuel =
      eraseFinish s q cur
        (hupd (hupd (hupd s.heap rp (some ⟨pnv, plo, rnl⟩)) ma
          (some ⟨mv, some la, none⟩)) ma (some ⟨mv, some la, ro⟩))
        (some ma) := by
  rw [eraseFound]
  simp only [Option.bind_eq_bind, Option.some_bind, hfm]
  rw [hma]
  simp only [Option.some_bind]
  rw [if_neg hrp, hpn]
  simp only [Option.some_bind, Option.pure_def]
  rw [hupd_ne _ _ _ hcurrp, hcur]
  simp only [Option.some_bind]
  rw [if_pos hlama, hupd_ne _ _ _ hmarp, hma]
  simp only [Option.some_bind]
  rw [hupd_ne _ _ _ hcurma, hupd_ne _ _ _ hcurrp, hcur, hupd_eq]
  simp only [Option.some_bind]

/-- The matched branch of erase refines `funDelRoot`: it succeeds and
leaves a well-formed state with the spliced tree in the hole, one node
fewer, same allocator frontier. -/
theorem eraseFound_spec {s : SetS α} {path : Path α} {l r : ATree α}
    {a : Nat} {v : α} {fuel : Nat}
    (hwf : SetWf s (plug path (.node l a v r)))
    (hfuel : l.size < fuel) :
    ∃ s2, eraseFound s (pParent path) a ⟨v, l.rootAddr, r.rootAddr⟩ fuel
        = some s2 ∧
      SetWf s2 (plug path (funDelRoot l a v r)) ∧ s2.next = s.next ∧
      s2.count = s.count - 1 := by
  have hsub := IsTree_plug_sub path (.node l a v r) hwf.tree
  cases hsub with
  | node ha htl htr =>
    obtain ⟨hal, har, hndl, hndr, hdisjlr⟩ :=
      nodup_node_facts (nodup_plug_facts hwf.nodup).1
    have hpdisj := (nodup_plug_facts hwf.nodup).2.2
    cases l with
    | leaf =>
      obtain ⟨s2, heq, hwf2, hnext, hcnt⟩ := eraseFinish_spec r hwf htr rfl
        (List.Perm.refl _) (fun b _ => rfl) (fun b _ => rfl)
      exact ⟨s2, heq, hwf2, hnext, hcnt⟩
    | node ll la lv lr =>
      have htl2 : IsTree s.heap (some la) (.node ll la lv lr) := htl
      have hndl2 : (ATree.node ll la lv lr).addrs.Nodup := hndl
      obtain ⟨hlal, hlalr, hndll, hndlr, hdisjl⟩ := nodup_node_facts hndl2
      have hlmem : la ∈ (ATree.node ll la lv lr).addrs := by
        simp [ATree.addrs]
      have hane : a ≠ la := fun hc => hal (hc ▸ hlmem)
      have hamem : a ∈ (plug path
          (ATree.node (.node ll la lv lr) a v r)).addrs :=
        mem_plug_addrs.mpr (Or.inl (by simp [ATree.addrs]))
      have hlamem2 : la ∈ (plug path
          (ATree.node (.node ll la lv lr) a v r)).addrs :=
        mem_plug_addrs.mpr (Or.inl (by simp [ATree.addrs]))
      cases htl2 with
      | node hla htll htlr =>
        cases lr with
        | leaf =>
          -- predecessor is the left child itself
          have hla2 : s.heap la = some ⟨lv, ll.rootAddr, none⟩ := hla
          have hfm : findMaxGo s.heap a la fuel = some (a, la) := by
            cases fuel with
            | zero => exact absurd hfuel (Nat.not_lt_zero _)
            | succ fuel => exact findMaxGo_step_n hla2 a fuel
          have hnell : ll.rootAddr ≠ some la := by
            cases hll : ll.rootAddr with
            | none => simp
            | some x =>
              intro hc
              injection hc with hc
              subst hc
              exact hlal (rootAddr_mem_addrs hll)
          have hcur2 : s.heap a = some ⟨v, some la, r.rootAddr⟩ := ha
          have hstep := eraseFound_step_self (q := pParent path)
            hfm hla2 hcur2 hnell hane
          have hlanr : la ∉ r.addrs := hdisjlr la hlmem
          have htnew : IsTree
              (hupd (hupd (hupd s.heap a
                  (some ⟨v, ll.rootAddr, r.rootAddr⟩)) la
                (some ⟨lv, ll.rootAddr, none⟩)) la
                (some ⟨lv, ll.rootAddr, r.rootAddr⟩))
              (ATree.node ll la lv r).rootAddr (ATree.node ll la lv r) := by
            refine IsTree.node (hupd_eq _ _ _) ?_ ?_
            · refine htll.congr fun b hb => ?_
              have hbla : b ≠ la := fun hc => hlal (hc ▸ hb)
              have hba : b ≠ a := fun hc => hal (hc ▸ (by
                simp [ATree.addrs, hb] : b ∈
                  (ATree.node ll la lv .leaf).addrs))
              rw [hupd_ne _ _ _ hbla, hupd_ne _ _ _ hbla, hupd_ne _ _ _ hba]
            · refine htr.congr fun b hb => ?_
              have hbla : b ≠ la := fun hc => hlanr (hc ▸ hb)
              have hba : b ≠ a := fun hc => har (hc ▸ hb)
              rw [hupd_ne _ _ _ hbla, hupd_ne _ _ _ hbla, hupd_ne _ _ _ hba]
          obtain ⟨s2, heqf, hwf2, hnext, hcnt⟩ := eraseFinish_spec
            (ATree.node ll la lv r) hwf htnew
            (by simp [ATree.vals])
            (by
              refine List.perm_middle.trans ?_
              show (a :: ((ll.addrs ++ la :: []) ++ r.addrs)).Perm
                (a :: (ll.addrs ++ la :: r.addrs))
              simp [List.append_assoc])
            (fun b hb => by
              have hba : b ≠ a := fun hc =>
                hpdisj a (by simp [ATree.addrs]) (hc ▸ hb)
              have hbla : b ≠ la := fun hc =>
                hpdisj la (by simp [ATree.addrs]) (hc ▸ hb)
              rw [hupd_ne _ _ _ hbla, hupd_ne _ _ _ hbla, hupd_ne _ _ _ hba])
            (fun b hb => by
              have hba : b ≠ a := fun hc => hb (hc ▸ hamem)
              have hbla : b ≠ la := fun hc => hb (hc ▸ hlamem2)
              rw [hupd_ne _ _ _ hbla, hupd_ne _ _ _ hbla, hupd_ne _ _ _ hba])
          exact ⟨s2, hstep.trans heqf, hwf2, hnext, hcnt⟩
        | node rl2 ra2 rv2 rr2 =>
          -- predecessor found deeper in the left subtree
          obtain ⟨rp2, rnl, hfm, hrpmem, hmamem, hmane,
            ⟨pn, hpn, hpnr, hist⟩, hma, hroot2, hsubF, hmanotin⟩ :=
            findMax_spec (.node rl2 ra2 rv2 rr2) ll la lv s.heap a fuel
              (fun hc => ATree.noConfusion hc) htl
              hndl hfuel
          obtain ⟨pnv, plo, pro⟩ := pn
          have hrp : ¬(rp2 = a) := fun hc => hal (hc ▸ hrpmem)
          have hcurrp : a ≠ rp2 := fun hc => hrp hc.symm
          have hlama : ¬(some la =
              some (funSMax ll la lv (.node rl2 ra2 rv2 rr2)).1.1) := by
            intro hc
            injection hc with hc
            exact hmanotin (hc ▸ rootAddr_mem_addrs hroot2)
          have hcurma : a ≠ (funSMax ll la lv (.node rl2 ra2 rv2 rr2)).1.1 :=
            fun hc => hal (hc ▸ hmamem)
          have hcur2 : s.heap a = some ⟨v, some la, r.rootAddr⟩ := ha
          have hstep := eraseFound_step_other (q := pParent path)
            hfm hrp hma hpn hcur2 hcurrp hlama hmane hcurma
          have hmanr :
              (funSMax ll la lv (.node rl2 ra2 rv2 rr2)).1.1 ∉ r.addrs :=
            hdisjlr _ hmamem
          have hrpnr : rp2 ∉ r.addrs := hdisjlr _ hrpmem
          have htnew : IsTree
              (hupd (hupd (hupd s.heap rp2 (some ⟨pnv, plo, rnl⟩))
                  (funSMax ll la lv (.node rl2 ra2 rv2 rr2)).1.1
                  (some ⟨(funSMax ll la lv (.node rl2 ra2 rv2 rr2)).1.2,
                    some la, none⟩))
                (funSMax ll la lv (.node rl2 ra2 rv2 rr2)).1.1
                (some ⟨(funSMax ll la lv (.node rl2 ra2 rv2 rr2)).1.2,
                  some la, r.rootAddr⟩))
              (some (funSMax ll la lv (.node rl2 ra2 rv2 rr2)).1.1)
              (ATree.node (funSMax ll la lv (.node rl2 ra2 rv2 rr2)).2
                (funSMax ll la lv (.node rl2 ra2 rv2 rr2)).1.1
                (funSMax ll la lv (.node rl2 ra2 rv2 rr2)).1.2 r) := by
            refine IsTree.node ?_ ?_ ?_
            · rw [hupd_eq, hroot2]
            · rw [hroot2]
              refine hist.congr fun b hb => ?_
              have hbma : b ≠
                  (funSMax ll la lv (.node rl2 ra2 rv2 rr2)).1.1 :=
                fun hc => hmanotin (hc ▸ hb)
              rw [hupd_ne _ _ _ hbma, hupd_ne _ _ _ hbma]
            · refine htr.congr fun b hb => ?_
              have hbma : b ≠
                  (funSMax ll la lv (.node rl2 ra2 rv2 rr2)).1.1 :=
                fun hc => hmanr (hc ▸ hb)
              have hbrp : b ≠ rp2 := fun hc => hrpnr (hc ▸ hb)
              rw [hupd_ne _ _ _ hbma, hupd_ne _ _ _ hbma, hupd_ne _ _ _ hbrp]
          obtain ⟨s2, heqf, hwf2, hnext, hcnt⟩ := eraseFinish_spec
            (ATree.node (funSMax ll la lv (.node rl2 ra2 rv2 rr2)).2
              (funSMax ll la lv (.node rl2 ra2 rv2 rr2)).1.1
              (funSMax ll la lv (.node rl2 ra2 rv2 rr2)).1.2 r) hwf htnew
            (by
              show (funSMax ll la lv (.node rl2 ra2 rv2 rr2)).2.vals ++
                (funSMax ll la lv (.node rl2 ra2 rv2 rr2)).1.2 :: r.vals =
                (ATree.node ll la lv (.node rl2 ra2 rv2 rr2)).vals ++ r.vals
              rw [funSMax_vals (.node rl2 ra2 rv2 rr2) ll la lv]
              simp)
            (by
              refine List.perm_middle.trans ?_
              refine List.Perm.cons a ?_
              show ((ATree.node ll la lv (.node rl2 ra2 rv2 rr2)).addrs ++
                r.addrs).Perm _
              refine ((funSMax_addrs (.node rl2 ra2 rv2 rr2) ll la
                lv).append_right r.addrs).trans ?_
              show (((funSMax ll la lv (.node rl2 ra2 rv2 rr2)).2.addrs ++
                [(funSMax ll la lv (.node rl2 ra2 rv2 rr2)).1.1]) ++
                  r.addrs).Perm
                ((funSMax ll la lv (.node rl2 ra2 rv2 rr2)).2.addrs ++
                  (funSMax ll la lv (.node rl2 ra2 rv2 rr2)).1.1 :: r.addrs)
              simp [List.append_assoc])
            (fun b hb => by
              have hbrp : b ≠ rp2 := fun hc =>
                hpdisj rp2 (List.mem_append.mpr (Or.inl hrpmem)) (hc ▸ hb)
              have hbma : b ≠
                  (funSMax ll la lv (.node rl2 ra2 rv2 rr2)).1.1 :=
                fun hc => hpdisj _
                  (List.mem_append.mpr (Or.inl hmamem)) (hc ▸ hb)
              rw [hupd_ne _ _ _ hbma, hupd_ne _ _ _ hbma, hupd_ne _ _ _ hbrp])
            (fun b hb => by
              have hbrp : b ≠ rp2 := fun hc => hb (hc ▸
                mem_plug_addrs.mpr (Or.inl
                  (List.mem_append.mpr (Or.inl hrpmem))))
              have hbma : b ≠
                  (funSMax ll la lv (.node rl2 ra2 rv2 rr2)).1.1 :=
                fun hc => hb (hc ▸ mem_plug_addrs.mpr (Or.inl
                  (List.mem_append.mpr (Or.inl hmamem))))
              rw [hupd_ne _ _ _ hbma, hupd_ne _ _ _ hbma, hupd_ne _ _ _ hbrp])
          exact ⟨s2, hstep.trans heqf, hwf2, hnext, hcnt⟩

theorem setEraseGo_step_eq {s : SetS α} {a : Nat} {v : α} {lo ro : Option Nat}
    {d : α} (hn : s.heap a = some ⟨v, lo, ro⟩) (he : d = v)
    (parent : Option Nat) (fuel : Nat) :
    setEraseGo d parent a s (fuel + 1) =
      (eraseFound s parent a ⟨v, lo, ro⟩ (s.count + 1)).bind
        fun s2 => some (true, s2) := by
  rw [setEraseGo, hn]
  simp only [Option.bind_eq_bind, Option.some_bind]
  rw [if_pos he]
  simp only [Option.bind_eq_bind, Option.pure_def]

theorem setEraseGo_step_rn {s : SetS α} {a : Nat} {v : α} {lo : Option Nat}
    {d : α} (hn : s.heap a = some ⟨v, lo, none⟩) (he : ¬(d = v))
    (hlt : v < d) (parent : Option Nat) (fuel : Nat) :
    setEraseGo d parent a s (fuel + 1) = some (false, s) := by
  rw [setEraseGo, hn]
  simp only [Option.bind_eq_bind, Option.some_bind]
  rw [if_neg he, if_pos hlt]

theorem setEraseGo_step_rs {s : SetS α} {a rr : Nat} {v : α} {lo : Option Nat}
    {d : α} (hn : s.heap a = some ⟨v, lo, some rr⟩) (he : ¬(d = v))
    (hlt : v < d) (parent : Option Nat) (fuel : Nat) :
    setEraseGo d parent a s (fuel + 1) = setEraseGo d (some a) rr s fuel := by
  rw [setEraseGo, hn]
  simp only [Option.bind_eq_bind, Option.some_bind]
  rw [if_neg he, if_pos hlt]

theorem setEraseGo_step_ln {s : SetS α} {a : Nat} {v : α} {ro : Option Nat}
    {d : α} (hn : s.heap a = some ⟨v, none, ro⟩) (he : ¬(d = v))
    (hlt : ¬(v < d)) (parent : Option Nat) (fuel : Nat) :
    setEraseGo d parent a s (fuel + 1) = some (false, s) := by
  rw [setEraseGo, hn]
  simp only [Option.bind_eq_bind, Option.some_bind]
  rw [if_neg he, if_neg hlt]

theorem setEraseGo_step_ls {s : SetS α} {a ll : Nat} {v : α} {ro : Option Nat}
    {d : α} (hn : s.heap a = some ⟨v, some ll, ro⟩) (he : ¬(d = v))
    (hlt : ¬(v < d)) (parent : Option Nat) (fuel : Nat) :
    setEraseGo d parent a s (fuel + 1) = setEraseGo d (some a) ll s fuel := by
  rw [setEraseGo, hn]
  simp only [Option.bind_eq_bind, Option.some_bind]
  rw [if_neg he, if_neg hlt]

/-- The erase descent refines `funErase`: it succeeds, returns the
`funErase` flag, and leaves a well-formed state laying out the `funErase`
tree in the hole; the count drops by one exactly when the value was
found, and the allocator frontier is unchanged. -/
theorem setEraseGo_spec {s : SetS α} {d : α} :
    ∀ (t : ATree α) (fuel : Nat) (path : Path α) (ta : Nat),
      SetWf s (plug path t) → t.rootAddr = some ta → t.size < fuel →
      (∀ x ∈ ctxPre path, x < d) → (∀ x ∈ ctxSuf path, d < x) →
      ∃ res : Bool × SetS α,
        setEraseGo d (pParent path) ta s fuel = some res ∧
        res.1 = (funErase d t).1 ∧
        SetWf res.2 (plug path (funErase d t).2) ∧
        res.2.next = s.next ∧
        res.2.count = s.count - (if (funErase d t).1 then 1 else 0) := by
  intro t
  induction t with
  | leaf => intro fuel path ta _ hroot _ _ _; cases hroot
  | node l a v r ihl ihr =>
    intro fuel path ta hwf hroot hfuel hpre hsuf
    rw [show (ATree.node l a v r).rootAddr = some a from rfl] at hroot
    injection hroot with hta
    subst hta
    cases fuel with
    | zero => exact absurd hfuel (Nat.not_lt_zero _)
    | succ fuel =>
      have hn : s.heap a = some ⟨v, l.rootAddr, r.rootAddr⟩ := hwf.heap_node
      obtain ⟨hctxv, hlv, hrv, hvctx⟩ := sorted_plug_bounds hwf.sorted
      by_cases he : d = v
      · -- found: splice the node out
        have hstep := setEraseGo_step_eq hn he (pParent path) fuel
        have hlsz : l.size < s.count + 1 := by
          have h1 := hwf.hcount
          have h2 := size_plug_le path (ATree.node l a v r)
          have h3 := size_node l a v r
          omega
        obtain ⟨s2, heqf, hwf2, hnext, hcnt⟩ := eraseFound_spec hwf hlsz
        have hT1 : (funErase d (ATree.node l a v r)).1 = true := by
          rw [funErase, if_pos he]
        have hT2 : (funErase d (ATree.node l a v r)).2
            = funDelRoot l a v r := by
          rw [funErase, if_pos he]
        refine ⟨(true, s2), ?_, by rw [hT1], ?_, hnext, ?_⟩
        · rw [hstep, heqf]
          rfl
        · rw [hT2]
          exact hwf2
        · rw [hT1, if_pos rfl]
          exact hcnt
      · by_cases hlt : v < d
        · have hT1 : (funErase d (ATree.node l a v r)).1
              = (funErase d r).1 := by
            rw [funErase, if_neg he, if_pos hlt]
          have hT2 : (funErase d (ATree.node l a v r)).2
              = ATree.node l a v (funErase d r).2 := by
            rw [funErase, if_neg he, if_pos hlt]
          cases r with
          | leaf =>
            have hn2 : s.heap a = some ⟨v, l.rootAddr, none⟩ := hn
            have hstep := setEraseGo_step_rn hn2 he hlt (pParent path) fuel
            have hT1b : (funErase d (ATree.node l a v .leaf)).1 = false := by
              rw [hT1, funErase]
            have hT2b : (funErase d (ATree.node l a v .leaf)).2
                = ATree.node l a v .leaf := by
              rw [hT2, funErase]
            refine ⟨(false, s), hstep, by rw [hT1b], ?_, rfl, ?_⟩
            · rw [hT2b]
              exact hwf
            · rw [hT1b]
              simp
          | node rl ra rv rr =>
            have hn2 : s.heap a = some ⟨v, l.rootAddr, some ra⟩ := hn
            have hstep := setEraseGo_step_rs hn2 he hlt (pParent path) fuel
            have hpre2 : ∀ x ∈ ctxPre (.rt a v l :: path), x < d := by
              intro x hx
              simp only [ctxPre, List.mem_append, List.mem_singleton] at hx
              rcases hx with (hx | hx) | hx
              · exact hpre x hx
              · exact (hlv x hx).trans hlt
              · rw [hx]; exact hlt
            have hsz : (ATree.node rl ra rv rr).size < fuel := by
              have h1 := size_node l a v (ATree.node rl ra rv rr)
              omega
            obtain ⟨res, heq, hr1, hr2, hr3, hr4⟩ := ihr fuel
              (.rt a v l :: path) ra hwf rfl hsz hpre2
              (fun x hx => hsuf x hx)
            refine ⟨res, hstep.trans heq, ?_, ?_, hr3, ?_⟩
            · rw [hT1]; exact hr1
            · rw [hT2]; exact hr2
            · rw [hT1]; exact hr4
        · have hdv : d < v := lt_of_le_of_ne (le_of_not_lt hlt) he
          have hT1 : (funErase d (ATree.node l a v r)).1
              = (funErase d l).1 := by
            rw [funErase, if_neg he, if_neg hlt]
          have hT2 : (funErase d (ATree.node l a v r)).2
              = ATree.node (funErase d l).2 a v r := by
            rw [funErase, if_neg he, if_neg hlt]
          cases l with
          | leaf =>
            have hn2 : s.heap a = some ⟨v, none, r.rootAddr⟩ := hn
            have hstep := setEraseGo_step_ln hn2 he hlt (pParent path) fuel
            have hT1b : (funErase d (ATree.node .leaf a v r)).1 = false := by
              rw [hT1, funErase]
            have hT2b : (funErase d (ATree.node .leaf a v r)).2
                = ATree.node .leaf a v r := by
              rw [hT2, funErase]
            refine ⟨(false, s), hstep, by rw [hT1b], ?_, rfl, ?_⟩
            · rw [hT2b]
              exact hwf
            · rw [hT1b]
              simp
          | node ll la lv lr =>
            have hn2 : s.heap a = some ⟨v, some la, r.rootAddr⟩ := hn
            have hstep := setEraseGo_step_ls hn2 he hlt (pParent path) fuel
            have hsuf2 : ∀ x ∈ ctxSuf (.lt a v r :: path), d < x := by
              intro x hx
              simp only [ctxSuf, List.cons_append, List.mem_cons,
                List.mem_append] at hx
              rcases hx with hx | hx | hx
              · rw [hx]; exact hdv
              · exact hdv.trans (hrv x hx)
              · exact hsuf x hx
            have hsz : (ATree.node ll la lv lr).size < fuel := by
              have h1 := size_node (ATree.node ll la lv lr) a v r
              omega
            obtain ⟨res, heq, hr1, hr2, hr3, hr4⟩ := ihl fuel
              (.lt a v r :: path) la hwf rfl hsz
              (fun x hx => hpre x hx) hsuf2
            refine ⟨res, hstep.trans heq, ?_, ?_, hr3, ?_⟩
            · rw [hT1]; exact hr1
            · rw [hT2]; exact hr2
            · rw [hT1]; exact hr4

/-- `name##_erase` refines `funErase` on any well-formed set. -/
theorem set_erase_spec {s : SetS α} {t : ATree α} {d : α} (hwf : SetWf s t) :
    ∃ res : Bool × SetS α, set_erase s d = some res ∧
      res.1 = (funErase d t).1 ∧
      SetWf res.2 (funErase d t).2 ∧ res.2.next = s.next ∧
      res.2.count = s.count - (if (funErase d t).1 then 1 else 0) := by
  cases t with
  | leaf =>
    have hroot : s.root = none := hwf.tree.root_eq
    rw [set_erase, hroot]
    exact ⟨(false, s), rfl, rfl, hwf, rfl, by rw [funErase]; simp⟩
  | node l a v r =>
    have hroot : s.root = some a := hwf.tree.root_eq
    rw [set_erase, hroot]
    have hsz : (ATree.node l a v r).size < s.count + 1 := by
      rw [hwf.hcount]
      exact Nat.lt_succ_self _
    obtain ⟨res, heq, h1, h2, h3, h4⟩ := setEraseGo_spec (s := s) (d := d)
      (.node l a v r) (s.count + 1) [] a hwf rfl hsz
      (by simp [ctxPre]) (by simp [ctxSuf])
    exact ⟨res, heq, h1, h2, h3, h4⟩

/-- The in-order visit returns the in-order value list of the subtree. -/
theorem setForeachGo_spec {s : SetS α} :
    ∀ (t : ATree α) (fuel : Nat) (ta : Nat),
      IsTree s.heap (some ta) t → t.size < fuel →
      setForeachGo s ta fuel = some t.vals := by
  intro t
  induction t with
  | leaf => intro fuel ta htree _; cases htree
  | node l a v r ihl ihr =>
    intro fuel ta htree hfuel
    cases htree with
    | node hn htl htr =>
      cases fuel with
      | zero => exact absurd hfuel (Nat.not_lt_zero _)
      | succ fuel =>
        rw [setForeachGo, hn]
        simp only [Option.bind_eq_bind, Option.some_bind]
        have hszl : l.size < fuel := by
          have h1 := size_node l a v r
          omega
        have hszr : r.size < fuel := by
          have h1 := size_node l a v r
          omega
        cases l with
        | leaf =>
          cases r with
          | leaf =>
            rw [show (ATree.leaf : ATree α).rootAddr = none from rfl]
            simp only [Option.pure_def, Option.some_bind]
            rfl
          | node rl ra rv rr =>
            rw [show (ATree.leaf : ATree α).rootAddr = none from rfl,
              show (ATree.node rl ra rv rr).rootAddr = some ra from rfl]
            simp only [Option.pure_def, Option.some_bind,
              ihr fuel ra htr hszr]
            rfl
        | node ll la lv lr =>
          rw [show (ATree.node ll la lv lr).rootAddr = some la from rfl]
          cases r with
          | leaf =>
            rw [show (ATree.leaf : ATree α).rootAddr = none from rfl]
            simp only [Option.pure_def, Option.some_bind,
              ihl fuel la htl hszl]
            rfl
          | node rl ra rv rr =>
            rw [show (ATree.node rl ra rv rr).rootAddr = some ra from rfl]
            simp only [Option.pure_def, Option.some_bind,
              ihl fuel la htl hszl, ihr fuel ra htr hszr]
            rfl

/-- `name##_foreach` visits exactly the in-order value list. -/
theorem set_foreach_spec {s : SetS α} {t : ATree α} (hwf : SetWf s t) :
    set_foreach s = some t.vals := by
  cases t with
  | leaf =>
    have hroot : s.root = none := hwf.tree.root_eq
    rw [set_foreach, hroot]
    rfl
  | node l a v r =>
    have hroot : s.root = some a := hwf.tree.root_eq
    rw [set_foreach, hroot]
    have htree : IsTree s.heap (some a) (ATree.node l a v r) := by
      have h1 := hwf.tree
      rwa [hroot] at h1
    refine setForeachGo_spec (ATree.node l a v r) (s.count + 1) a htree ?_
    rw [hwf.hcount]
    exact Nat.lt_succ_self _

/-- Functional mirror of the self-mutating post-order intersection:
keep the node when its value is in `bl`, else splice it out like the
erase that the code performs. -/
def funInter (bl : List α) : ATree α → ATree α
  | .leaf => .leaf
  | .node l a v r =>
    if v ∈ bl then .node (funInter bl l) a v (funInter bl r)
    else funDelRoot (funInter bl l) a v (funInter bl r)

theorem funInter_vals {bl : List α} : ∀ {t : ATree α},
    List.Pairwise (· < ·) t.vals →
    (funInter bl t).vals = t.vals.filter fun x => decide (x ∈ bl) := by
  intro t
  induction t with
  | leaf => intro _; rfl
  | node l a v r ihl ihr =>
    intro hs
    obtain ⟨hsl, hsr, hlv, hrv⟩ := pairwise_node_vals hs
    rw [funInter]
    by_cases hv : v ∈ bl
    · rw [if_pos hv]
      show (funInter bl l).vals ++ v :: (funInter bl r).vals = _
      rw [ihl hsl, ihr hsr,
        show (ATree.node l a v r).vals = l.vals ++ v :: r.vals from rfl,
        List.filter_append, List.filter_cons]
      simp [hv]
    · rw [if_neg hv]
      rw [funDelRoot_vals, ihl hsl, ihr hsr,
        show (ATree.node l a v r).vals = l.vals ++ v :: r.vals from rfl,
        List.filter_append, List.filter_cons]
      simp [hv]

/-- One unfolding of the post-order intersect walk, with each heap read
and recursive result supplied as a hypothesis. -/
theorem setInterGo_step {b s s1 s2 : SetS α} {a : Nat} {fuel : Nat}
    {n1 n2 n3 : SNode α} {c : Bool} {res : Option (SetS α)}
    (hn1 : s.heap a = some n1)
    (h1 : (n1.left = none ∧ s1 = s) ∨
      ∃ l2, n1.left = some l2 ∧ setInterGo b l2 s fuel = some s1)
    (hn2 : s1.heap a = some n2)
    (h2 : (n2.right = none ∧ s2 = s1) ∨
      ∃ r2, n2.right = some r2 ∧ setInterGo b r2 s1 fuel = some s2)
    (hn3 : s2.heap a = some n3)
    (hc : set_contains b n3.data = some c)
    (hres : (if c then (pure s2 : Option (SetS α)) else do
        let p ← set_erase s2 n3.data
        pure p.2) = res) :
    setInterGo b a s (fuel + 1) = res := by
  rw [setInterGo, hn1]
  simp only [Option.bind_eq_bind, Option.some_bind]
  have hmid : ∀ o : Option (SetS α), o = some s2 →
      (o.bind fun s3 => (s3.heap a).bind fun n4 =>
        (set_contains b n4.data).bind fun c2 =>
        if c2 then (pure s3 : Option (SetS α)) else do
          let p ← set_erase s3 n4.data
          pure p.2) = res := by
    intro o ho
    rw [ho, Option.some_bind, hn3, Option.some_bind, hc, Option.some_bind]
    exact hres
  have hres2 : (if c then (some s2 : Option (SetS α)) else
      (set_erase s2 n3.data).bind fun p => some p.2) = res := by
    rw [← hres]
    rfl
  rcases h1 with ⟨hl, rfl⟩ | ⟨l2, hl, hrec⟩
  · rw [hl]
    simp only [Option.pure_def, Option.some_bind]
    rw [hn2]
    simp only [Option.some_bind]
    rcases h2 with ⟨hr2, rfl⟩ | ⟨r2, hr2, hrec2⟩
    · rw [hr2]
      simp only [Option.pure_def, Option.some_bind]
      have h23 : n2 = n3 := by
        rw [hn2] at hn3
        injection hn3
      rw [h23, hc]
      simp only [Option.some_bind]
      exact hres2
    · rw [hr2]
      simp only []
      rw [hrec2, Option.some_bind, hn3, Option.some_bind, hc,
        Option.some_bind]
      exact hres2
  · rw [hl]
    simp only []
    rw [hrec, Option.some_bind, hn2, Option.some_bind]
    rcases h2 with ⟨hr2, rfl⟩ | ⟨r2, hr2, hrec2⟩
    · rw [hr2]
      simp only [Option.pure_def, Option.some_bind]
      rw [hn3]
      simp only [Option.some_bind]
      rw [hc]
      simp only [Option.some_bind]
      exact hres2
    · rw [hr2]
      simp only []
      rw [hrec2, Option.some_bind, hn3, Option.some_bind, hc,
        Option.some_bind]
      exact hres2

/-- The post-order intersect walk refines `funInter` over the argument
set's value list: it never touches a freed node (it returns `some`), and
the subtree in the hole becomes `funInter tb.vals t`. -/
theorem setInterGo_spec {b : SetS α} {tb : ATree α} (hwfB : SetWf b tb) :
    ∀ (t : ATree α) (fuel : Nat) (path : Path α) (s : SetS α) (ta : Nat),
      SetWf s (plug path t) → t.rootAddr = some ta → t.size < fuel →
      ∃ s2, setInterGo b ta s fuel = some s2 ∧
        SetWf s2 (plug path (funInter tb.vals t)) ∧ s2.next = s.next := by
  intro t
  induction t with
  | leaf => intro fuel path s ta _ hroot _; cases hroot
  | node l a v r ihl ihr =>
    intro fuel path s ta hwf hroot hfuel
    rw [show (ATree.node l a v r).rootAddr = some a from rfl] at hroot
    injection hroot with hta
    subst hta
    cases fuel with
    | zero => exact absurd hfuel (Nat.not_lt_zero _)
    | succ fuel =>
      have hn1 : s.heap a = some ⟨v, l.rootAddr, r.rootAddr⟩ := hwf.heap_node
      have hszl : l.size < fuel := by
        have h1 := size_node l a v r
        omega
      have hszr : r.size < fuel := by
        have h1 := size_node l a v r
        omega
      -- left recursion
      obtain ⟨s1, hwf1, hnext1, hcase1⟩ : ∃ s1,
          SetWf s1 (plug path (.node (funInter tb.vals l) a v r)) ∧
          s1.next = s.next ∧
          ((l.rootAddr = none ∧ s1 = s) ∨
            ∃ l2, l.rootAddr = some l2 ∧ setInterGo b l2 s fuel = some s1) := by
        cases l with
        | leaf => exact ⟨s, hwf, rfl, Or.inl ⟨rfl, rfl⟩⟩
        | node ll la lv lr =>
          obtain ⟨s1, heq, hwf1, hnext1⟩ := ihl fuel (.lt a v r :: path) s la
            hwf rfl hszl
          exact ⟨s1, hwf1, hnext1, Or.inr ⟨la, rfl, heq⟩⟩
      have hn2 : s1.heap a =
          some ⟨v, (funInter tb.vals l).rootAddr, r.rootAddr⟩ :=
        hwf1.heap_node
      -- right recursion
      obtain ⟨s2, hwf2, hnext2, hcase2⟩ : ∃ s2,
          SetWf s2 (plug path (.node (funInter tb.vals l) a v
            (funInter tb.vals r))) ∧
          s2.next = s1.next ∧
          ((r.rootAddr = none ∧ s2 = s1) ∨
            ∃ r2, r.rootAddr = some r2 ∧ setInterGo b r2 s1 fuel = some s2) := by
        cases r with
        | leaf => exact ⟨s1, hwf1, rfl, Or.inl ⟨rfl, rfl⟩⟩
        | node rl ra rv rr =>
          obtain ⟨s2, heq, hwf2, hnext2⟩ := ihr fuel
            (.rt a v (funInter tb.vals l) :: path) s1 ra hwf1 rfl hszr
          exact ⟨s2, hwf2, hnext2, Or.inr ⟨ra, rfl, heq⟩⟩
      have hn3 : s2.heap a =
          some ⟨v, (funInter tb.vals l).rootAddr,
            (funInter tb.vals r).rootAddr⟩ :=
        hwf2.heap_node
      have hc := set_contains_spec hwfB v
      by_cases hv : v ∈ tb.vals
      · -- value kept
        refine ⟨s2, setInterGo_step hn1 hcase1 hn2 hcase2 hn3 hc ?_, ?_, ?_⟩
        · simp [hv]
        · rw [funInter, if_pos hv]
          exact hwf2
        · rw [hnext2, hnext1]
      · -- value erased from the whole tree
        obtain ⟨hb1, hb2, hb3, hb4⟩ := sorted_plug_bounds hwf2.sorted
        have hplug := funErase_plug (d := v) path
          (.node (funInter tb.vals l) a v (funInter tb.vals r)) hb1 hb4
        have hfe : funErase v (plug path (.node (funInter tb.vals l) a v
            (funInter tb.vals r))) = (true, plug path
              (funDelRoot (funInter tb.vals l) a v (funInter tb.vals r))) := by
          rw [hplug, funErase, if_pos rfl]
        obtain ⟨resE, heqE, _, hwfE, hnextE, _⟩ := set_erase_spec (d := v) hwf2
        rw [hfe] at hwfE
        refine ⟨resE.2, setInterGo_step hn1 hcase1 hn2 hcase2 hn3 hc ?_, ?_, ?_⟩
        · show (if decide (v ∈ tb.vals) then (pure s2 : Option (SetS α))
            else do
              let p ← set_erase s2 v
              pure p.2) = some resE.2
          rw [decide_eq_false hv]
          simp only [Bool.false_eq_true, if_false]
          rw [heqE]
          simp only [Option.bind_eq_bind, Option.some_bind, Option.pure_def]
        · rw [funInter, if_neg hv]
          exact hwfE
        · rw [hnextE, hnext2, hnext1]

theorem setUnionGo_step {b s s1 : SetS α} {a : Nat} {fuel : Nat}
    {n : SNode α} {p : Bool × SetS α} {res : Option (SetS α)}
    (hn : b.heap a = some n)
    (h1 : (n.left = none ∧ s1 = s) ∨
      ∃ l2, n.left = some l2 ∧ setUnionGo b l2 s fuel = some s1)
    (hp : set_insert s1 n.data = some p)
    (h2 : (n.right = none ∧ res = some p.2) ∨
      ∃ r2, n.right = some r2 ∧ setUnionGo b r2 p.2 fuel = res) :
    setUnionGo b a s (fuel + 1) = res := by
  rw [setUnionGo, hn]
  simp only [Option.bind_eq_bind, Option.some_bind]
  rcases h1 with ⟨hl, rfl⟩ | ⟨l2, hl, hrec⟩
  · rw [hl]
    simp only [Option.pure_def, Option.some_bind]
    rw [hp]
    simp only [Option.some_bind]
    rcases h2 with ⟨hr, hres⟩ | ⟨r2, hr, hres⟩
    · rw [hr]
      exact hres.symm
    · rw [hr]
      exact hres
  · rw [hl]
    simp only []
    rw [hrec, Option.some_bind, hp, Option.some_bind]
    rcases h2 with ⟨hr, hres⟩ | ⟨r2, hr, hres⟩
    · rw [hr]
      exact hres.symm
    · rw [hr]
      exact hres

theorem setDiffGo_step {b s s1 : SetS α} {a : Nat} {fuel : Nat}
    {n : SNode α} {p : Bool × SetS α} {res : Option (SetS α)}
    (hn : b.heap a = some n)
    (h1 : (n.left = none ∧ s1 = s) ∨
      ∃ l2, n.left = some l2 ∧ setDiffGo b l2 s fuel = some s1)
    (hp : set_erase s1 n.data = some p)
    (h2 : (n.right = none ∧ res = some p.2) ∨
      ∃ r2, n.right = some r2 ∧ setDiffGo b r2 p.2 fuel = res) :
    setDiffGo b a s (fuel + 1) = res := by
  rw [setDiffGo, hn]
  simp only [Option.bind_eq_bind, Option.some_bind]
  rcases h1 with ⟨hl, rfl⟩ | ⟨l2, hl, hrec⟩
  · rw [hl]
    simp only [Option.pure_def, Option.some_bind]
    rw [hp]
    simp only [Option.some_bind]
    rcases h2 with ⟨hr, hres⟩ | ⟨r2, hr, hres⟩
    · rw [hr]
      exact hres.symm
    · rw [hr]
      exact hres
  · rw [hl]
    simp only []
    rw [hrec, Option.some_bind, hp, Option.some_bind]
    rcases h2 with ⟨hr, hres⟩ | ⟨r2, hr, hres⟩
    · rw [hr]
      exact hres.symm
    · rw [hr]
      exact hres

theorem set_new_wf : SetWf (set_new α) .leaf :=
  ⟨.leaf, List.nodup_nil, List.Pairwise.nil, rfl,
    by intro b hb; simp [ATree.addrs] at hb, fun b _ => rfl⟩

/-- The union walk keeps the target set well formed (over some tree). -/
theorem setUnionGo_spec {b : SetS α} :
    ∀ (tb : ATree α) (fuel : Nat) (ab : Nat) (s : SetS α) (t : ATree α),
      IsTree b.heap (some ab) tb → tb.size < fuel → SetWf s t →
      ∃ s2 t2, setUnionGo b ab s fuel = some s2 ∧ SetWf s2 t2 := by
  intro tb
  induction tb with
  | leaf => intro fuel ab s t htree _ _; cases htree
  | node bl ba bv br ihl ihr =>
    intro fuel ab s t htree hfuel hwf
    cases htree with
    | node hn htl htr =>
      cases fuel with
      | zero => exact absurd hfuel (Nat.not_lt_zero _)
      | succ fuel =>
        have hszl : bl.size < fuel := by
          have h1 := size_node bl ba bv br
          omega
        have hszr : br.size < fuel := by
          have h1 := size_node bl ba bv br
          omega
        obtain ⟨s1, t1, hwf1, hcase1⟩ : ∃ s1 t1, SetWf s1 t1 ∧
            ((bl.rootAddr = none ∧ s1 = s) ∨
              ∃ l2, bl.rootAddr = some l2 ∧
                setUnionGo b l2 s fuel = some s1) := by
          cases bl with
          | leaf => exact ⟨s, t, hwf, Or.inl ⟨rfl, rfl⟩⟩
          | node x1 x2 x3 x4 =>
            obtain ⟨s1, t1, heq, hwf1⟩ := ihl fuel x2 s t htl hszl hwf
            exact ⟨s1, t1, hwf1, Or.inr ⟨x2, rfl, heq⟩⟩
        obtain ⟨p, hp, _, hwfp⟩ := set_insert_spec (d := bv) hwf1
        cases br with
        | leaf =>
          exact ⟨p.2, _, setUnionGo_step hn hcase1 hp
            (Or.inl ⟨rfl, rfl⟩), hwfp⟩
        | node y1 y2 y3 y4 =>
          obtain ⟨s2, t2, heq2, hwf2⟩ := ihr fuel y2 p.2 _ htr hszr hwfp
          exact ⟨s2, t2, setUnionGo_step hn hcase1 hp
            (Or.inr ⟨y2, rfl, heq2⟩), hwf2⟩

/-- The difference walk keeps the target set well formed. -/
theorem setDiffGo_spec {b : SetS α} :
    ∀ (tb : ATree α) (fuel : Nat) (ab : Nat) (s : SetS α) (t : ATree α),
      IsTree b.heap (some ab) tb → tb.size < fuel → SetWf s t →
      ∃ s2 t2, setDiffGo b ab s fuel = some s2 ∧ SetWf s2 t2 := by
  intro tb
  induction tb with
  | leaf => intro fuel ab s t htree _ _; cases htree
  | node bl ba bv br ihl ihr =>
    intro fuel ab s t htree hfuel hwf
    cases htree with
    | node hn htl htr =>
      cases fuel with
      | zero => exact absurd hfuel (Nat.not_lt_zero _)
      | succ fuel =>
        have hszl : bl.size < fuel := by
          have h1 := size_node bl ba bv br
          omega
        have hszr : br.size < fuel := by
          have h1 := size_node bl ba bv br
          omega
        obtain ⟨s1, t1, hwf1, hcase1⟩ : ∃ s1 t1, SetWf s1 t1 ∧
            ((bl.rootAddr = none ∧ s1 = s) ∨
              ∃ l2, bl.rootAddr = some l2 ∧
                setDiffGo b l2 s fuel = some s1) := by
          cases bl with
          | leaf => exact ⟨s, t, hwf, Or.inl ⟨rfl, rfl⟩⟩
          | node x1 x2 x3 x4 =>
            obtain ⟨s1, t1, heq, hwf1⟩ := ihl fuel x2 s t htl hszl hwf
            exact ⟨s1, t1, hwf1, Or.inr ⟨x2, rfl, heq⟩⟩
        obtain ⟨p, hp, _, hwfp, _, _⟩ := set_erase_spec (d := bv) hwf1
        cases br with
        | leaf =>
          exact ⟨p.2, _, setDiffGo_step hn hcase1 hp
            (Or.inl ⟨rfl, rfl⟩), hwfp⟩
        | node y1 y2 y3 y4 =>
          obtain ⟨s2, t2, heq2, hwf2⟩ := ihr fuel y2 p.2 _ htr hszr hwfp
          exact ⟨s2, t2, setDiffGo_step hn hcase1 hp
            (Or.inr ⟨y2, rfl, heq2⟩), hwf2⟩

theorem set_union_wf {s b2 : SetS α} {t tb : ATree α}
    (hwfs : SetWf s t) (hwfb : SetWf b2 tb) :
    ∃ s2 t2, set_union s b2 = some s2 ∧ SetWf s2 t2 := by
  cases tb with
  | leaf =>
    have hroot : b2.root = none := hwfb.tree.root_eq
    rw [set_union, hroot]
    exact ⟨s, t, rfl, hwfs⟩
  | node bl ba bv br =>
    have hroot : b2.root = some ba := hwfb.tree.root_eq
    rw [set_union, hroot]
    have htree : IsTree b2.heap (some ba) (ATree.node bl ba bv br) := by
      have h1 := hwfb.tree
      rwa [hroot] at h1
    refine setUnionGo_spec (ATree.node bl ba bv br) (b2.count + 1) ba s t
      htree ?_ hwfs
    rw [hwfb.hcount]
    exact Nat.lt_succ_self _

theorem set_difference_wf {s b2 : SetS α} {t tb : ATree α}
    (hwfs : SetWf s t) (hwfb : SetWf b2 tb) :
    ∃ s2 t2, set_difference s b2 = some s2 ∧ SetWf s2 t2 := by
  cases tb with
  | leaf =>
    have hroot : b2.root = none := hwfb.tree.root_eq
    rw [set_difference, hroot]
    exact ⟨s, t, rfl, hwfs⟩
  | node bl ba bv br =>
    have hroot : b2.root = some ba := hwfb.tree.root_eq
    rw [set_difference, hroot]
    have htree : IsTree b2.heap (some ba) (ATree.node bl ba bv br) := by
      have h1 := hwfb.tree
      rwa [hroot] at h1
    refine setDiffGo_spec (ATree.node bl ba bv br) (b2.count + 1) ba s t
      htree ?_ hwfs
    rw [hwfb.hcount]
    exact Nat.lt_succ_self _

/-- `name##_intersect` on well-formed sets: succeeds (every pointer read
hits an allocated node) and leaves `funInter` of the trees. -/
theorem set_intersect_wf {s b2 : SetS α} {t tb : ATree α}
    (hwfs : SetWf s t) (hwfb : SetWf b2 tb) :
    ∃ s2, set_intersect s b2 = some s2 ∧
      SetWf s2 (funInter tb.vals t) ∧ s2.next = s.next := by
  cases t with
  | leaf =>
    have hroot : s.root = none := hwfs.tree.root_eq
    rw [set_intersect, hroot]
    exact ⟨s, rfl, hwfs, rfl⟩
  | node l a v r =>
    have hroot : s.root = some a := hwfs.tree.root_eq
    rw [set_intersect, hroot]
    have hsz : (ATree.node l a v r).size < s.count + 1 := by
      rw [hwfs.hcount]
      exact Nat.lt_succ_self _
    exact setInterGo_spec hwfb (.node l a v r) (s.count + 1) [] s a
      hwfs rfl hsz

/-- States reachable from `name##_new()` by the public mutating API. -/
inductive SetReach : SetS α → Prop where
  | new : SetReach (set_new α)
  | ins {s u : SetS α} {b2 : Bool} {d : α} :
      SetReach s → set_insert s d = some (b2, u) → SetReach u
  | ers {s u : SetS α} {b2 : Bool} {d : α} :
      SetReach s → set_erase s d = some (b2, u) → SetReach u
  | uni {s t2 u : SetS α} :
      SetReach s → SetReach t2 → set_union s t2 = some u → SetReach u
  | inter {s t2 u : SetS α} :
      SetReach s → SetReach t2 → set_intersect s t2 = some u → SetReach u
  | diff {s t2 u : SetS α} :
      SetReach s → SetReach t2 → set_difference s t2 = some u → SetReach u

/-- Every reachable set state is well formed over some abstract tree. -/
theorem setReach_wf {s : SetS α} (h : SetReach s) : ∃ t, SetWf s t := by
  induction h with
  | new => exact ⟨.leaf, set_new_wf⟩
  | ins hr heq ih =>
    obtain ⟨t, hwf⟩ := ih
    obtain ⟨res, heq2, _, hwf2⟩ := set_insert_spec hwf
    rw [heq] at heq2
    obtain rfl : _ = res := Option.some.inj heq2
    exact ⟨_, hwf2⟩
  | ers hr heq ih =>
    obtain ⟨t, hwf⟩ := ih
    obtain ⟨res, heq2, _, hwf2, _, _⟩ := set_erase_spec hwf
    rw [heq] at heq2
    obtain rfl : _ = res := Option.some.inj heq2
    exact ⟨_, hwf2⟩
  | uni hr1 hr2 heq ih1 ih2 =>
    obtain ⟨t, hwf⟩ := ih1
    obtain ⟨tb, hwfb⟩ := ih2
    obtain ⟨s2, t2, heq2, hwf2⟩ := set_union_wf hwf hwfb
    rw [heq] at heq2
    obtain rfl : _ = s2 := Option.some.inj heq2
    exact ⟨t2, hwf2⟩
  | inter hr1 hr2 heq ih1 ih2 =>
    obtain ⟨t, hwf⟩ := ih1
    obtain ⟨tb, hwfb⟩ := ih2
    obtain ⟨s2, heq2, hwf2, _⟩ := set_intersect_wf hwf hwfb
    rw [heq] at heq2
    obtain rfl : _ = s2 := Option.some.inj heq2
    exact ⟨_, hwf2⟩
  | diff hr1 hr2 heq ih1 ih2 =>
    obtain ⟨t, hwf⟩ := ih1
    obtain ⟨tb, hwfb⟩ := ih2
    obtain ⟨s2, t2, heq2, hwf2⟩ := set_difference_wf hwf hwfb
    rw [heq] at heq2
    obtain rfl : _ = s2 := Option.some.inj heq2
    exact ⟨t2, hwf2⟩

/-- C7: on every set reachable from `name##_new()` by the public API
(the macro instantiated with `x_y_equals` as `=` and `x_y_comparer` as
`DEFAULT_COMPARE`, i.e. `x > y`), the in-order `forEach` succeeds and
visits the stored values in strictly ascending order — in particular no
two visited nodes compare equal — and the stored count equals the number
of nodes visited. -/
theorem set_inorder_sorted (s : SetS α) (h : SetReach s) :
    ∃ l, set_foreach s = some l ∧ List.Pairwise (· < ·) l ∧
      l.Nodup ∧ s.count = l.length := by
  obtain ⟨t, hwf⟩ := setReach_wf h
  exact ⟨t.vals, set_foreach_spec hwf, hwf.sorted,
    hwf.sorted.imp ne_of_lt, hwf.hcount⟩

/-- C2: for reachable sets `A` and `B`, `A.intersect(B)` completes with
no access to a freed node (the model returns `none` on any such access,
and the operation returns `some`), after which `A` holds exactly the
values present in both original sets and `A`'s stored count matches. -/
theorem set_intersect_spec (sA sB : SetS α)
    (hA : SetReach sA) (hB : SetReach sB) :
    ∃ (s2 : SetS α) (lA lB : List α),
      set_foreach sA = some lA ∧ set_foreach sB = some lB ∧
      set_intersect sA sB = some s2 ∧
      set_foreach s2 = some (lA.filter fun x => decide (x ∈ lB)) ∧
      s2.count = (lA.filter fun x => decide (x ∈ lB)).length := by
  obtain ⟨tA, hwfA⟩ := setReach_wf hA
  obtain ⟨tB, hwfB⟩ := setReach_wf hB
  obtain ⟨s2, heq, hwf2, _⟩ := set_intersect_wf hwfA hwfB
  refine ⟨s2, tA.vals, tB.vals, set_foreach_spec hwfA,
    set_foreach_spec hwfB, heq, ?_, ?_⟩
  · rw [set_foreach_spec hwf2, funInter_vals hwfA.sorted]
  · rw [hwf2.hcount]
    show (funInter tB.vals tA).vals.length = _
    rw [funInter_vals hwfA.sorted]

def c7s1 : SetS Nat :=
  ((set_insert (set_new Nat) 5).getD (false, set_new Nat)).2

def c7s2 : SetS Nat :=
  ((set_insert c7s1 3).getD (false, set_new Nat)).2

/-- Witness for C7 at the concrete set {5, 3}. -/
theorem set_inorder_sorted_witness :
    ∃ l, set_foreach c7s2 = some l ∧ List.Pairwise (· < ·) l ∧
      l.Nodup ∧ c7s2.count = l.length :=
  set_inorder_sorted c7s2
    (SetReach.ins (u := c7s2) (d := 3)
      (SetReach.ins (u := c7s1) (d := 5) SetReach.new rfl) rfl)

def c2a1 : SetS Nat :=
  ((set_insert (set_new Nat) 1).getD (false, set_new Nat)).2

def c2a2 : SetS Nat :=
  ((set_insert c2a1 2).getD (false, set_new Nat)).2

def c2b1 : SetS Nat :=
  ((set_insert (set_new Nat) 2).getD (false, set_new Nat)).2

/-- Witness for C2 at the concrete sets A = {1, 2}, B = {2}. -/
theorem set_intersect_spec_witness :
    ∃ (s2 : SetS Nat) (lA lB : List Nat),
      set_foreach c2a2 = some lA ∧ set_foreach c2b1 = some lB ∧
      set_intersect c2a2 c2b1 = some s2 ∧
      set_foreach s2 = some (lA.filter fun x => decide (x ∈ lB)) ∧
      s2.count = (lA.filter fun x => decide (x ∈ lB)).length :=
  set_intersect_spec c2a2 c2b1
    (SetReach.ins (u := c2a2) (d := 2)
      (SetReach.ins (u := c2a1) (d := 1) SetReach.new rfl) rfl)
    (SetReach.ins (u := c2b1) (d := 2) SetReach.new rfl)

end DS
